import Mathlib

/-!
# cflow graph engine (src/common/graph.c, src/common/printgraph.c)

A shallow embedding of the call-graph engine: the node store (`add_g_node`,
`get_definition_node`), the edge attacher (`add_to_call_stack`) and the two
renderers (`print_preorder`, `print_callers`, driven by `print_graph`).

Memory model.  The C code keeps all `g_node_t` objects in one singly linked
list (`graph->defines`, linked through `next`).  Nodes are only ever appended
at the tail and never unlinked, so the position of a node in that list is a
stable identity: a `g_node_t *` is modelled by that position (a `Nat`), and
`graph->defines` by the `List g_node_t` of the nodes in link order.  A
`g_subnode_t` list (`node->list`, `node->callers`, the `calls` batch) is
modelled by the list of its `content` pointers in link order; the cells of a
batch passed to `add_to_call_stack` are fresh, as the scanner builds them.  A
C string is a `String`, one `Char` per `char`: `strlen` is `String.length`
and `strcmp` the lexicographic order of the character codes.  Allocation
failure is not modelled.  `int` counters are natural numbers (a render would
have to print 2^31 lines before `count` wraps).

Loops whose termination is not structural carry a bound as first argument
(`drop_redundant`, `print_graph_pad`, `print_preorder`); for each the bound
used is shown to be enough (`drop_redundant_fuel`, `print_graph_pad_fuel`,
`print_preorder_total` with `print_preorder_mono_le`).
-/

namespace Cflow

/-- Modelled from the spec: the header graph.h is not among the sources; the
node kind `NodeType` is the enumeration FUNCTION / VARIABLE (the code only
ever tests `ntype == VARIABLE`). -/
inductive NodeType where
  | FUNCTION
  | VARIABLE
deriving DecidableEq, Repr

/-- Modelled from the spec: the header graph.h is not among the sources; the
fields are the ones the code in graph.c reads and writes.  `list` are the
callees, `callers` the back-links, each the `content` pointers of the
`g_subnode_t` chain in link order.  `line = -1` marks a node that is only
referenced. -/
structure g_node_t where
  name : String
  namelen : Nat
  type : Option String
  file : Option String
  line : Int
  ntype : NodeType
  list : List Nat
  callers : List Nat
  printed : Bool
deriving DecidableEq, Repr

/-- Modelled from the spec: the header graph.h is not among the sources; the
fields are the ones set by `main` in cgraph.c.  `root` is the configured root
name; `rootnode` is the bound root node (`graph->rootnode` in printgraph.c,
the file-static `root` pointer in graph.c). -/
structure graph_t where
  root : String
  defines : List g_node_t
  excludes : List String
  statics : Bool
  privates : Bool
  depth : Int
  complete : Bool
  reversed : Bool
  rootnode : Option Nat
deriving DecidableEq, Repr

/-- The object a dangling pointer would read; never reached from a graph all of
whose pointers are positions of `defines`. -/
def blank_node : g_node_t :=
  { name := "", namelen := 0, type := none, file := none, line := -1,
    ntype := NodeType.FUNCTION, list := [], callers := [], printed := false }

/-- Dereference of a `g_node_t *`. -/
def deref (defs : List g_node_t) (p : Nat) : g_node_t :=
  (defs[p]?).getD blank_node

/-- Store through a `g_node_t *`: `*p = f (*p)`. -/
def store (defs : List g_node_t) (p : Nat) (f : g_node_t → g_node_t) : List g_node_t :=
  defs.set p (f (deref defs p))

/-- `nodes_contain`: is there an entry with that name in the `node_t` list. -/
def nodes_contain : List String → String → Bool
  | [], _ => false
  | n :: list, name => if n = name then true else nodes_contain list name

/-- `create_g_node`: a fresh node without edges.  The C function leaves `ntype`
unset; `add_g_node` assigns it right after the call. -/
def create_g_node (name : String) (type file : Option String) (line : Int) : g_node_t :=
  { name := name, namelen := name.length, type := type, file := file, line := line,
    ntype := NodeType.FUNCTION, list := [], callers := [], printed := false }

/-- `get_definition_node`: the first node of the list with that name, or NULL. -/
def get_definition_node : List g_node_t → String → Option Nat
  | [], _ => none
  | cur :: rest, name =>
    if cur.name = name then some 0
    else (get_definition_node rest name).map (fun p => p + 1)

/-- `add_g_node`: returns the graph after the call and the returned node. -/
def add_g_node (graph : graph_t) (ntype : NodeType) (name : String)
    (type file : Option String) (line : Int) : graph_t × Nat :=
  let upgrade : Option Nat :=
    if line ≠ -1 then
      match get_definition_node graph.defines name with
      | some add => if (deref graph.defines add).line = -1 then some add else none
      | none => none
    else none
  match upgrade with
  | some add =>
    ({ graph with
        defines := store graph.defines add (fun n =>
          { n with
            line := line
            type := if type.isSome && n.type.isNone then type else n.type
            ntype := ntype }) },
     add)
  | none =>
    let add : g_node_t := { create_g_node name type file line with ntype := ntype }
    ({ graph with
        defines := graph.defines ++ [add]
        rootnode := if name = graph.root then some graph.defines.length else graph.rootnode },
     graph.defines.length)

/-- The test `tmp->content == plist->content || strcmp (...) == 0` of
`add_to_call_stack`. -/
def same_target (defs : List g_node_t) (a b : Nat) : Bool :=
  a == b || (deref defs a).name == (deref defs b).name

/-- Inner loop of the first pass of `add_to_call_stack`: walk the cells after
`tmp` and unlink the first one that has the same target, then stop. -/
def unlink_first (defs : List g_node_t) (tmp : Nat) : List Nat → List Nat
  | [] => []
  | p :: plist => if same_target defs tmp p then plist else p :: unlink_first defs tmp plist

/-- First pass of `add_to_call_stack` (lines 352-376): for every cell `tmp` of
the batch, in turn, run the inner loop on the cells behind it and move on to
`tmp->next`.  The first argument bounds the number of iterations; the length
of the batch is enough, since every iteration leaves one cell behind. -/
def drop_redundant (defs : List g_node_t) : Nat → List Nat → List Nat
  | 0, calls => calls
  | _ + 1, [] => []
  | fuel + 1, tmp :: rest => tmp :: drop_redundant defs fuel (unlink_first defs tmp rest)

/-- Second pass of `add_to_call_stack` (lines 380-405): for every cell of the
parent's callee list, unlink every cell of the batch with the same target. -/
def drop_present (defs : List g_node_t) (plist : List Nat) (calls : List Nat) : List Nat :=
  plist.foldl (fun calls p => calls.filter (fun c => !same_target defs c p)) calls

/-- One iteration of the back-link loop of `add_to_call_stack` (lines 412-445)
for the callee `c`: an empty caller list becomes `[parent]`; otherwise the
list is scanned while `plist->next` is not NULL, so every cell but the last is
compared with `parent`, and `parent` is appended when none of them matched. -/
def add_caller (defs : List g_node_t) (parent c : Nat) : List g_node_t :=
  if (deref defs c).callers = [] then
    store defs c (fun n => { n with callers := [parent] })
  else if (deref defs c).callers.dropLast.contains parent then defs
  else store defs c (fun n => { n with callers := n.callers ++ [parent] })

/-- The back-link loop of `add_to_call_stack` over the batch. -/
def link_callers (defs : List g_node_t) (parent : Nat) (calls : List Nat) : List g_node_t :=
  calls.foldl (fun defs c => add_caller defs parent c) defs

/-- The block `if (!graph->complete) ...` of `add_to_call_stack` (lines
348-406): the cells of the batch that are still linked after the two passes;
in complete mode the batch as passed. -/
def kept_calls (graph : graph_t) (parent : Nat) (calls : List Nat) : List Nat :=
  if !graph.complete then
    drop_present graph.defines (deref graph.defines parent).list
      (drop_redundant graph.defines calls.length calls)
  else calls

/-- `add_to_call_stack`; `none` is the NULL dereference of `parent` when no
node is named `function`. -/
def add_to_call_stack (graph : graph_t) (function : String) (calls : List Nat) :
    Option graph_t :=
  match get_definition_node graph.defines function with
  | none => none
  | some parent =>
    let calls := kept_calls graph parent calls
    let defs := link_callers graph.defines parent calls
    some { graph with defines := store defs parent (fun n => { n with list := n.list ++ calls }) }

/-- One call of `print_node`: its arguments `node`, `pad`, `maxlen`, `count`,
and, as a trace annotation, the value of the local `depth` of the function
that made the call. -/
structure line_t where
  node : Nat
  pad : Nat
  maxlen : Nat
  count : Nat
  depth : Nat
deriving DecidableEq, Repr

/-- The three early returns at the head of `print_preorder` and
`print_callers`: private name, variable, excluded keyword. -/
def suppressed (graph : graph_t) (node : g_node_t) : Bool :=
  (!graph.privates && node.name.data.head? == some '_')
  || (!graph.statics && node.ntype == NodeType.VARIABLE)
  || nodes_contain graph.excludes node.name

/-- The loop `while (sub) { body (sub->content); sub = sub->next; }` over a
subnode chain, for a body that may fail to return. -/
def walk {σ : Type} (body : Nat → σ → Option (σ × List line_t)) :
    List Nat → σ → Option (σ × List line_t)
  | [], s => some (s, [])
  | c :: sub, s =>
    match body c s with
    | none => none
    | some (s1, out1) =>
      match walk body sub s1 with
      | none => none
      | some (s2, out2) => some (s2, out1 ++ out2)

/-- The loop computing `sublen`: the largest `namelen` in a subnode chain. -/
def max_namelen (defs : List g_node_t) (sub : List Nat) : Nat :=
  sub.foldl
    (fun sublen c => if (deref defs c).namelen > sublen then (deref defs c).namelen else sublen)
    0

/-- `node->printed = TRUE`. -/
def mark_printed (graph : graph_t) (node : Nat) : graph_t :=
  { graph with defines := store graph.defines node (fun n => { n with printed := true }) }

/-- `print_preorder`, with the mutable state (the graph with its `printed`
flags, and `*count`) passed through and the calls of `print_node` returned in
order.  The first argument bounds the nesting of recursive calls; `none`
means the bound was hit. -/
def print_preorder : Nat → graph_t × Nat → Nat → Nat → Nat → Nat →
    Option ((graph_t × Nat) × List line_t)
  | 0, _, _, _, _, _ => none
  | fuel + 1, (graph, count), node, depth, maxlen, pad =>
    if suppressed graph (deref graph.defines node) then some ((graph, count), [])
    else
      let ln : line_t :=
        { node := node, pad := pad, maxlen := maxlen, count := count, depth := depth }
      if (deref graph.defines node).printed then some ((graph, count + 1), [ln])
      else if (depth : Int) ≥ graph.depth then some ((mark_printed graph node, count + 1), [ln])
      else
        let sub := (deref graph.defines node).list
        let sublen := max_namelen graph.defines sub
        match walk (fun c s => print_preorder fuel s c (depth + 1) (maxlen + sublen + 1) pad)
                sub (mark_printed graph node, count + 1) with
        | none => none
        | some (s, out) => some (s, ln :: out)

/-- The caller loop of `print_callers` (lines 595-607): one `print_node` per
cell of `node->callers`.  The two tests inside the loop read `node`, the node
whose callers are listed, as in the source; `sub->content` is only printed. -/
def print_callers_loop (graph : graph_t) (node depth width pad : Nat) :
    List Nat → Nat → Nat × List line_t
  | [], count => (count, [])
  | c :: sub, count =>
    if !graph.privates && (deref graph.defines node).name.data.head? == some '_' then (count, [])
    else if !graph.statics && (deref graph.defines node).ntype == NodeType.VARIABLE then (count, [])
    else
      let r := print_callers_loop graph node depth width pad sub (count + 1)
      (r.1, { node := c, pad := pad, maxlen := width, count := count, depth := depth } :: r.2)

/-- `print_callers`: the node's own line, then the caller loop.  Returns the
new `*count` and the calls of `print_node` in order. -/
def print_callers (graph : graph_t) (count : Nat) (node depth maxlen pad : Nat) :
    Nat × List line_t :=
  if suppressed graph (deref graph.defines node) then (count, [])
  else
    let ln : line_t :=
      { node := node, pad := pad, maxlen := maxlen, count := count, depth := depth }
    if (depth : Int) ≥ graph.depth then (count + 1, [ln])
    else
      let sublen := max_namelen graph.defines (deref graph.defines node).callers
      let r := print_callers_loop graph node depth (maxlen + sublen + 1) pad
                (deref graph.defines node).callers (count + 1)
      (r.1, ln :: r.2)

/-- `compare_gnodes`: `strcmp` of the two names. -/
def compare_gnodes (defs : List g_node_t) (a b : Nat) : Ordering :=
  compare (deref defs a).name (deref defs b).name

/-- Insertion of one element into a list sorted by `cmp`. -/
def qsort_insert (cmp : Nat → Nat → Ordering) (a : Nat) : List Nat → List Nat
  | [] => [a]
  | b :: rest => if cmp a b = Ordering.gt then b :: qsort_insert cmp a rest else a :: b :: rest

/-- The libc `qsort` call of `print_graph`, as an insertion sort.  When the
compared names are pairwise different every correct sort gives this order
(`qsort_unique`). -/
def qsort (cmp : Nat → Nat → Ordering) : List Nat → List Nat
  | [] => []
  | a :: rest => qsort_insert cmp a (qsort cmp rest)

/-- First loop of `print_graph` (lines 621-637): `maxlen` over the nodes
without callers, `count` = nodes plus callee cells, `defcount` = nodes. -/
def print_graph_measure (defs : List g_node_t) : Nat × Nat × Nat :=
  defs.foldl (fun (acc : Nat × Nat × Nat) cur =>
    ((if cur.callers = [] ∧ cur.namelen > acc.1 then cur.namelen else acc.1),
     acc.2.1 + cur.list.length + 1,
     acc.2.2 + 1)) (0, 0, 0)

/-- Second loop of `print_graph` (lines 640-644): `while (count > 0)
{ count /= 10; pad++; }`.  The first argument bounds the iterations; `count`
itself is enough. -/
def print_graph_pad : Nat → Nat → Nat → Nat
  | 0, _, pad => pad
  | fuel + 1, count, pad => if count > 0 then print_graph_pad fuel (count / 10) (pad + 1) else pad

/-- Body of the fallback loop of `print_graph` (lines 655-660):
`if (!cur->printed) print_preorder (graph, cur, 0, maxlen, pad, &count)`. -/
def print_if_unprinted (fuel maxlen pad : Nat) (cur : Nat) (s : graph_t × Nat) :
    Option ((graph_t × Nat) × List line_t) :=
  if !(deref s.1.defines cur).printed then print_preorder fuel s cur 0 maxlen pad
  else some (s, [])

/-- The loop `for (i = 0; i < defcount; i++) print_callers (graph, rev[i], 0,
maxlen, pad, &count)` of `print_graph` over the sorted array. -/
def print_callers_each (graph : graph_t) (maxlen pad : Nat) :
    List Nat → Nat → Nat × List line_t
  | [], count => (count, [])
  | cur :: rev, count =>
    let r := print_callers graph count cur 0 maxlen pad
    let r2 := print_callers_each graph maxlen pad rev r.1
    (r2.1, r.2 ++ r2.2)

/-- `print_graph` with a bound on the nesting of `print_preorder` calls.
Returns the graph (with its `printed` flags) and the calls of `print_node`. -/
def print_graph_fuel (fuel : Nat) (graph : graph_t) : Option (graph_t × List line_t) :=
  let m := print_graph_measure graph.defines
  let maxlen := m.1
  let pad := print_graph_pad m.2.1 m.2.1 0
  let defcount := m.2.2
  if !graph.reversed then
    match graph.rootnode with
    | some root =>
      (print_preorder fuel (graph, 1) root 0 (deref graph.defines root).name.length pad).map
        (fun r => (r.1.1, r.2))
    | none =>
      (walk (print_if_unprinted fuel maxlen pad) (List.range graph.defines.length)
        (graph, 1)).map (fun r => (r.1.1, r.2))
  else
    let rev := qsort (compare_gnodes graph.defines) (List.range defcount)
    some (graph, (print_callers_each graph maxlen pad rev 1).2)

/-- `print_graph`.  A nest of `print_preorder` calls is never deeper than the
number of nodes plus one. -/
def print_graph (graph : graph_t) : Option (graph_t × List line_t) :=
  print_graph_fuel (graph.defines.length + 1) graph

/-- A graph as `main` sets it up before scanning: no nodes, no root bound. -/
def new_graph (root : String) (excludes : List String) (statics privates : Bool)
    (depth : Int) (complete reversed : Bool) : graph_t :=
  { root := root, defines := [], excludes := excludes, statics := statics,
    privates := privates, depth := depth, complete := complete, reversed := reversed,
    rootnode := none }

/-- A sequence of `add_to_call_stack` calls, each a function name with its
batch of references. -/
def run_calls (graph : graph_t) : List (String × List Nat) → Option graph_t
  | [] => some graph
  | b :: rest =>
    match add_to_call_stack graph b.1 b.2 with
    | none => none
    | some g1 => run_calls g1 rest

/-- The same `add_to_call_stack` call made `n` times in a row. -/
def repeat_call (graph : graph_t) (function : String) (calls : List Nat) : Nat → Option graph_t
  | 0 => some graph
  | n + 1 =>
    match add_to_call_stack graph function calls with
    | none => none
    | some g1 => repeat_call g1 function calls n

/-- The value of `INT_MAX` that `main` uses as the default depth. -/
def INT_MAX : Int := 2147483647

/-- Example: `main` defined, `a` only referenced; non-complete mode. -/
def graph_main_a : graph_t :=
  (add_g_node
    (add_g_node (new_graph "main" [] false false INT_MAX false false)
      NodeType.FUNCTION "main" none (some "t.c") 1).1
    NodeType.FUNCTION "a" none (some "t.c") (-1)).1

/-- Example: `main` defined, `foo` and `bar` only referenced; no edges;
non-complete mode. -/
def graph_main_foo_bar : graph_t :=
  (add_g_node
    (add_g_node
      (add_g_node (new_graph "main" [] false false INT_MAX false false)
        NodeType.FUNCTION "main" none (some "t.c") 1).1
      NodeType.FUNCTION "foo" none (some "t.c") (-1)).1
    NodeType.FUNCTION "bar" none (some "t.c") (-1)).1

/-- Example: the three-node graph after `main` has been given the callees
`foo` and `bar`, both still reference-only. -/
def graph_main_calls_foo_bar : graph_t :=
  (add_to_call_stack graph_main_foo_bar "main" [1, 2]).getD graph_main_foo_bar

/-- The arguments of one `add_g_node` call. -/
structure node_call where
  ntype : NodeType
  name : String
  type : Option String
  file : Option String
  line : Int
deriving DecidableEq, Repr

/-- A sequence of `add_g_node` calls. -/
def run_nodes (graph : graph_t) : List node_call → graph_t
  | [] => graph
  | c :: rest => run_nodes (add_g_node graph c.ntype c.name c.type c.file c.line).1 rest

/-- The call names a name that no node has yet, or it is a definition
(`line != -1`) of a name whose node is still reference-only. -/
def fresh_or_upgrade (graph : graph_t) (c : node_call) : Bool :=
  match get_definition_node graph.defines c.name with
  | none => true
  | some p => c.line != -1 && (deref graph.defines p).line == -1

/-- Every call of the sequence is `fresh_or_upgrade` in the graph it is made
on. -/
def all_fresh_or_upgrade (graph : graph_t) : List node_call → Bool
  | [] => true
  | c :: rest =>
    fresh_or_upgrade graph c
      && all_fresh_or_upgrade (add_g_node graph c.ntype c.name c.type c.file c.line).1 rest

/-- A node with its `printed` flag cleared. -/
def unmark (n : g_node_t) : g_node_t := { n with printed := false }

/-- The two graphs differ at most in the `printed` flags of their nodes. -/
def same_but_printed (g g1 : graph_t) : Prop :=
  g1.defines.map unmark = g.defines.map unmark
    ∧ ({ g1 with defines := [] } : graph_t) = { g with defines := [] }

/-- Number of nodes whose `printed` flag is not set. -/
def unprinted (defs : List g_node_t) : Nat :=
  defs.countP (fun n => !n.printed)

/-- `callee_path defs a b k`: `b` is reached from `a` by `k` callee edges. -/
inductive callee_path (defs : List g_node_t) : Nat → Nat → Nat → Prop where
  | here (a : Nat) : callee_path defs a a 0
  | step (a c b k : Nat) : c ∈ (deref defs a).list → callee_path defs c b k →
      callee_path defs a b (k + 1)

/-- The node a forward traversal of `print_graph` may start at: the bound root,
or, when no root is bound, any node of `defines`. -/
def top_level (graph : graph_t) (top : Nat) : Prop :=
  graph.rootnode = some top ∨ (graph.rootnode = none ∧ top < graph.defines.length)

/-- Example: the cycle `a -> b -> a`, root name `a`, unbounded depth, forward
mode, built with `add_g_node` and `add_to_call_stack`. -/
def graph_cycle : graph_t :=
  let g0 := new_graph "a" [] false false INT_MAX false false
  let g1 := (add_g_node g0 NodeType.FUNCTION "a" none (some "t.c") 1).1
  let g2 := (add_g_node g1 NodeType.FUNCTION "b" none (some "t.c") 5).1
  (run_calls g2 [("a", [1]), ("b", [0])]).getD g2

/-- Example: `f` is called by the private function `_g`; reversed mode,
privates not shown (`-i _` not given), nothing excluded. -/
def graph_private_caller : graph_t :=
  let g0 := new_graph "main" [] false false INT_MAX false true
  let g1 := (add_g_node g0 NodeType.FUNCTION "f" none (some "t.c") 1).1
  let g2 := (add_g_node g1 NodeType.FUNCTION "_g" none (some "t.c") 5).1
  (run_calls g2 [("_g", [0])]).getD g2

/-- Example: `main` with the callees `foo` and `bar`, depth limit 1, forward
mode. -/
def graph_depth_one : graph_t :=
  { graph_main_calls_foo_bar with depth := 1 }

/-- Example: `main` calls the private `_helper`, the excluded `printf`, the
variable `counter` and `foo`; `_helper` calls `bar`.  Forward mode, privates
and variables not shown, `printf` excluded. -/
def graph_filtered : graph_t :=
  let g0 := new_graph "main" ["printf"] false false INT_MAX false false
  let g1 := run_nodes g0
    [⟨NodeType.FUNCTION, "main", some "int", some "t.c", 1⟩,
     ⟨NodeType.FUNCTION, "_helper", none, some "t.c", 9⟩,
     ⟨NodeType.FUNCTION, "printf", none, some "t.c", -1⟩,
     ⟨NodeType.VARIABLE, "counter", some "int", some "t.c", 3⟩,
     ⟨NodeType.FUNCTION, "foo", none, some "t.c", 20⟩,
     ⟨NodeType.FUNCTION, "bar", none, some "t.c", 30⟩]
  (run_calls g1 [("main", [1, 2, 3, 4]), ("_helper", [5])]).getD g1

/-- A run of `n` spaces. -/
def spaces (n : Nat) : String := String.mk (List.replicate n ' ')

/-- The printf conversion `%*d` for a width and a value that are not negative:
the decimal digits, preceded by spaces up to the width (C11 7.21.6.1: a
converted value with fewer characters than the field width is padded with
spaces on the left, as the `-` flag is not given). -/
def fmt_d (width value : Nat) : String :=
  spaces (width - (toString value).length) ++ toString value

/-- The printf conversion `%*s` for a width that is not negative: the string,
preceded by spaces up to the width (same rule as for `fmt_d`). -/
def fmt_s (width : Nat) (str : String) : String :=
  spaces (width - str.length) ++ str

/-- The text `%s` prints for `node->file`; for a NULL pointer, which the C
standard leaves undefined, the `(null)` of the BSD and GNU libc. -/
def file_text (node : g_node_t) : String := node.file.getD "(null)"

/-- `print_node`: the text the one `printf` call taken writes.  `pad` and
`count` are `int`, `maxlen` is passed for the `int` width of `%*s`. -/
def print_node (node : g_node_t) (pad maxlen count : Nat) : String :=
  if node.line ≠ -1 then
    if node.ntype = NodeType.VARIABLE then
      match node.type with
      | none =>
        fmt_d pad count ++ " " ++ fmt_s maxlen node.name ++ ": <" ++ file_text node ++ " "
          ++ toString node.line ++ ">\n"
      | some type =>
        fmt_d pad count ++ " " ++ fmt_s maxlen node.name ++ ": " ++ type ++ ", <"
          ++ file_text node ++ " " ++ toString node.line ++ ">\n"
    else
      match node.type with
      | none =>
        fmt_d pad count ++ " " ++ fmt_s maxlen node.name ++ ": (), <" ++ file_text node ++ " "
          ++ toString node.line ++ ">\n"
      | some type =>
        fmt_d pad count ++ " " ++ fmt_s maxlen node.name ++ ": " ++ type ++ "(), <"
          ++ file_text node ++ " " ++ toString node.line ++ ">\n"
  else
    fmt_d pad count ++ " " ++ fmt_s maxlen node.name ++ ": <>\n"

/-- The text of a line of a render: `print_node` on the recorded arguments. -/
def line_text (graph : graph_t) (ln : line_t) : String :=
  print_node (deref graph.defines ln.node) ln.pad ln.maxlen ln.count

/-- Example nodes for `print_node`: a reference, a function and a variable,
the last two with and without a type. -/
def node_reference : g_node_t := create_g_node "f" (some "int") (some "t.c") (-1)

/-- Example node: a function defined at `t.c` 12 without a type. -/
def node_function : g_node_t :=
  { create_g_node "run" none (some "t.c") 12 with ntype := NodeType.FUNCTION }

/-- Example node: a function defined at `t.c` 12 with the type `int`. -/
def node_typed_function : g_node_t :=
  { create_g_node "run" (some "int") (some "t.c") 12 with ntype := NodeType.FUNCTION }

/-- Example node: a variable defined at `t.c` 3 without a type. -/
def node_variable : g_node_t :=
  { create_g_node "total" none (some "t.c") 3 with ntype := NodeType.VARIABLE }

/-- Example node: a variable defined at `t.c` 3 with the type `long`. -/
def node_typed_variable : g_node_t :=
  { create_g_node "total" (some "long") (some "t.c") 3 with ntype := NodeType.VARIABLE }

/-- `add_node`: a copy of the name is linked behind the last cell of the
`node_t` list. -/
def add_node (list : List String) (name : String) : List String :=
  list ++ [name]

/-- `add_excludes`: `add_node` for every entry of the NULL-terminated keyword
array, in order. -/
def add_excludes (excludes : List String) (keywords : List String) : List String :=
  keywords.foldl add_node excludes

/-- The array `ansi_keywords` of ansi_keywords.h, up to its NULL entry.  The
initialiser has no comma between `"setvbuf"` and `"strcat"`, so the two
literals are one entry. -/
def ansi_keywords : List String :=
  ["abort", "atexit", "exit", "abs", "labs", "acos", "asin", "atan", "atan2", "asctime",
   "ctime", "gmtime", "localtime", "strftime", "assert", "atof", "atoi", "atol", "strtod",
   "strtol", "strtoul", "bsearch", "qsort", "calloc", "malloc", "realloc", "free", "ceil",
   "floor", "cos", "sin", "tan", "cosh", "sinh", "tanh", "clock", "difftime", "mktime", "time",
   "div", "ldiv", "errno", "exp", "frexp", "ldexp", "fclose", "fflush", "feof", "clearerr",
   "ferror", "perror", "fgetc", "fgets", "fgetpos", "fsetpos", "fseek", "ftell", "rewind",
   "fmod", "modf", "fopen", "freopen", "fprintf", "printf", "sprintf", "vfprintf", "vprintf",
   "vsprintf", "fputc", "fputs", "fread", "fwrite", "fscanf", "getenv", "getc", "getchar",
   "gets", "isascii", "isalnum", "isalpha", "iscntrl", "isdigit", "isgraph", "islower",
   "isprint", "ispunct", "isspace", "isupper", "isxdigit", "log", "log10", "localeconv",
   "setlocale", "longjmp", "setjmp", "memcpy", "memmove", "memset", "strcpy", "strncpy",
   "memcmp", "strcmp", "strncmp", "memchr", "strchr", "offsetof", "pow", "sqrt", "putc",
   "putchar", "puts", "rand", "srand", "raise", "signal", "remove", "rename", "scanf",
   "sscanf", "setbuf", "setvbufstrcat", "strncat", "strcoll", "strxfrm", "strcspn", "strpbrk",
   "strrchr", "strstr", "strtok", "strerror", "strlen", "system", "tmpfile", "tmpnam",
   "tolower", "toupper", "ungetc", "va_arg", "va_start", "va_end"]

/-- The parts of `create_excludes` that are not among the sources: the flag
values `NO_ANSI_KWDS`, `NO_POSIX_KWDS`, `NO_C99_KWDS`, `NO_GCC_KWDS` of graph.h
and the arrays of posix_keywords.h, c99_keywords.h and gcc_keywords.h.  They
are parameters of the model. -/
structure kwd_env where
  NO_ANSI_KWDS : Nat
  NO_POSIX_KWDS : Nat
  NO_C99_KWDS : Nat
  NO_GCC_KWDS : Nat
  posix_keywords : List String
  c99_keywords : List String
  gcc_keywords : List String

/-- The test `(excludes & FLAG) == FLAG` of `create_excludes`. -/
def selected (excludes flag : Nat) : Bool :=
  excludes &&& flag == flag

/-- `create_excludes`. -/
def create_excludes (env : kwd_env) (list : List String) (excludes : Nat) : List String :=
  let list := if selected excludes env.NO_ANSI_KWDS then add_excludes list ansi_keywords else list
  let list :=
    if selected excludes env.NO_POSIX_KWDS then add_excludes list env.posix_keywords else list
  let list :=
    if selected excludes env.NO_C99_KWDS then add_excludes list env.c99_keywords else list
  let list :=
    if selected excludes env.NO_GCC_KWDS then add_excludes list env.gcc_keywords else list
  list

/-- Example values for the missing parts: the flags as the bits 1, 2, 4, 8 and
three short tables. -/
def example_env : kwd_env :=
  { NO_ANSI_KWDS := 1, NO_POSIX_KWDS := 2, NO_C99_KWDS := 4, NO_GCC_KWDS := 8,
    posix_keywords := ["open", "read"], c99_keywords := ["snprintf"],
    gcc_keywords := ["__builtin_expect"] }

/-- Example: `main` defined, `a` only referenced; complete mode. -/
def graph_main_a_complete : graph_t :=
  { graph_main_a with complete := true }

/-- Example: `foo` was created by a reference that carried the type `int` and
the file `hdr.h`; `main` is defined. -/
def graph_typed_reference : graph_t :=
  run_nodes (new_graph "main" [] false false INT_MAX false false)
    [⟨NodeType.FUNCTION, "main", some "int", some "t.c", 1⟩,
     ⟨NodeType.VARIABLE, "foo", some "int", some "hdr.h", -1⟩]

/-- One event of a scan: an `add_g_node` call or an `add_to_call_stack` call. -/
inductive build_op where
  | node (c : node_call)
  | calls (function : String) (refs : List Nat)
deriving DecidableEq, Repr

/-- A scan: the events applied in order; `none` when an `add_to_call_stack`
call names a function that has no node. -/
def run_build (graph : graph_t) : List build_op → Option graph_t
  | [] => some graph
  | build_op.node c :: rest =>
    run_build (add_g_node graph c.ntype c.name c.type c.file c.line).1 rest
  | build_op.calls function refs :: rest =>
    match add_to_call_stack graph function refs with
    | none => none
    | some g1 => run_build g1 rest

/-- The event is an `add_g_node` call with that name (a definition or a
reference). -/
def creates_name (name : String) : build_op → Bool
  | build_op.node c => c.name == name
  | build_op.calls _ _ => false

/-- The scan of the example of the spec: `main` is defined and calls `foo` and
`bar` (both new names, created as references), then `foo` is defined and calls
`bar`, then `bar` is defined and calls nothing. -/
def spec_example_scan : List build_op :=
  [build_op.node ⟨NodeType.FUNCTION, "main", some "int", some "t.c", 1⟩,
   build_op.node ⟨NodeType.FUNCTION, "foo", none, some "t.c", -1⟩,
   build_op.node ⟨NodeType.FUNCTION, "bar", none, some "t.c", -1⟩,
   build_op.calls "main" [1, 2],
   build_op.node ⟨NodeType.FUNCTION, "foo", some "void", some "t.c", 7⟩,
   build_op.calls "foo" [2],
   build_op.node ⟨NodeType.FUNCTION, "bar", some "void", some "t.c", 12⟩,
   build_op.calls "bar" []]

/-- Example: the graph of the example of the spec; root name `main`, unbounded
depth, privates and variables shown, nothing excluded, forward mode. -/
def graph_spec_example : graph_t :=
  (run_build (new_graph "main" [] true true INT_MAX false false) spec_example_scan).getD
    (new_graph "main" [] true true INT_MAX false false)

/-- Example: a scan in which `main`, the root name, is referenced by `f` and
never defined; forward mode. -/
def graph_root_referenced : graph_t :=
  (run_build (new_graph "main" [] true true INT_MAX false false)
    [build_op.node ⟨NodeType.FUNCTION, "f", none, some "t.c", 1⟩,
     build_op.node ⟨NodeType.FUNCTION, "main", none, some "t.c", -1⟩,
     build_op.calls "f" [1]]).getD (new_graph "main" [] true true INT_MAX false false)

/-- Example: a scan of a file without `main`: `f` is defined and calls `g`,
which is defined later; forward mode, root name `main`. -/
def no_root_scan : List build_op :=
  [build_op.node ⟨NodeType.FUNCTION, "f", none, some "t.c", 1⟩,
   build_op.node ⟨NodeType.FUNCTION, "g", none, some "t.c", -1⟩,
   build_op.calls "f" [1],
   build_op.node ⟨NodeType.FUNCTION, "g", none, some "t.c", 9⟩]

/-- The top-level lines among the lines of a reversed render: `print_callers`
prints the line of the node itself with the top-level column width `maxlen`
of `print_graph`, and the caller lines beneath it with the wider
`maxlen + sublen + 1`. -/
def top_level_lines (graph : graph_t) (lines : List line_t) : List line_t :=
  lines.filter (fun ln => ln.maxlen == (print_graph_measure graph.defines).1)

/-- The name and the kind of a node: what the filter of the renderers reads. -/
def node_key (n : g_node_t) : String × NodeType := (n.name, n.ntype)

/-- Example: the nodes of `graph_filtered` inserted in another order (`bar`
first, `main` last), with the same edges; reversed mode. -/
def graph_filtered_permuted : graph_t :=
  let g0 := new_graph "main" ["printf"] false false INT_MAX false true
  let g1 := run_nodes g0
    [⟨NodeType.FUNCTION, "bar", none, some "t.c", 30⟩,
     ⟨NodeType.FUNCTION, "foo", none, some "t.c", 20⟩,
     ⟨NodeType.VARIABLE, "counter", some "int", some "t.c", 3⟩,
     ⟨NodeType.FUNCTION, "printf", none, some "t.c", -1⟩,
     ⟨NodeType.FUNCTION, "_helper", none, some "t.c", 9⟩,
     ⟨NodeType.FUNCTION, "main", some "int", some "t.c", 1⟩]
  (run_calls g1 [("main", [4, 3, 2, 1]), ("_helper", [0])]).getD g1

/-- Example: `graph_filtered` rendered in reversed mode. -/
def graph_filtered_reversed : graph_t :=
  { graph_filtered with reversed := true }

/-- Example: `root` calls `a` and `b`, `a` calls `b`, `b` calls `c`; root name
`root`, depth limit 2, nothing filtered, forward mode. -/
def graph_shadow : graph_t :=
  (run_build (new_graph "root" [] true true 2 false false)
    [build_op.node ⟨NodeType.FUNCTION, "root", none, some "t.c", 1⟩,
     build_op.node ⟨NodeType.FUNCTION, "a", none, some "t.c", -1⟩,
     build_op.node ⟨NodeType.FUNCTION, "b", none, some "t.c", -1⟩,
     build_op.calls "root" [1, 2],
     build_op.node ⟨NodeType.FUNCTION, "a", none, some "t.c", 5⟩,
     build_op.calls "a" [2],
     build_op.node ⟨NodeType.FUNCTION, "b", none, some "t.c", 9⟩,
     build_op.node ⟨NodeType.FUNCTION, "c", none, some "t.c", -1⟩,
     build_op.calls "b" [3],
     build_op.node ⟨NodeType.FUNCTION, "c", none, some "t.c", 13⟩]).getD
    (new_graph "root" [] true true 2 false false)

/-- The root is unbound, or bound to a node of `defines` whose name is the
configured root name. -/
def root_ok (graph : graph_t) : Bool :=
  match graph.rootnode with
  | none => true
  | some r => decide (r < graph.defines.length) && (deref graph.defines r).name == graph.root

/-- Example: `main` is defined and calls `foo`. -/
def graph_main_once : graph_t :=
  (run_build (new_graph "main" [] true true INT_MAX false false)
    [build_op.node ⟨NodeType.FUNCTION, "main", none, some "t.c", 1⟩,
     build_op.node ⟨NodeType.FUNCTION, "foo", none, some "t.c", -1⟩,
     build_op.calls "main" [1]]).getD
    (new_graph "main" [] true true INT_MAX false false)

/-- Example: after `graph_main_once`, `main` is defined a second time. -/
def graph_main_twice : graph_t :=
  (add_g_node graph_main_once NodeType.FUNCTION "main" none (some "t.c") 40).1

/-- Example: `main` calls the private `_internal_helper_function` and `foo`;
privates are not shown; forward mode. -/
def graph_long_private : graph_t :=
  (run_build (new_graph "main" [] true false INT_MAX false false)
    [build_op.node ⟨NodeType.FUNCTION, "main", none, some "t.c", 1⟩,
     build_op.node ⟨NodeType.FUNCTION, "_internal_helper_function", none, some "t.c", -1⟩,
     build_op.node ⟨NodeType.FUNCTION, "foo", none, some "t.c", -1⟩,
     build_op.calls "main" [1, 2]]).getD
    (new_graph "main" [] true false INT_MAX false false)

/-- Example: `main` calls nothing; `f` calls `a`, `b`, `c`, `d`.  Six nodes and
four callee cells; forward mode, root `main`. -/
def graph_side_tree : graph_t :=
  (run_build (new_graph "main" [] true true INT_MAX false false)
    [build_op.node ⟨NodeType.FUNCTION, "main", none, some "t.c", 1⟩,
     build_op.node ⟨NodeType.FUNCTION, "f", none, some "t.c", 5⟩,
     build_op.node ⟨NodeType.FUNCTION, "a", none, some "t.c", -1⟩,
     build_op.node ⟨NodeType.FUNCTION, "b", none, some "t.c", -1⟩,
     build_op.node ⟨NodeType.FUNCTION, "c", none, some "t.c", -1⟩,
     build_op.node ⟨NodeType.FUNCTION, "d", none, some "t.c", -1⟩,
     build_op.calls "f" [2, 3, 4, 5]]).getD
    (new_graph "main" [] true true INT_MAX false false)

/-- Total number of callee cells of a node list. -/
def callee_cells (defs : List g_node_t) : Nat :=
  (defs.map (fun n => n.list.length)).sum

/-- Specification of the de-duplication, in the words of the documentation
and not taken from the code: the first occurrences, in batch order, of the
cells of `calls` whose name is new, that is, not in `seen` and not the name of
an earlier cell of `calls`.  It is compared with the two passes of
`add_to_call_stack` in `kept_calls_eq_first_new`. -/
def first_new (defs : List g_node_t) : List String → List Nat → List Nat
  | _, [] => []
  | seen, c :: rest =>
    if (deref defs c).name ∈ seen then first_new defs seen rest
    else c :: first_new defs ((deref defs c).name :: seen) rest

/-- Number of callee cells of the nodes whose `printed` flag is not set. -/
def unprinted_cells (defs : List g_node_t) : Nat :=
  (defs.map (fun n => if n.printed then 0 else n.list.length)).sum

/-- Example: a file without `main`: `f` calls the private `_g`, `_g` calls
`h`; privates are not shown, forward mode, depth limit 1. -/
def graph_fallback_private : graph_t :=
  (run_build (new_graph "main" [] true false 1 false false)
    [build_op.node ⟨NodeType.FUNCTION, "f", none, some "t.c", 1⟩,
     build_op.node ⟨NodeType.FUNCTION, "_g", none, some "t.c", -1⟩,
     build_op.calls "f" [1],
     build_op.node ⟨NodeType.FUNCTION, "_g", none, some "t.c", 5⟩,
     build_op.node ⟨NodeType.FUNCTION, "h", none, some "t.c", -1⟩,
     build_op.calls "_g" [2],
     build_op.node ⟨NodeType.FUNCTION, "h", none, some "t.c", 9⟩]).getD
    (new_graph "main" [] true false 1 false false)

/-! ## Basic facts about pointers into `defines` -/

theorem deref_store (defs : List g_node_t) (p q : Nat) (f : g_node_t → g_node_t) :
    deref (store defs p f) q
      = if q = p ∧ p < defs.length then f (deref defs p) else deref defs q := by
  unfold store deref
  rw [List.getElem?_set]
  by_cases h : p = q
  · subst h
    by_cases hp : p < defs.length
    · simp [hp]
    · simp [hp, List.getElem?_eq_none (Nat.le_of_not_lt hp)]
  · have h2 : ¬ q = p := fun e => h e.symm
    simp [h, h2]

theorem store_length (defs : List g_node_t) (p : Nat) (f : g_node_t → g_node_t) :
    (store defs p f).length = defs.length := by
  simp [store]

theorem deref_of_ge (defs : List g_node_t) (p : Nat) (h : defs.length ≤ p) :
    deref defs p = blank_node := by
  simp [deref, List.getElem?_eq_none h]

theorem store_id (defs : List g_node_t) (p : Nat) (f : g_node_t → g_node_t)
    (h : f (deref defs p) = deref defs p) : store defs p f = defs := by
  unfold store
  rw [h]
  apply List.ext_getElem?
  intro n
  rw [List.getElem?_set]
  by_cases e : p = n
  · subst e
    by_cases hp : p < defs.length
    · simp [hp, deref, List.getElem?_eq_getElem hp]
    · simp [hp, List.getElem?_eq_none (Nat.le_of_not_lt hp)]
  · simp [e]

theorem get_definition_node_lt (l : List g_node_t) (name : String) (i : Nat)
    (h : get_definition_node l name = some i) : i < l.length := by
  induction l generalizing i with
  | nil => simp [get_definition_node] at h
  | cons cur rest ih =>
    unfold get_definition_node at h
    by_cases e : cur.name = name
    · simp [e] at h
      subst h
      simp
    · simp [e] at h
      obtain ⟨a, ha, rfl⟩ := h
      have := ih a ha
      simp
      omega

theorem get_definition_node_names (l1 l2 : List g_node_t) (name : String)
    (h : l1.map (fun n => n.name) = l2.map (fun n => n.name)) :
    get_definition_node l1 name = get_definition_node l2 name := by
  induction l1 generalizing l2 with
  | nil =>
    cases l2 with
    | nil => rfl
    | cons b l2 => simp at h
  | cons a l1 ih =>
    cases l2 with
    | nil => simp at h
    | cons b l2 =>
      simp at h
      unfold get_definition_node
      rw [h.1, ih l2 (by simpa using h.2)]

theorem store_names (defs : List g_node_t) (p : Nat) (f : g_node_t → g_node_t)
    (hf : ∀ n, (f n).name = n.name) :
    (store defs p f).map (fun n => n.name) = defs.map (fun n => n.name) := by
  apply List.ext_getElem?
  intro n
  simp only [List.getElem?_map]
  have h1 := deref_store defs p n f
  unfold deref at h1
  by_cases hn : n < defs.length
  · have hn2 : n < (store defs p f).length := by rw [store_length]; exact hn
    rw [List.getElem?_eq_getElem hn, List.getElem?_eq_getElem hn2] at *
    simp only [Option.getD_some, Option.map_some'] at *
    rw [h1]
    split
    · next h =>
      obtain ⟨rfl, _⟩ := h
      rw [hf]; simp [List.getElem?_eq_getElem hn]
    · rfl
  · have hn2 : ¬ n < (store defs p f).length := by rw [store_length]; exact hn
    rw [List.getElem?_eq_none (Nat.le_of_not_lt hn), List.getElem?_eq_none (Nat.le_of_not_lt hn2)]

/-! ## The back-link loop of `add_to_call_stack` -/

theorem add_caller_length (defs : List g_node_t) (parent c : Nat) :
    (add_caller defs parent c).length = defs.length := by
  unfold add_caller
  split
  · exact store_length _ _ _
  · split
    · rfl
    · exact store_length _ _ _

theorem add_caller_frame (defs : List g_node_t) (parent c q : Nat) :
    deref (add_caller defs parent c) q
      = { deref defs q with callers := (deref (add_caller defs parent c) q).callers } := by
  unfold add_caller
  split
  · rw [deref_store]; split
    · next h => rw [h.1]
    · rfl
  · split
    · rfl
    · rw [deref_store]; split
      · next h => rw [h.1]
      · rfl

theorem add_caller_mem (defs : List g_node_t) (parent c q x : Nat) :
    x ∈ (deref (add_caller defs parent c) q).callers
      ↔ x ∈ (deref defs q).callers ∨ (x = parent ∧ q = c ∧ c < defs.length) := by
  unfold add_caller
  split
  · next hc =>
    rw [deref_store]
    by_cases h : q = c ∧ c < defs.length
    · simp [h, hc]
    · simp [h]
  · next hc =>
    split
    · next hmem =>
      constructor
      · intro hx; exact Or.inl hx
      · rintro (hx | ⟨rfl, rfl, _⟩)
        · exact hx
        · have hm : x ∈ (deref defs q).callers.dropLast := by simpa using hmem
          exact List.dropLast_subset _ hm
    · rw [deref_store]
      by_cases h : q = c ∧ c < defs.length
      · simp [h]
      · simp [h]

theorem link_callers_length (defs : List g_node_t) (parent : Nat) (calls : List Nat) :
    (link_callers defs parent calls).length = defs.length := by
  induction calls generalizing defs with
  | nil => rfl
  | cons c calls ih =>
    simp only [link_callers, List.foldl_cons] at ih ⊢
    rw [ih, add_caller_length]

theorem link_callers_frame (defs : List g_node_t) (parent : Nat) (calls : List Nat) (q : Nat) :
    deref (link_callers defs parent calls) q
      = { deref defs q with callers := (deref (link_callers defs parent calls) q).callers } := by
  induction calls generalizing defs with
  | nil => rfl
  | cons c calls ih =>
    simp only [link_callers, List.foldl_cons] at ih ⊢
    rw [ih (add_caller defs parent c)]
    conv => lhs; rw [add_caller_frame]

theorem link_callers_mem (defs : List g_node_t) (parent : Nat) (calls : List Nat) (q x : Nat) :
    x ∈ (deref (link_callers defs parent calls) q).callers
      ↔ x ∈ (deref defs q).callers ∨ (x = parent ∧ q ∈ calls ∧ q < defs.length) := by
  induction calls generalizing defs with
  | nil => simp [link_callers]
  | cons c calls ih =>
    simp only [link_callers, List.foldl_cons] at ih ⊢
    rw [ih (add_caller defs parent c), add_caller_mem, add_caller_length]
    simp only [List.mem_cons]
    constructor
    · rintro ((h | ⟨h1, h2, h3⟩) | ⟨h1, h2, h3⟩)
      · exact Or.inl h
      · exact Or.inr ⟨h1, Or.inl h2, h2 ▸ h3⟩
      · exact Or.inr ⟨h1, Or.inr h2, h3⟩
    · rintro (h | ⟨h1, (h2 | h2), h3⟩)
      · exact Or.inl (Or.inl h)
      · exact Or.inl (Or.inr ⟨h1, h2, h2 ▸ h3⟩)
      · exact Or.inr ⟨h1, h2, h3⟩

theorem names_ext (d1 d2 : List g_node_t) (hlen : d1.length = d2.length)
    (h : ∀ q, (deref d1 q).name = (deref d2 q).name) :
    d1.map (fun n => n.name) = d2.map (fun n => n.name) := by
  apply List.ext_getElem?
  intro n
  simp only [List.getElem?_map]
  by_cases hn : n < d1.length
  · have hn2 : n < d2.length := hlen ▸ hn
    have := h n
    simp only [deref, List.getElem?_eq_getElem hn, List.getElem?_eq_getElem hn2,
      Option.getD_some] at this
    rw [List.getElem?_eq_getElem hn, List.getElem?_eq_getElem hn2]
    simp [this]
  · have hn2 : ¬ n < d2.length := hlen ▸ hn
    rw [List.getElem?_eq_none (Nat.le_of_not_lt hn), List.getElem?_eq_none (Nat.le_of_not_lt hn2)]

theorem deref_names (d1 d2 : List g_node_t)
    (h : d1.map (fun n => n.name) = d2.map (fun n => n.name)) (q : Nat) :
    (deref d1 q).name = (deref d2 q).name := by
  have hlen : d1.length = d2.length := by simpa using congrArg List.length h
  have hq := congrArg (fun l => l[q]?) h
  simp only [List.getElem?_map] at hq
  unfold deref
  by_cases hn : q < d1.length
  · have hn2 : q < d2.length := hlen ▸ hn
    rw [List.getElem?_eq_getElem hn, List.getElem?_eq_getElem hn2] at hq ⊢
    simpa using hq
  · have hn2 : ¬ q < d2.length := hlen ▸ hn
    rw [List.getElem?_eq_none (Nat.le_of_not_lt hn), List.getElem?_eq_none (Nat.le_of_not_lt hn2)]

theorem same_target_names (d1 d2 : List g_node_t)
    (h : d1.map (fun n => n.name) = d2.map (fun n => n.name)) :
    same_target d1 = same_target d2 := by
  funext a b
  simp only [same_target, deref_names d1 d2 h]

theorem link_callers_names (defs : List g_node_t) (parent : Nat) (calls : List Nat) :
    (link_callers defs parent calls).map (fun n => n.name) = defs.map (fun n => n.name) := by
  apply names_ext _ _ (link_callers_length defs parent calls)
  intro q
  rw [link_callers_frame]

/-! ## The two passes over the batch -/

theorem unlink_first_subset (defs : List g_node_t) (tmp : Nat) (l : List Nat) :
    ∀ x ∈ unlink_first defs tmp l, x ∈ l := by
  induction l with
  | nil => intro x hx; simp [unlink_first] at hx
  | cons p plist ih =>
    intro x hx
    unfold unlink_first at hx
    split at hx
    · exact List.mem_cons_of_mem _ hx
    · rcases List.mem_cons.mp hx with h | h
      · rw [h]; exact List.mem_cons_self _ _
      · exact List.mem_cons_of_mem _ (ih x h)

theorem drop_redundant_subset (defs : List g_node_t) (fuel : Nat) (calls : List Nat) :
    ∀ x ∈ drop_redundant defs fuel calls, x ∈ calls := by
  induction fuel generalizing calls with
  | zero => intro x hx; simpa [drop_redundant] using hx
  | succ fuel ih =>
    cases calls with
    | nil => intro x hx; simp [drop_redundant] at hx
    | cons tmp rest =>
      intro x hx
      simp only [drop_redundant, List.mem_cons] at hx
      rcases hx with h | h
      · rw [h]; exact List.mem_cons_self _ _
      · exact List.mem_cons_of_mem _ (unlink_first_subset defs tmp rest x (ih _ x h))

theorem unlink_first_length (defs : List g_node_t) (tmp : Nat) (l : List Nat) :
    (unlink_first defs tmp l).length ≤ l.length := by
  induction l with
  | nil => simp [unlink_first]
  | cons p plist ih =>
    unfold unlink_first
    split
    · simp
    · simp only [List.length_cons]
      omega

/-- The first pass does not depend on its bound once the bound is at least the
length of the batch. -/
theorem drop_redundant_fuel (defs : List g_node_t) (fuel1 fuel2 : Nat) (calls : List Nat)
    (h1 : calls.length ≤ fuel1) (h2 : calls.length ≤ fuel2) :
    drop_redundant defs fuel1 calls = drop_redundant defs fuel2 calls := by
  induction fuel1 generalizing fuel2 calls with
  | zero =>
    have hnil : calls = [] := List.length_eq_zero.mp (Nat.le_zero.mp h1)
    subst hnil
    cases fuel2 <;> rfl
  | succ fuel1 ih =>
    cases calls with
    | nil => cases fuel2 <;> rfl
    | cons tmp rest =>
      cases fuel2 with
      | zero => simp at h2
      | succ fuel2 =>
        simp only [drop_redundant]
        have hl := unlink_first_length defs tmp rest
        simp only [List.length_cons] at h1 h2
        rw [ih fuel2 (unlink_first defs tmp rest) (by omega) (by omega)]

theorem drop_present_eq_filter (defs : List g_node_t) (plist calls : List Nat) :
    drop_present defs plist calls
      = calls.filter (fun c => plist.all (fun p => !same_target defs c p)) := by
  induction plist generalizing calls with
  | nil => simp [drop_present]
  | cons p plist ih =>
    simp only [drop_present, List.foldl_cons] at ih ⊢
    rw [ih, List.filter_filter]
    congr 1
    funext c
    simp [Bool.and_comm]

theorem kept_calls_subset (graph : graph_t) (parent : Nat) (calls : List Nat) :
    ∀ x ∈ kept_calls graph parent calls, x ∈ calls := by
  intro x hx
  unfold kept_calls at hx
  split at hx
  · rw [drop_present_eq_filter] at hx
    exact drop_redundant_subset _ _ _ x (List.mem_filter.mp hx).1
  · exact hx

/-! ## The effect of one `add_to_call_stack` call -/

theorem add_to_call_stack_eq (graph : graph_t) (function : String) (calls : List Nat) (p : Nat)
    (hp : get_definition_node graph.defines function = some p) :
    add_to_call_stack graph function calls
      = some { graph with
          defines := store (link_callers graph.defines p (kept_calls graph p calls)) p
            (fun n => { n with list := n.list ++ kept_calls graph p calls }) } := by
  simp [add_to_call_stack, hp]

theorem add_to_call_stack_some (graph : graph_t) (function : String) (calls : List Nat)
    (g1 : graph_t) (h : add_to_call_stack graph function calls = some g1) :
    ∃ p, get_definition_node graph.defines function = some p := by
  unfold add_to_call_stack at h
  split at h
  · simp at h
  · next p hp => exact ⟨p, hp⟩

theorem attach_length (graph : graph_t) (p : Nat) (kept : List Nat) :
    (store (link_callers graph.defines p kept) p
      (fun n => { n with list := n.list ++ kept })).length = graph.defines.length := by
  rw [store_length, link_callers_length]

theorem attach_names (graph : graph_t) (p : Nat) (kept : List Nat) :
    (store (link_callers graph.defines p kept) p
      (fun n => { n with list := n.list ++ kept })).map (fun n => n.name)
      = graph.defines.map (fun n => n.name) := by
  rw [store_names (link_callers graph.defines p kept) p
    (fun n => { n with list := n.list ++ kept }) (fun _ => rfl), link_callers_names]

theorem attach_list (graph : graph_t) (p : Nat) (kept : List Nat) (hp : p < graph.defines.length)
    (q : Nat) :
    (deref (store (link_callers graph.defines p kept) p
      (fun n => { n with list := n.list ++ kept })) q).list
      = if q = p then (deref graph.defines p).list ++ kept else (deref graph.defines q).list := by
  rw [deref_store, link_callers_length]
  by_cases h : q = p
  · simp only [h, hp, and_self, if_true]
    rw [link_callers_frame]
  · simp only [h, false_and, if_false]
    rw [link_callers_frame]

theorem attach_callers_mem (graph : graph_t) (p : Nat) (kept : List Nat) (q x : Nat) :
    x ∈ (deref (store (link_callers graph.defines p kept) p
      (fun n => { n with list := n.list ++ kept })) q).callers
      ↔ x ∈ (deref graph.defines q).callers ∨ (x = p ∧ q ∈ kept ∧ q < graph.defines.length) := by
  rw [deref_store]
  split
  · next h =>
    rw [← h.1]
    exact link_callers_mem _ _ _ _ _
  · exact link_callers_mem _ _ _ _ _

theorem get_definition_node_isSome (l : List g_node_t) (name : String)
    (h : ∃ n ∈ l, n.name = name) : ∃ p, get_definition_node l name = some p := by
  induction l with
  | nil => simp at h
  | cons cur rest ih =>
    unfold get_definition_node
    by_cases e : cur.name = name
    · exact ⟨0, by simp [e]⟩
    · obtain ⟨n, hn, hname⟩ := h
      rcases List.mem_cons.mp hn with h1 | h1
      · exact absurd (h1 ▸ hname) e
      · obtain ⟨p, hp⟩ := ih ⟨n, h1, hname⟩
        exact ⟨p + 1, by simp [e, hp]⟩

theorem mem_of_names (d1 d2 : List g_node_t)
    (h : d1.map (fun n => n.name) = d2.map (fun n => n.name)) (name : String)
    (hex : ∃ n ∈ d2, n.name = name) : ∃ n ∈ d1, n.name = name := by
  obtain ⟨n, hn, hname⟩ := hex
  have : name ∈ d2.map (fun n => n.name) := List.mem_map.mpr ⟨n, hn, hname⟩
  rw [← h] at this
  exact List.mem_map.mp this

theorem deref_mem (defs : List g_node_t) (q : Nat) (hq : q < defs.length) :
    deref defs q ∈ defs := by
  simp [deref, List.getElem?_eq_getElem hq]

/-- Back-link symmetry is kept by every sequence of `add_to_call_stack` calls
whose parents exist and whose references are nodes of the graph. -/
theorem run_calls_symmetry (batches : List (String × List Nat)) (graph : graph_t)
    (hsym : ∀ a b, b ∈ (deref graph.defines a).list ↔ a ∈ (deref graph.defines b).callers)
    (hparent : ∀ b ∈ batches, ∃ n ∈ graph.defines, n.name = b.1)
    (hrefs : ∀ b ∈ batches, ∀ c ∈ b.2, c < graph.defines.length) :
    ∃ g1, run_calls graph batches = some g1
      ∧ ∀ a b, b ∈ (deref g1.defines a).list ↔ a ∈ (deref g1.defines b).callers := by
  induction batches generalizing graph with
  | nil => exact ⟨graph, rfl, hsym⟩
  | cons b rest ih =>
    obtain ⟨p, hp⟩ := get_definition_node_isSome graph.defines b.1
      (hparent b (List.mem_cons_self _ _))
    have hplt := get_definition_node_lt _ _ _ hp
    unfold run_calls
    rw [add_to_call_stack_eq graph b.1 b.2 p hp]
    simp only
    apply ih
    · intro x y
      simp only [attach_list graph p _ hplt, attach_callers_mem]
      have hk : y ∈ kept_calls graph p b.2 → y < graph.defines.length := fun hy =>
        hrefs b (List.mem_cons_self _ _) y (kept_calls_subset graph p b.2 y hy)
      by_cases hx : x = p
      · subst hx
        simp only [if_true, List.mem_append, hsym, true_and]
        constructor
        · rintro (h | h)
          · exact Or.inl h
          · exact Or.inr ⟨h, hk h⟩
        · rintro (h | h)
          · exact Or.inl h
          · exact Or.inr h.1
      · simp [hx, hsym]
    · intro b2 hb2
      apply mem_of_names _ _ (attach_names graph p _) b2.1
      exact hparent b2 (List.mem_cons_of_mem _ hb2)
    · intro b2 hb2 c hc
      simp only [attach_length]
      exact hrefs b2 (List.mem_cons_of_mem _ hb2) c hc

/-! ## The edge attacher: claims C1 to C4 -/

/-- Claim C1, evaluated on the code at a batch that repeats one name three
times: in non-complete mode, with `main` having no callee yet, attaching the
batch `a, a, a` leaves two callee edges to `a` in the callee list of `main`.
The first pass unlinks only the first later duplicate of each cell and then
steps over the next one. -/
theorem triple_repeat_keeps_two_edges :
    graph_main_a.complete = false
    ∧ (deref graph_main_a.defines 0).list = []
    ∧ (add_to_call_stack graph_main_a "main" [1, 1, 1]).map
        (fun g => (deref g.defines 0).list) = some [1, 1] := by
  decide

/-- Claim C2: back-link symmetry.  Starting from a graph without edges, after
any sequence of `add_to_call_stack` calls, each naming an existing parent and
referring to nodes of the graph, the sequence returns and for all nodes `a`,
`b`: `b` is in the callee list of `a` iff `a` is in the caller list of `b`.
It holds in non-complete mode (and in complete mode), and uniqueness of the
names is not needed. -/
theorem back_link_symmetry (graph : graph_t) (batches : List (String × List Nat))
    (hedges : ∀ n ∈ graph.defines, n.list = [] ∧ n.callers = [])
    (hparent : ∀ b ∈ batches, ∃ n ∈ graph.defines, n.name = b.1)
    (hrefs : ∀ b ∈ batches, ∀ c ∈ b.2, c < graph.defines.length) :
    ∃ g1, run_calls graph batches = some g1
      ∧ ∀ a b, b ∈ (deref g1.defines a).list ↔ a ∈ (deref g1.defines b).callers := by
  apply run_calls_symmetry batches graph _ hparent hrefs
  intro a b
  have h : ∀ q, (deref graph.defines q).list = [] ∧ (deref graph.defines q).callers = [] := by
    intro q
    by_cases hq : q < graph.defines.length
    · exact hedges _ (deref_mem _ q hq)
    · rw [deref_of_ge _ _ (Nat.le_of_not_lt hq)]; exact ⟨rfl, rfl⟩
  simp [(h a).1, (h b).2]

/-- Witness for `back_link_symmetry`: two batches on the three-node graph. -/
theorem back_link_symmetry_witness :
    (∀ n ∈ graph_main_foo_bar.defines, n.list = [] ∧ n.callers = [])
    ∧ (∀ b ∈ [("main", [1, 2, 1]), ("foo", [2, 0])],
        ∃ n ∈ graph_main_foo_bar.defines, n.name = b.1)
    ∧ (∀ b ∈ [("main", [1, 2, 1]), ("foo", [2, 0])],
        ∀ c ∈ b.2, c < graph_main_foo_bar.defines.length)
    ∧ ∃ g1, run_calls graph_main_foo_bar [("main", [1, 2, 1]), ("foo", [2, 0])] = some g1
      ∧ ∀ a b, b ∈ (deref g1.defines a).list ↔ a ∈ (deref g1.defines b).callers :=
  ⟨by decide, by decide, by decide,
   back_link_symmetry graph_main_foo_bar [("main", [1, 2, 1]), ("foo", [2, 0])]
     (by decide) (by decide) (by decide)⟩

theorem repeat_call_complete (N : Nat) (graph : graph_t) (function : String) (refs : List Nat)
    (p : Nat) (hmode : graph.complete = true)
    (hp : get_definition_node graph.defines function = some p) :
    ∃ g1, repeat_call graph function refs N = some g1
      ∧ (deref g1.defines p).list
          = (deref graph.defines p).list ++ (List.replicate N refs).flatten := by
  induction N generalizing graph with
  | zero => exact ⟨graph, rfl, by simp⟩
  | succ N ih =>
    have hplt := get_definition_node_lt _ _ _ hp
    have hk : kept_calls graph p refs = refs := by simp [kept_calls, hmode]
    unfold repeat_call
    rw [add_to_call_stack_eq graph function refs p hp, hk]
    simp only
    obtain ⟨g1, hg1, hl⟩ := ih
      { graph with
        defines := store (link_callers graph.defines p refs) p
          (fun n => { n with list := n.list ++ refs }) }
      hmode
      (by
        rw [← hp]
        exact get_definition_node_names _ _ _ (attach_names graph p refs))
    refine ⟨g1, hg1, ?_⟩
    rw [hl]
    simp only [attach_list graph p refs hplt, if_true, List.replicate_succ, List.flatten_cons,
      List.append_assoc]

/-- Claim C3: in complete mode, calling `add_to_call_stack` N times with the
same parent and the same batch `refs`, starting from an empty callee list,
returns and leaves the parent's callee list equal to `refs` repeated N times,
of length N * |refs|: order and duplicates are kept and nothing is dropped. -/
theorem complete_mode_repeats (graph : graph_t) (function : String) (refs : List Nat)
    (p N : Nat) (hmode : graph.complete = true)
    (hp : get_definition_node graph.defines function = some p)
    (hempty : (deref graph.defines p).list = []) :
    ∃ g1, repeat_call graph function refs N = some g1
      ∧ (deref g1.defines p).list = (List.replicate N refs).flatten
      ∧ (deref g1.defines p).list.length = N * refs.length := by
  obtain ⟨g1, hg1, hl⟩ := repeat_call_complete N graph function refs p hmode hp
  rw [hempty, List.nil_append] at hl
  refine ⟨g1, hg1, hl, ?_⟩
  rw [hl]
  simp [List.length_flatten]

/-- Witness for `complete_mode_repeats`: the batch `foo, bar, foo` attached to
`main` three times in complete mode. -/
theorem complete_mode_repeats_witness :
    ({ graph_main_foo_bar with complete := true } : graph_t).complete = true
    ∧ get_definition_node ({ graph_main_foo_bar with complete := true } : graph_t).defines "main"
        = some 0
    ∧ (deref ({ graph_main_foo_bar with complete := true } : graph_t).defines 0).list = []
    ∧ ∃ g1, repeat_call { graph_main_foo_bar with complete := true } "main" [1, 2, 1] 3 = some g1
      ∧ (deref g1.defines 0).list = (List.replicate 3 [1, 2, 1]).flatten
      ∧ (deref g1.defines 0).list.length = 3 * [1, 2, 1].length :=
  ⟨by decide, by decide, by decide,
   complete_mode_repeats { graph_main_foo_bar with complete := true } "main" [1, 2, 1] 0 3
     (by decide) (by decide) (by decide)⟩

theorem drop_present_self (defs : List g_node_t) (plist calls : List Nat) :
    drop_present defs
      (plist ++ drop_present defs plist calls) calls = [] := by
  rw [drop_present_eq_filter, List.filter_eq_nil_iff]
  intro c hc
  by_cases h : plist.all (fun p => !same_target defs c p) = true
  · have hmem : c ∈ drop_present defs plist calls := by
      rw [drop_present_eq_filter]
      exact List.mem_filter.mpr ⟨hc, h⟩
    simp only [List.all_append, Bool.and_eq_true, not_and, Bool.not_eq_true]
    intro _
    rw [List.all_eq_false]
    exact ⟨c, hmem, by simp [same_target]⟩
  · simp only [List.all_append, Bool.and_eq_true, not_and]
    intro h2
    exact absurd h2 h

theorem unlink_first_names (d1 d2 : List g_node_t)
    (h : d1.map (fun n => n.name) = d2.map (fun n => n.name)) (tmp : Nat) (l : List Nat) :
    unlink_first d1 tmp l = unlink_first d2 tmp l := by
  induction l with
  | nil => rfl
  | cons c l ih => simp only [unlink_first, same_target_names d1 d2 h, ih]

theorem drop_redundant_names (d1 d2 : List g_node_t)
    (h : d1.map (fun n => n.name) = d2.map (fun n => n.name)) (fuel : Nat) (l : List Nat) :
    drop_redundant d1 fuel l = drop_redundant d2 fuel l := by
  induction fuel generalizing l with
  | zero => rfl
  | succ fuel ih =>
    cases l with
    | nil => rfl
    | cons c l => simp only [drop_redundant, unlink_first_names d1 d2 h, ih]

theorem kept_calls_names (g1 graph : graph_t) (p : Nat) (refs : List Nat)
    (hmode : g1.complete = false)
    (h : g1.defines.map (fun n => n.name) = graph.defines.map (fun n => n.name)) :
    kept_calls g1 p refs
      = drop_present graph.defines (deref g1.defines p).list
          (drop_redundant graph.defines refs.length refs) := by
  simp only [kept_calls, hmode, Bool.not_false, if_true, drop_present,
    same_target_names _ _ h, drop_redundant_names _ _ h]

/-- Claim C4: in non-complete mode `add_to_call_stack` is idempotent after the
first call.  For every existing parent and every batch `refs` the first call
returns a graph `g1`, and the same call on `g1` returns `g1` again: the
parent's callee list, every caller list and everything else is unchanged. -/
theorem non_complete_idempotent (graph : graph_t) (function : String) (refs : List Nat)
    (p : Nat) (hmode : graph.complete = false)
    (hp : get_definition_node graph.defines function = some p) :
    ∃ g1, add_to_call_stack graph function refs = some g1
      ∧ add_to_call_stack g1 function refs = some g1 := by
  have hplt := get_definition_node_lt _ _ _ hp
  refine ⟨_, add_to_call_stack_eq graph function refs p hp, ?_⟩
  have hnames := attach_names graph p (kept_calls graph p refs)
  rw [add_to_call_stack_eq _ function refs p
    (by rw [← hp]; exact get_definition_node_names _ _ _ hnames)]
  have hk : kept_calls
      { graph with
        defines := store (link_callers graph.defines p (kept_calls graph p refs)) p
          (fun n => { n with list := n.list ++ kept_calls graph p refs }) } p refs = [] := by
    rw [kept_calls_names
      { graph with
        defines := store (link_callers graph.defines p (kept_calls graph p refs)) p
          (fun n => { n with list := n.list ++ kept_calls graph p refs }) }
      graph p refs hmode hnames]
    simp only [attach_list graph p _ hplt, if_true]
    have := drop_present_self graph.defines (deref graph.defines p).list
      (drop_redundant graph.defines refs.length refs)
    simpa [kept_calls, hmode] using this
  rw [hk]
  simp only [link_callers, List.foldl_nil, List.append_nil]
  congr 2
  exact store_id _ _ _ rfl

/-- Witness for `non_complete_idempotent`: the batch `foo, bar, foo, foo` on
`main`. -/
theorem non_complete_idempotent_witness :
    graph_main_foo_bar.complete = false
    ∧ get_definition_node graph_main_foo_bar.defines "main" = some 0
    ∧ ∃ g1, add_to_call_stack graph_main_foo_bar "main" [1, 2, 1, 1] = some g1
      ∧ add_to_call_stack g1 "main" [1, 2, 1, 1] = some g1 :=
  ⟨by decide, by decide,
   non_complete_idempotent graph_main_foo_bar "main" [1, 2, 1, 1] 0 (by decide) (by decide)⟩

/-! ## The node store: claims C5 and C6 -/

theorem add_g_node_upgrade (graph : graph_t) (ntype : NodeType) (name : String)
    (type file : Option String) (line : Int) (i : Nat) (hline : line ≠ -1)
    (hfind : get_definition_node graph.defines name = some i)
    (href : (deref graph.defines i).line = -1) :
    add_g_node graph ntype name type file line
      = ({ graph with
            defines := store graph.defines i (fun n =>
              { n with
                line := line
                type := if type.isSome && n.type.isNone then type else n.type
                ntype := ntype }) }, i) := by
  simp [add_g_node, hline, hfind, href]

theorem add_g_node_create (graph : graph_t) (ntype : NodeType) (name : String)
    (type file : Option String) (line : Int)
    (h : line = -1 ∨ get_definition_node graph.defines name = none
          ∨ ∃ i, get_definition_node graph.defines name = some i
              ∧ (deref graph.defines i).line ≠ -1) :
    add_g_node graph ntype name type file line
      = ({ graph with
            defines := graph.defines ++ [{ create_g_node name type file line with ntype := ntype }]
            rootnode := if name = graph.root then some graph.defines.length else graph.rootnode },
         graph.defines.length) := by
  rcases h with h | h | ⟨i, h1, h2⟩
  · simp [add_g_node, h]
  · simp [add_g_node, h]
  · simp [add_g_node, h1, h2]

theorem get_definition_node_none (l : List g_node_t) (name : String)
    (h : get_definition_node l name = none) : name ∉ l.map (fun n => n.name) := by
  intro hmem
  obtain ⟨n, hn, hname⟩ := List.mem_map.mp hmem
  obtain ⟨p, hp⟩ := get_definition_node_isSome l name ⟨n, hn, hname⟩
  rw [h] at hp
  exact Option.noConfusion hp

theorem add_g_node_keeps_unique (graph : graph_t) (c : node_call)
    (hnodup : (graph.defines.map (fun n => n.name)).Nodup)
    (hok : fresh_or_upgrade graph c = true) :
    ((add_g_node graph c.ntype c.name c.type c.file c.line).1.defines.map
      (fun n => n.name)).Nodup := by
  unfold fresh_or_upgrade at hok
  split at hok
  · next hnone =>
    rw [add_g_node_create graph c.ntype c.name c.type c.file c.line (Or.inr (Or.inl hnone))]
    simp only [List.map_append, List.map_cons, List.map_nil]
    rw [List.nodup_append]
    refine ⟨hnodup, List.nodup_singleton _, ?_⟩
    intro x hx hx2
    rw [List.mem_singleton] at hx2
    subst hx2
    exact get_definition_node_none _ _ hnone hx
  · next p hp =>
    simp only [Bool.and_eq_true, bne_iff_ne, ne_eq, beq_iff_eq] at hok
    rw [add_g_node_upgrade graph c.ntype c.name c.type c.file c.line p hok.1 hp hok.2]
    have h : ∀ f : g_node_t → g_node_t, (∀ n, (f n).name = n.name) →
        ((store graph.defines p f).map (fun n => n.name)).Nodup := by
      intro f hf
      rw [store_names _ _ f hf]
      exact hnodup
    dsimp only
    exact h _ (fun _ => rfl)

/-- Claim C5: identity stability.  When the node that a name resolves to is
reference-only (`line = -1`, as `add_g_node` with `line = -1` creates it) and
the name is then defined (`add_g_node` with `line != -1`), the definition
returns that same node; the node list keeps its length and its order (every
position keeps its name); every node, the defined one included, keeps its
callee and caller list, and every other node is unchanged altogether, so each
edge that pointed at the node still points at it. -/
theorem identity_stability (graph : graph_t) (ntype : NodeType) (name : String)
    (type file : Option String) (line : Int) (i : Nat) (hline : line ≠ -1)
    (hfind : get_definition_node graph.defines name = some i)
    (href : (deref graph.defines i).line = -1) :
    (add_g_node graph ntype name type file line).2 = i
    ∧ (add_g_node graph ntype name type file line).1.defines.length = graph.defines.length
    ∧ (add_g_node graph ntype name type file line).1.defines.map (fun n => n.name)
        = graph.defines.map (fun n => n.name)
    ∧ (∀ q, (deref (add_g_node graph ntype name type file line).1.defines q).list
              = (deref graph.defines q).list
          ∧ (deref (add_g_node graph ntype name type file line).1.defines q).callers
              = (deref graph.defines q).callers)
    ∧ (∀ q, q ≠ i → deref (add_g_node graph ntype name type file line).1.defines q
              = deref graph.defines q) := by
  rw [add_g_node_upgrade graph ntype name type file line i hline hfind href]
  dsimp only
  refine ⟨rfl, store_length _ _ _, ?_, ?_, ?_⟩
  · apply store_names
    intro n
    rfl
  · intro q
    simp only [deref_store]
    split
    · next h => rw [h.1]; exact ⟨rfl, rfl⟩
    · exact ⟨rfl, rfl⟩
  · intro q hq
    simp only [deref_store, hq, false_and, if_false]

/-- Witness for `identity_stability`: `foo` was created by a reference and is
a callee of `main`; it is then defined at line 7. -/
theorem identity_stability_witness :
    (7 : Int) ≠ -1
    ∧ get_definition_node graph_main_calls_foo_bar.defines "foo" = some 1
    ∧ (deref graph_main_calls_foo_bar.defines 1).line = -1
    ∧ (deref graph_main_calls_foo_bar.defines 0).list = [1, 2]
    ∧ (add_g_node graph_main_calls_foo_bar NodeType.FUNCTION "foo" (some "int")
          (some "t.c") 7).2 = 1
    ∧ (add_g_node graph_main_calls_foo_bar NodeType.FUNCTION "foo" (some "int")
          (some "t.c") 7).1.defines.length = graph_main_calls_foo_bar.defines.length
    ∧ (add_g_node graph_main_calls_foo_bar NodeType.FUNCTION "foo" (some "int")
          (some "t.c") 7).1.defines.map (fun n => n.name)
        = graph_main_calls_foo_bar.defines.map (fun n => n.name)
    ∧ (∀ q, (deref (add_g_node graph_main_calls_foo_bar NodeType.FUNCTION "foo" (some "int")
                (some "t.c") 7).1.defines q).list
              = (deref graph_main_calls_foo_bar.defines q).list
          ∧ (deref (add_g_node graph_main_calls_foo_bar NodeType.FUNCTION "foo" (some "int")
                (some "t.c") 7).1.defines q).callers
              = (deref graph_main_calls_foo_bar.defines q).callers)
    ∧ (∀ q, q ≠ 1 → deref (add_g_node graph_main_calls_foo_bar NodeType.FUNCTION "foo"
                (some "int") (some "t.c") 7).1.defines q
              = deref graph_main_calls_foo_bar.defines q) :=
  ⟨by decide, by decide, by decide, by decide,
   identity_stability graph_main_calls_foo_bar NodeType.FUNCTION "foo" (some "int")
     (some "t.c") 7 1 (by decide) (by decide) (by decide)⟩

/-- Claim C6 as stated fails: starting from an empty graph, defining the name
`f` twice leaves two nodes named `f` in `graph->defines`, and so does a
reference (`line = -1`) to the already defined `f`. -/
theorem add_g_node_duplicates_name :
    ¬ ((run_nodes (new_graph "main" [] false false INT_MAX false false)
          [⟨NodeType.FUNCTION, "f", none, some "t.c", 1⟩,
           ⟨NodeType.FUNCTION, "f", none, some "t.c", 9⟩]).defines.map
        (fun n => n.name)).Nodup
    ∧ ¬ ((run_nodes (new_graph "main" [] false false INT_MAX false false)
          [⟨NodeType.FUNCTION, "f", none, some "t.c", 1⟩,
           ⟨NodeType.FUNCTION, "f", none, some "t.c", -1⟩]).defines.map
        (fun n => n.name)).Nodup := by
  decide

/-- Claim C6, amended: starting from a graph in which no two nodes share a
name (the empty graph in particular), after any sequence of `add_g_node`
calls each of which either names a name that no node has yet, or is a
definition (`line != -1`) of a name whose node is still reference-only
(`line = -1`), no two nodes in `graph->defines` have equal names. -/
theorem names_unique_when_fresh_or_upgrade (graph : graph_t) (calls : List node_call)
    (hnodup : (graph.defines.map (fun n => n.name)).Nodup)
    (hok : all_fresh_or_upgrade graph calls = true) :
    ((run_nodes graph calls).defines.map (fun n => n.name)).Nodup := by
  induction calls generalizing graph with
  | nil => exact hnodup
  | cons c rest ih =>
    simp only [all_fresh_or_upgrade, Bool.and_eq_true] at hok
    exact ih _ (add_g_node_keeps_unique graph c hnodup hok.1) hok.2

/-- Witness for `names_unique_when_fresh_or_upgrade`: from the empty graph,
`main` is defined, `foo` is referenced, `foo` is defined, `bar` is
referenced. -/
theorem names_unique_when_fresh_or_upgrade_witness :
    ((new_graph "main" [] false false INT_MAX false false).defines.map
        (fun n => n.name)).Nodup
    ∧ all_fresh_or_upgrade (new_graph "main" [] false false INT_MAX false false)
        [⟨NodeType.FUNCTION, "main", some "int", some "t.c", 3⟩,
         ⟨NodeType.FUNCTION, "foo", none, some "t.c", -1⟩,
         ⟨NodeType.FUNCTION, "foo", some "void", some "t.c", 12⟩,
         ⟨NodeType.VARIABLE, "bar", none, some "t.c", -1⟩] = true
    ∧ ((run_nodes (new_graph "main" [] false false INT_MAX false false)
        [⟨NodeType.FUNCTION, "main", some "int", some "t.c", 3⟩,
         ⟨NodeType.FUNCTION, "foo", none, some "t.c", -1⟩,
         ⟨NodeType.FUNCTION, "foo", some "void", some "t.c", 12⟩,
         ⟨NodeType.VARIABLE, "bar", none, some "t.c", -1⟩]).defines.map
        (fun n => n.name)).Nodup :=
  ⟨by decide, by decide,
   names_unique_when_fresh_or_upgrade (new_graph "main" [] false false INT_MAX false false)
     [⟨NodeType.FUNCTION, "main", some "int", some "t.c", 3⟩,
      ⟨NodeType.FUNCTION, "foo", none, some "t.c", -1⟩,
      ⟨NodeType.FUNCTION, "foo", some "void", some "t.c", 12⟩,
      ⟨NodeType.VARIABLE, "bar", none, some "t.c", -1⟩]
     (by decide) (by decide)⟩

/-! ## Rendering: the loop over a subnode chain -/

theorem walk_total {σ : Type} (body : Nat → σ → Option (σ × List line_t)) (I : σ → Prop)
    (sub : List Nat) (s0 : σ)
    (hbody : ∀ c ∈ sub, ∀ s, I s → ∃ r, body c s = some r ∧ I r.1) (h0 : I s0) :
    ∃ r, walk body sub s0 = some r ∧ I r.1 := by
  induction sub generalizing s0 with
  | nil => exact ⟨(s0, []), rfl, h0⟩
  | cons c sub ih =>
    obtain ⟨r1, hr1, hI1⟩ := hbody c (List.mem_cons_self _ _) s0 h0
    obtain ⟨r2, hr2, hI2⟩ := ih r1.1 (fun c2 hc2 => hbody c2 (List.mem_cons_of_mem _ hc2)) hI1
    refine ⟨(r2.1, r1.2 ++ r2.2), ?_, hI2⟩
    simp only [walk, hr1, hr2]

theorem walk_spec {σ : Type} (body : Nat → σ → Option (σ × List line_t))
    (R : σ → σ → Prop) (hrefl : ∀ s, R s s) (htrans : ∀ a b c, R a b → R b c → R a c)
    (P : Nat → line_t → Prop) (sub : List Nat) (s0 : σ)
    (hbody : ∀ c ∈ sub, ∀ s r, R s0 s → body c s = some r → R s r.1 ∧ ∀ ln ∈ r.2, P c ln)
    (r : σ × List line_t) (h : walk body sub s0 = some r) :
    R s0 r.1 ∧ ∀ ln ∈ r.2, ∃ c ∈ sub, P c ln := by
  induction sub generalizing s0 r with
  | nil =>
    simp only [walk, Option.some.injEq] at h
    subst h
    exact ⟨hrefl _, by simp⟩
  | cons c sub ih =>
    unfold walk at h
    split at h
    · exact Option.noConfusion h
    · next s1 out1 h1 =>
      split at h
      · exact Option.noConfusion h
      · next s2 out2 h2 =>
        simp only [Option.some.injEq] at h
        subst h
        have hc := hbody c (List.mem_cons_self _ _) s0 (s1, out1) (hrefl _) h1
        have hrest := ih s1
          (fun c2 hc2 s r hR hb =>
            hbody c2 (List.mem_cons_of_mem _ hc2) s r (htrans _ _ _ hc.1 hR) hb)
          (s2, out2) h2
        refine ⟨htrans _ _ _ hc.1 hrest.1, ?_⟩
        intro ln hln
        rcases List.mem_append.mp hln with hl | hl
        · exact ⟨c, List.mem_cons_self _ _, hc.2 ln hl⟩
        · obtain ⟨c2, hc2, hp⟩ := hrest.2 ln hl
          exact ⟨c2, List.mem_cons_of_mem _ hc2, hp⟩

theorem walk_mono {σ : Type} (body1 body2 : Nat → σ → Option (σ × List line_t))
    (hb : ∀ c s r, body1 c s = some r → body2 c s = some r)
    (sub : List Nat) (s0 : σ) (r : σ × List line_t) (h : walk body1 sub s0 = some r) :
    walk body2 sub s0 = some r := by
  induction sub generalizing s0 r with
  | nil => exact h
  | cons c sub ih =>
    unfold walk at h ⊢
    split at h
    · exact Option.noConfusion h
    · next s1 out1 h1 =>
      split at h
      · exact Option.noConfusion h
      · next s2 out2 h2 =>
        rw [hb c s0 _ h1]
        simp only
        rw [ih s1 _ h2]
        exact h

/-! ## Rendering: the `printed` flags -/

theorem same_but_printed_refl (g : graph_t) : same_but_printed g g := ⟨rfl, rfl⟩

theorem same_but_printed_trans (a b c : graph_t) (h1 : same_but_printed a b)
    (h2 : same_but_printed b c) : same_but_printed a c :=
  ⟨h2.1.trans h1.1, h2.2.trans h1.2⟩

theorem same_but_printed_mark (g : graph_t) (node : Nat) :
    same_but_printed g (mark_printed g node) := by
  refine ⟨?_, rfl⟩
  unfold mark_printed
  dsimp only
  apply List.ext_getElem?
  intro n
  simp only [List.getElem?_map]
  have h1 := deref_store g.defines node n (fun n => { n with printed := true })
  unfold deref at h1
  by_cases hn : n < g.defines.length
  · have hn2 : n < (store g.defines node (fun n => { n with printed := true })).length := by
      rw [store_length]; exact hn
    rw [List.getElem?_eq_getElem hn, List.getElem?_eq_getElem hn2] at *
    simp only [Option.getD_some, Option.map_some'] at *
    rw [h1]
    split
    · next h =>
      obtain ⟨rfl, _⟩ := h
      simp [List.getElem?_eq_getElem hn, unmark]
    · rfl
  · have hn2 : ¬ n < (store g.defines node (fun n => { n with printed := true })).length := by
      rw [store_length]; exact hn
    rw [List.getElem?_eq_none (Nat.le_of_not_lt hn), List.getElem?_eq_none (Nat.le_of_not_lt hn2)]

theorem same_but_printed_length (g g1 : graph_t) (h : same_but_printed g g1) :
    g1.defines.length = g.defines.length := by
  simpa using congrArg List.length h.1

theorem same_but_printed_deref (g g1 : graph_t) (h : same_but_printed g g1) (q : Nat) :
    unmark (deref g1.defines q) = unmark (deref g.defines q) := by
  have hlen := same_but_printed_length g g1 h
  have hq := congrArg (fun l => l[q]?) h.1
  simp only [List.getElem?_map] at hq
  unfold deref
  by_cases hn : q < g.defines.length
  · have hn2 : q < g1.defines.length := hlen ▸ hn
    rw [List.getElem?_eq_getElem hn, List.getElem?_eq_getElem hn2] at hq ⊢
    simpa using hq
  · have hn2 : ¬ q < g1.defines.length := hlen ▸ hn
    rw [List.getElem?_eq_none (Nat.le_of_not_lt hn), List.getElem?_eq_none (Nat.le_of_not_lt hn2)]

theorem same_but_printed_list (g g1 : graph_t) (h : same_but_printed g g1) (q : Nat) :
    (deref g1.defines q).list = (deref g.defines q).list := by
  have := congrArg g_node_t.list (same_but_printed_deref g g1 h q)
  exact this

theorem same_but_printed_name (g g1 : graph_t) (h : same_but_printed g g1) (q : Nat) :
    (deref g1.defines q).name = (deref g.defines q).name := by
  have := congrArg g_node_t.name (same_but_printed_deref g g1 h q)
  exact this

theorem same_but_printed_ntype (g g1 : graph_t) (h : same_but_printed g g1) (q : Nat) :
    (deref g1.defines q).ntype = (deref g.defines q).ntype := by
  have := congrArg g_node_t.ntype (same_but_printed_deref g g1 h q)
  exact this

theorem same_but_printed_depth (g g1 : graph_t) (h : same_but_printed g g1) :
    g1.depth = g.depth := by
  have := congrArg graph_t.depth h.2
  exact this

theorem same_but_printed_rootnode (g g1 : graph_t) (h : same_but_printed g g1) :
    g1.rootnode = g.rootnode := by
  have := congrArg graph_t.rootnode h.2
  exact this

theorem same_but_printed_suppressed (g g1 : graph_t) (h : same_but_printed g g1) (q : Nat) :
    suppressed g1 (deref g1.defines q) = suppressed g (deref g.defines q) := by
  unfold suppressed
  have h1 : g1.privates = g.privates := by
    have := congrArg graph_t.privates h.2
    exact this
  have h2 : g1.statics = g.statics := by
    have := congrArg graph_t.statics h.2
    exact this
  have h3 : g1.excludes = g.excludes := by
    have := congrArg graph_t.excludes h.2
    exact this
  rw [same_but_printed_name g g1 h, same_but_printed_ntype g g1 h, h1, h2, h3]

theorem store_cons_zero (a : g_node_t) (l : List g_node_t) (f : g_node_t → g_node_t) :
    store (a :: l) 0 f = f a :: l := by
  simp [store, deref]

theorem store_cons_succ (a : g_node_t) (l : List g_node_t) (p : Nat) (f : g_node_t → g_node_t) :
    store (a :: l) (p + 1) f = a :: store l p f := by
  simp [store, deref]

theorem unprinted_mark_le (defs : List g_node_t) (p : Nat) :
    unprinted (store defs p (fun n => { n with printed := true })) ≤ unprinted defs := by
  induction defs generalizing p with
  | nil => simp [store]
  | cons a l ih =>
    cases p with
    | zero =>
      rw [store_cons_zero]
      simp only [unprinted, List.countP_cons, Bool.not_true, Bool.false_eq_true, if_false]
      omega
    | succ p =>
      rw [store_cons_succ]
      have := ih p
      simp only [unprinted, List.countP_cons] at this ⊢
      omega

theorem unprinted_mark_lt (defs : List g_node_t) (p : Nat) (hp : p < defs.length)
    (hflag : (deref defs p).printed = false) :
    unprinted (store defs p (fun n => { n with printed := true })) < unprinted defs := by
  induction defs generalizing p with
  | nil => simp at hp
  | cons a l ih =>
    cases p with
    | zero =>
      rw [store_cons_zero]
      have ha : a.printed = false := by simpa [deref] using hflag
      simp [unprinted, List.countP_cons, ha]
    | succ p =>
      rw [store_cons_succ]
      have := ih p (by simpa using hp) (by simpa [deref] using hflag)
      simp only [unprinted, List.countP_cons] at this ⊢
      omega

theorem unprinted_le_length (defs : List g_node_t) : unprinted defs ≤ defs.length :=
  List.countP_le_length _

/-! ## Rendering: `print_preorder` -/

theorem print_preorder_succ (fuel : Nat) (graph : graph_t) (count node depth maxlen pad : Nat) :
    print_preorder (fuel + 1) (graph, count) node depth maxlen pad
      = if suppressed graph (deref graph.defines node) then some ((graph, count), [])
        else if (deref graph.defines node).printed then
          some ((graph, count + 1),
            [{ node := node, pad := pad, maxlen := maxlen, count := count, depth := depth }])
        else if (depth : Int) ≥ graph.depth then
          some ((mark_printed graph node, count + 1),
            [{ node := node, pad := pad, maxlen := maxlen, count := count, depth := depth }])
        else
          match walk (fun c s => print_preorder fuel s c (depth + 1)
                    (maxlen + max_namelen graph.defines (deref graph.defines node).list + 1) pad)
                  (deref graph.defines node).list (mark_printed graph node, count + 1) with
          | none => none
          | some (s, out) =>
            some (s, { node := node, pad := pad, maxlen := maxlen, count := count,
                       depth := depth } :: out) := by
  rfl

theorem print_preorder_zero (s : graph_t × Nat) (node depth maxlen pad : Nat) :
    print_preorder 0 s node depth maxlen pad = none := by
  obtain ⟨graph, count⟩ := s
  rfl

theorem list_nil_of_ge (defs : List g_node_t) (p : Nat) (h : ¬ p < defs.length) :
    (deref defs p).list = [] := by
  rw [deref_of_ge defs p (Nat.le_of_not_lt h)]
  rfl

theorem mark_printed_length (graph : graph_t) (node : Nat) :
    (mark_printed graph node).defines.length = graph.defines.length := by
  simp only [mark_printed, store_length]

/-- With more fuel than there are unprinted nodes `print_preorder` returns; it
never clears a `printed` flag and keeps the node list's length. -/
theorem print_preorder_total (fuel : Nat) :
    ∀ (graph : graph_t) (count node depth maxlen pad : Nat),
      unprinted graph.defines < fuel →
      ∃ r, print_preorder fuel (graph, count) node depth maxlen pad = some r
        ∧ unprinted r.1.1.defines ≤ unprinted graph.defines
        ∧ r.1.1.defines.length = graph.defines.length := by
  induction fuel with
  | zero => intro graph count node depth maxlen pad h; omega
  | succ fuel ih =>
    intro graph count node depth maxlen pad hfuel
    rw [print_preorder_succ]
    by_cases hs : suppressed graph (deref graph.defines node) = true
    · rw [if_pos hs]
      exact ⟨_, rfl, Nat.le_refl _, rfl⟩
    · rw [if_neg hs]
      by_cases hpr : (deref graph.defines node).printed = true
      · rw [if_pos hpr]
        exact ⟨_, rfl, Nat.le_refl _, rfl⟩
      · rw [if_neg hpr]
        by_cases hd : (depth : Int) ≥ graph.depth
        · rw [if_pos hd]
          exact ⟨_, rfl, unprinted_mark_le _ _, mark_printed_length _ _⟩
        · rw [if_neg hd]
          have hmle : unprinted (mark_printed graph node).defines ≤ unprinted graph.defines :=
            unprinted_mark_le graph.defines node
          have hw := walk_total
            (fun c s => print_preorder fuel s c (depth + 1)
              (maxlen + max_namelen graph.defines (deref graph.defines node).list + 1) pad)
            (fun s => unprinted s.1.defines ≤ unprinted (mark_printed graph node).defines
              ∧ s.1.defines.length = graph.defines.length)
            (deref graph.defines node).list (mark_printed graph node, count + 1)
            (by
              intro c hc s hI
              obtain ⟨g1, c1⟩ := s
              have hlt : node < graph.defines.length := by
                by_contra hge
                rw [list_nil_of_ge _ _ hge] at hc
                simp at hc
              have hm2 : unprinted (mark_printed graph node).defines < unprinted graph.defines :=
                unprinted_mark_lt graph.defines node hlt (by simpa using hpr)
              have hI1 : unprinted g1.defines ≤ unprinted (mark_printed graph node).defines := hI.1
              have hI2 : g1.defines.length = graph.defines.length := hI.2
              obtain ⟨r, hr, hr1, hr2⟩ := ih g1 c1 c (depth + 1)
                (maxlen + max_namelen graph.defines (deref graph.defines node).list + 1) pad
                (by omega)
              refine ⟨r, hr, ?_, ?_⟩
              · show unprinted r.1.1.defines ≤ unprinted (mark_printed graph node).defines
                omega
              · show r.1.1.defines.length = graph.defines.length
                rw [hr2]; exact hI2)
            ⟨Nat.le_refl _, mark_printed_length _ _⟩
          obtain ⟨r, hr, hr1, hr2⟩ := hw
          rw [hr]
          refine ⟨_, rfl, ?_, hr2⟩
          show unprinted r.1.1.defines ≤ unprinted graph.defines
          have hr1b : unprinted r.1.1.defines ≤ unprinted (mark_printed graph node).defines := hr1
          omega

theorem print_preorder_mono (fuel : Nat) :
    ∀ (s : graph_t × Nat) (node depth maxlen pad : Nat) (r : (graph_t × Nat) × List line_t),
      print_preorder fuel s node depth maxlen pad = some r →
      print_preorder (fuel + 1) s node depth maxlen pad = some r := by
  induction fuel with
  | zero =>
    intro s node depth maxlen pad r h
    rw [print_preorder_zero] at h
    exact Option.noConfusion h
  | succ fuel ih =>
    intro s node depth maxlen pad r h
    obtain ⟨graph, count⟩ := s
    rw [print_preorder_succ] at h ⊢
    by_cases hs : suppressed graph (deref graph.defines node) = true
    · rw [if_pos hs] at h ⊢
      exact h
    · rw [if_neg hs] at h ⊢
      by_cases hpr : (deref graph.defines node).printed = true
      · rw [if_pos hpr] at h ⊢
        exact h
      · rw [if_neg hpr] at h ⊢
        by_cases hd : (depth : Int) ≥ graph.depth
        · rw [if_pos hd] at h ⊢
          exact h
        · rw [if_neg hd] at h ⊢
          split at h
          · exact Option.noConfusion h
          · next s1 out1 hw =>
            rw [walk_mono _
              (fun c s => print_preorder (fuel + 1) s c (depth + 1)
                (maxlen + max_namelen graph.defines (deref graph.defines node).list + 1) pad)
              (fun c s r hb => ih s c _ _ _ r hb) _ _ _ hw]
            exact h

theorem print_preorder_mono_le (fuel fuel2 : Nat) (hle : fuel ≤ fuel2)
    (s : graph_t × Nat) (node depth maxlen pad : Nat) (r : (graph_t × Nat) × List line_t)
    (h : print_preorder fuel s node depth maxlen pad = some r) :
    print_preorder fuel2 s node depth maxlen pad = some r := by
  induction fuel2 with
  | zero =>
    have : fuel = 0 := by omega
    subst this
    exact h
  | succ n ih =>
    by_cases e : fuel = n + 1
    · subst e; exact h
    · exact print_preorder_mono n s node depth maxlen pad r (ih (by omega))

theorem callee_path_frame (d1 d2 : List g_node_t)
    (h : ∀ q, (deref d1 q).list = (deref d2 q).list) (a b k : Nat)
    (hp : callee_path d1 a b k) : callee_path d2 a b k := by
  induction hp with
  | here a => exact callee_path.here a
  | step a c b k hc _ ih => exact callee_path.step a c b k (h a ▸ hc) ih

/-- What one `print_preorder` call does: it changes `printed` flags only, and
every line it prints is for a node that passes the filter and that is reached
from `node` by `k` callee edges, at recursion depth `depth + k`, where `k = 0`
or `depth + k` is within the depth limit. -/
theorem print_preorder_spec (fuel : Nat) :
    ∀ (graph : graph_t) (count node depth maxlen pad : Nat)
      (r : (graph_t × Nat) × List line_t),
      print_preorder fuel (graph, count) node depth maxlen pad = some r →
      same_but_printed graph r.1.1
        ∧ ∀ ln ∈ r.2, suppressed graph (deref graph.defines ln.node) = false
            ∧ ∃ k, ln.depth = depth + k ∧ callee_path graph.defines node ln.node k
                ∧ (k = 0 ∨ ((depth + k : Nat) : Int) ≤ graph.depth) := by
  induction fuel with
  | zero =>
    intro graph count node depth maxlen pad r h
    rw [print_preorder_zero] at h
    exact Option.noConfusion h
  | succ fuel ih =>
    intro graph count node depth maxlen pad r h
    rw [print_preorder_succ] at h
    have hown : ∀ ln : line_t, ln.node = node → ln.depth = depth →
        suppressed graph (deref graph.defines node) = false →
        suppressed graph (deref graph.defines ln.node) = false
          ∧ ∃ k, ln.depth = depth + k ∧ callee_path graph.defines node ln.node k
              ∧ (k = 0 ∨ ((depth + k : Nat) : Int) ≤ graph.depth) := by
      intro ln h1 h2 h3
      rw [h1]
      exact ⟨h3, 0, h2, callee_path.here node, Or.inl rfl⟩
    by_cases hs : suppressed graph (deref graph.defines node) = true
    · rw [if_pos hs] at h
      simp only [Option.some.injEq] at h
      subst h
      exact ⟨same_but_printed_refl _, by simp⟩
    · rw [if_neg hs] at h
      have hs2 : suppressed graph (deref graph.defines node) = false := by simpa using hs
      by_cases hpr : (deref graph.defines node).printed = true
      · rw [if_pos hpr] at h
        simp only [Option.some.injEq] at h
        subst h
        refine ⟨same_but_printed_refl _, ?_⟩
        intro ln hln
        rw [List.mem_singleton] at hln
        subst hln
        exact hown _ rfl rfl hs2
      · rw [if_neg hpr] at h
        by_cases hd : (depth : Int) ≥ graph.depth
        · rw [if_pos hd] at h
          simp only [Option.some.injEq] at h
          subst h
          refine ⟨same_but_printed_mark _ _, ?_⟩
          intro ln hln
          rw [List.mem_singleton] at hln
          subst hln
          exact hown _ rfl rfl hs2
        · rw [if_neg hd] at h
          split at h
          · exact Option.noConfusion h
          · next s1 out1 hw =>
            simp only [Option.some.injEq] at h
            subst h
            have hsp := walk_spec _
              (fun (s s2 : graph_t × Nat) => same_but_printed s.1 s2.1)
              (fun s => same_but_printed_refl s.1)
              (fun a b c hab hbc => same_but_printed_trans a.1 b.1 c.1 hab hbc)
              (fun c ln => suppressed graph (deref graph.defines ln.node) = false
                ∧ ∃ k, ln.depth = depth + 1 + k ∧ callee_path graph.defines c ln.node k
                    ∧ (k = 0 ∨ ((depth + 1 + k : Nat) : Int) ≤ graph.depth))
              (deref graph.defines node).list (mark_printed graph node, count + 1)
              (by
                intro c _ s r hR hb
                obtain ⟨g1, c1⟩ := s
                have hfr : same_but_printed graph g1 :=
                  same_but_printed_trans _ _ _ (same_but_printed_mark graph node) hR
                obtain ⟨hf, hl⟩ := ih g1 c1 c (depth + 1) _ pad r hb
                refine ⟨hf, ?_⟩
                intro ln hln
                obtain ⟨hsup, k, hk1, hk2, hk3⟩ := hl ln hln
                refine ⟨?_, k, hk1, ?_, ?_⟩
                · rw [← same_but_printed_suppressed graph g1 hfr]; exact hsup
                · exact callee_path_frame g1.defines graph.defines
                    (fun q => same_but_printed_list graph g1 hfr q) _ _ _ hk2
                · rw [← same_but_printed_depth graph g1 hfr]; exact hk3)
              (s1, out1) hw
            refine ⟨same_but_printed_trans _ _ _ (same_but_printed_mark graph node) hsp.1, ?_⟩
            intro ln hln
            rcases List.mem_cons.mp hln with hl | hl
            · subst hl
              exact hown _ rfl rfl hs2
            · obtain ⟨c, hc, hsup, k, hk1, hk2, hk3⟩ := hsp.2 ln hl
              refine ⟨hsup, k + 1, by omega, callee_path.step node c ln.node k hc hk2, Or.inr ?_⟩
              rcases hk3 with hk3 | hk3
              · subst hk3
                push_cast
                omega
              · push_cast at hk3 ⊢
                omega

/-! ## Rendering: `print_graph` in forward mode -/

/-- The digit loop does not depend on its bound once the bound is at least
`count`. -/
theorem print_graph_pad_fuel (fuel1 fuel2 count pad : Nat)
    (h1 : count ≤ fuel1) (h2 : count ≤ fuel2) :
    print_graph_pad fuel1 count pad = print_graph_pad fuel2 count pad := by
  induction fuel1 generalizing fuel2 count pad with
  | zero =>
    have hc : count = 0 := by omega
    subst hc
    cases fuel2 <;> simp [print_graph_pad]
  | succ fuel1 ih =>
    by_cases hc : count = 0
    · subst hc
      cases fuel2 <;> simp [print_graph_pad]
    · cases fuel2 with
      | zero => omega
      | succ fuel2 =>
        have hpos : count > 0 := by omega
        simp only [print_graph_pad, hpos, if_true]
        have hdiv : count / 10 < count := Nat.div_lt_self hpos (by decide)
        exact ih fuel2 (count / 10) (pad + 1) (by omega) (by omega)

theorem print_if_unprinted_total (fuel maxlen pad cur : Nat) (s : graph_t × Nat)
    (hfuel : s.1.defines.length < fuel) :
    ∃ r, print_if_unprinted fuel maxlen pad cur s = some r
      ∧ r.1.1.defines.length = s.1.defines.length := by
  obtain ⟨g1, c1⟩ := s
  unfold print_if_unprinted
  split
  · obtain ⟨r, hr, _, hr2⟩ := print_preorder_total fuel g1 c1 cur 0 maxlen pad
      (Nat.lt_of_le_of_lt (unprinted_le_length _) hfuel)
    exact ⟨r, hr, hr2⟩
  · exact ⟨_, rfl, rfl⟩

theorem print_if_unprinted_spec (fuel maxlen pad cur : Nat) (s : graph_t × Nat)
    (r : (graph_t × Nat) × List line_t)
    (h : print_if_unprinted fuel maxlen pad cur s = some r) :
    same_but_printed s.1 r.1.1
      ∧ ∀ ln ∈ r.2, suppressed s.1 (deref s.1.defines ln.node) = false
          ∧ ∃ k, ln.depth = 0 + k ∧ callee_path s.1.defines cur ln.node k
              ∧ (k = 0 ∨ ((0 + k : Nat) : Int) ≤ s.1.depth) := by
  obtain ⟨g1, c1⟩ := s
  unfold print_if_unprinted at h
  split at h
  · exact print_preorder_spec fuel g1 c1 cur 0 maxlen pad r h
  · simp only [Option.some.injEq] at h
    subst h
    exact ⟨same_but_printed_refl _, by simp⟩

theorem print_if_unprinted_mono (fuel fuel2 : Nat) (hle : fuel ≤ fuel2) (maxlen pad cur : Nat)
    (s : graph_t × Nat) (r : (graph_t × Nat) × List line_t)
    (h : print_if_unprinted fuel maxlen pad cur s = some r) :
    print_if_unprinted fuel2 maxlen pad cur s = some r := by
  unfold print_if_unprinted at h ⊢
  split
  · next hc =>
    rw [if_pos hc] at h
    exact print_preorder_mono_le fuel fuel2 hle s cur 0 maxlen pad r h
  · next hc =>
    rw [if_neg hc] at h
    exact h

/-- Forward `print_graph` returns once the fuel exceeds the number of nodes;
it changes `printed` flags only, and every line is for a node that passes the
filter and lies `ln.depth` callee edges below a top-level node, with
`ln.depth = 0` or `ln.depth` within the depth limit. -/
theorem print_graph_fuel_forward (fuel : Nat) (graph : graph_t)
    (hfwd : graph.reversed = false) (hfuel : graph.defines.length < fuel) :
    ∃ r, print_graph_fuel fuel graph = some r
      ∧ same_but_printed graph r.1
      ∧ ∀ ln ∈ r.2, suppressed graph (deref graph.defines ln.node) = false
          ∧ (ln.depth = 0 ∨ (ln.depth : Int) ≤ graph.depth)
          ∧ ∃ top, top_level graph top ∧ callee_path graph.defines top ln.node ln.depth := by
  unfold print_graph_fuel
  simp only [hfwd, Bool.not_false, if_true]
  cases hroot : graph.rootnode with
  | some root =>
    simp only
    obtain ⟨r, hr, _, _⟩ := print_preorder_total fuel graph 1 root 0
      (deref graph.defines root).name.length
      (print_graph_pad (print_graph_measure graph.defines).2.1
        (print_graph_measure graph.defines).2.1 0)
      (Nat.lt_of_le_of_lt (unprinted_le_length _) hfuel)
    obtain ⟨hf, hl⟩ := print_preorder_spec fuel graph 1 root 0 _ _ r hr
    rw [hr]
    refine ⟨_, rfl, hf, ?_⟩
    intro ln hln
    obtain ⟨hsup, k, hk1, hk2, hk3⟩ := hl ln hln
    have hk : ln.depth = k := by omega
    subst hk
    refine ⟨hsup, ?_, root, Or.inl hroot, hk2⟩
    rcases hk3 with h | h
    · exact Or.inl h
    · right
      simpa using h
  | none =>
    simp only
    obtain ⟨r, hr, _⟩ := walk_total
      (print_if_unprinted fuel (print_graph_measure graph.defines).1
        (print_graph_pad (print_graph_measure graph.defines).2.1
          (print_graph_measure graph.defines).2.1 0))
      (fun s => s.1.defines.length = graph.defines.length)
      (List.range graph.defines.length) (graph, 1)
      (by
        intro c _ s hI
        have hI2 : s.1.defines.length = graph.defines.length := hI
        obtain ⟨r, hr, hr2⟩ := print_if_unprinted_total fuel _ _ c s (by omega)
        exact ⟨r, hr, hr2.trans hI2⟩)
      rfl
    have hsp := walk_spec _
      (fun (s s2 : graph_t × Nat) => same_but_printed s.1 s2.1)
      (fun s => same_but_printed_refl s.1)
      (fun a b c hab hbc => same_but_printed_trans a.1 b.1 c.1 hab hbc)
      (fun c ln => suppressed graph (deref graph.defines ln.node) = false
        ∧ (ln.depth = 0 ∨ (ln.depth : Int) ≤ graph.depth)
        ∧ callee_path graph.defines c ln.node ln.depth)
      (List.range graph.defines.length) (graph, 1)
      (by
        intro c _ s r hR hb
        have hfr : same_but_printed graph s.1 := hR
        obtain ⟨hf, hl⟩ := print_if_unprinted_spec fuel _ _ c s r hb
        refine ⟨hf, ?_⟩
        intro ln hln
        obtain ⟨hsup, k, hk1, hk2, hk3⟩ := hl ln hln
        have hk : ln.depth = k := by omega
        subst hk
        refine ⟨?_, ?_, ?_⟩
        · rw [← same_but_printed_suppressed graph s.1 hfr]; exact hsup
        · rcases hk3 with h | h
          · exact Or.inl h
          · right
            rw [← same_but_printed_depth graph s.1 hfr]
            simpa using h
        · exact callee_path_frame s.1.defines graph.defines
            (fun q => same_but_printed_list graph s.1 hfr q) _ _ _ hk2)
      r hr
    rw [hr]
    refine ⟨_, rfl, hsp.1, ?_⟩
    intro ln hln
    obtain ⟨c, hc, h1, h2, h3⟩ := hsp.2 ln hln
    exact ⟨h1, h2, c, Or.inr ⟨hroot, List.mem_range.mp hc⟩, h3⟩

theorem print_graph_fuel_mono (fuel fuel2 : Nat) (hle : fuel ≤ fuel2) (graph : graph_t)
    (r : graph_t × List line_t) (h : print_graph_fuel fuel graph = some r) :
    print_graph_fuel fuel2 graph = some r := by
  unfold print_graph_fuel at h ⊢
  by_cases hrev : graph.reversed = true
  · simp only [hrev, Bool.not_true, Bool.false_eq_true, if_false] at h ⊢
    exact h
  · have hrev2 : graph.reversed = false := by simpa using hrev
    simp only [hrev2, Bool.not_false, if_true] at h ⊢
    cases hroot : graph.rootnode with
    | some root =>
      rw [hroot] at h
      simp only [Option.map_eq_some'] at h ⊢
      obtain ⟨a, ha, hr⟩ := h
      exact ⟨a, print_preorder_mono_le fuel fuel2 hle _ _ _ _ _ a ha, hr⟩
    | none =>
      rw [hroot] at h
      simp only [Option.map_eq_some'] at h ⊢
      obtain ⟨a, ha, hr⟩ := h
      refine ⟨a, ?_, hr⟩
      exact walk_mono _ _
        (fun c s r hb => print_if_unprinted_mono fuel fuel2 hle _ _ c s r hb) _ _ a ha

theorem print_graph_total (graph : graph_t) : ∃ r, print_graph graph = some r := by
  by_cases hrev : graph.reversed = true
  · unfold print_graph print_graph_fuel
    simp only [hrev, Bool.not_true, Bool.false_eq_true, if_false]
    exact ⟨_, rfl⟩
  · obtain ⟨r, hr, _⟩ := print_graph_fuel_forward (graph.defines.length + 1) graph
      (by simpa using hrev) (Nat.lt_succ_self _)
    exact ⟨r, hr⟩

/-! ## Rendering: claims C7 to C10 -/

theorem nodes_contain_iff (list : List String) (name : String) :
    nodes_contain list name = true ↔ name ∈ list := by
  induction list with
  | nil => simp [nodes_contain]
  | cons n list ih =>
    unfold nodes_contain
    by_cases h : n = name
    · simp [h]
    · have h2 : ¬ name = n := fun e => h e.symm
      simp [h, h2, ih]

theorem suppressed_iff (graph : graph_t) (n : g_node_t) :
    suppressed graph n = true
      ↔ (graph.privates = false ∧ n.name.data.head? = some '_')
        ∨ (graph.statics = false ∧ n.ntype = NodeType.VARIABLE)
        ∨ n.name ∈ graph.excludes := by
  unfold suppressed
  simp only [Bool.or_eq_true, Bool.and_eq_true, Bool.not_eq_true', beq_iff_eq,
    nodes_contain_iff, or_assoc]

/-- Claim C7: forward rendering terminates on every finite graph, cyclic or
not, and for every depth limit.  `print_graph` returns for every graph, and
`print_preorder` returns for every graph, start node and depth, as soon as the
bound on the nesting of calls exceeds the number of nodes; a larger bound gives
the same result.  For the two-node cycle `a -> b -> a` rendered from `a` with
unbounded depth the lines are `a` (depth 0), `b` (depth 1), `a` (depth 2):
`a` and `b` are both printed, and nothing is printed beneath the second `a`,
so the callees of `b` are expanded once only. -/
theorem forward_rendering_terminates :
    (∀ graph : graph_t, ∃ r, print_graph graph = some r
        ∧ ∀ extra, print_graph_fuel (graph.defines.length + 1 + extra) graph = some r)
    ∧ (∀ (graph : graph_t) (count node depth maxlen pad : Nat),
        ∃ r, print_preorder (graph.defines.length + 1) (graph, count) node depth maxlen pad
              = some r
          ∧ ∀ extra, print_preorder (graph.defines.length + 1 + extra) (graph, count) node
              depth maxlen pad = some r)
    ∧ graph_cycle.reversed = false
    ∧ graph_cycle.rootnode = some 0
    ∧ graph_cycle.depth = INT_MAX
    ∧ graph_cycle.defines.map (fun n => (n.name, n.list)) = [("a", [1]), ("b", [0])]
    ∧ (print_graph graph_cycle).map (fun r => r.2.map (fun ln => (ln.node, ln.depth)))
        = some [(0, 0), (1, 1), (0, 2)] := by
  refine ⟨?_, ?_, by decide, by decide, by decide, by decide, by decide⟩
  · intro graph
    obtain ⟨r, hr⟩ := print_graph_total graph
    refine ⟨r, hr, ?_⟩
    intro extra
    exact print_graph_fuel_mono (graph.defines.length + 1) _ (Nat.le_add_right _ _) graph r hr
  · intro graph count node depth maxlen pad
    obtain ⟨r, hr, _⟩ := print_preorder_total (graph.defines.length + 1) graph count node depth
      maxlen pad (Nat.lt_succ_of_le (unprinted_le_length _))
    refine ⟨r, hr, ?_⟩
    intro extra
    exact print_preorder_mono_le (graph.defines.length + 1) _ (Nat.le_add_right _ _) _ _ _ _ _
      r hr

/-- Claim C8: depth bound.  For every graph with depth limit `d >= 0`, forward
rendering returns and every line it prints was printed at a recursion depth
`ln.depth <= d`, for a node that is reached from the top-level node of its
traversal by a path of exactly `ln.depth` callee edges.  A node that passes
the filter and is visited at depth exactly `d` is printed, as the only line of
that call: none of its callees is printed beneath it. -/
theorem depth_bound (graph : graph_t) (hd : 0 ≤ graph.depth) (hfwd : graph.reversed = false) :
    (∃ r, print_graph graph = some r
      ∧ ∀ ln ∈ r.2, (ln.depth : Int) ≤ graph.depth
          ∧ ∃ top, top_level graph top ∧ callee_path graph.defines top ln.node ln.depth)
    ∧ (∀ (fuel count node depth maxlen pad : Nat),
        (depth : Int) = graph.depth →
        suppressed graph (deref graph.defines node) = false →
        ∃ g1, print_preorder (fuel + 1) (graph, count) node depth maxlen pad
          = some ((g1, count + 1),
              [{ node := node, pad := pad, maxlen := maxlen, count := count,
                 depth := depth }])) := by
  constructor
  · obtain ⟨r, hr, _, hl⟩ := print_graph_fuel_forward (graph.defines.length + 1) graph hfwd
      (Nat.lt_succ_self _)
    refine ⟨r, hr, ?_⟩
    intro ln hln
    obtain ⟨_, h2, h3⟩ := hl ln hln
    refine ⟨?_, h3⟩
    rcases h2 with h | h
    · rw [h]; exact hd
    · exact h
  · intro fuel count node depth maxlen pad hdepth hsup
    rw [print_preorder_succ]
    rw [if_neg (by simp [hsup])]
    by_cases hpr : (deref graph.defines node).printed = true
    · rw [if_pos hpr]
      exact ⟨graph, rfl⟩
    · rw [if_neg hpr, if_pos (by omega)]
      exact ⟨mark_printed graph node, rfl⟩

/-- Witness for `depth_bound`: `main -> foo, bar` with depth limit 1. -/
theorem depth_bound_witness :
    0 ≤ graph_depth_one.depth ∧ graph_depth_one.reversed = false
    ∧ (∃ r, print_graph graph_depth_one = some r
      ∧ ∀ ln ∈ r.2, (ln.depth : Int) ≤ graph_depth_one.depth
          ∧ ∃ top, top_level graph_depth_one top
              ∧ callee_path graph_depth_one.defines top ln.node ln.depth)
    ∧ (∀ (fuel count node depth maxlen pad : Nat),
        (depth : Int) = graph_depth_one.depth →
        suppressed graph_depth_one (deref graph_depth_one.defines node) = false →
        ∃ g1, print_preorder (fuel + 1) (graph_depth_one, count) node depth maxlen pad
          = some ((g1, count + 1),
              [{ node := node, pad := pad, maxlen := maxlen, count := count,
                 depth := depth }])) :=
  ⟨by decide, by decide, depth_bound graph_depth_one (by decide) (by decide)⟩

/-- Claim C9: filter correctness in forward mode.  For every graph and
configuration, forward rendering returns and no line it prints names a node
that is a VARIABLE while `statics` is false, whose name starts with an
underscore while `privates` is false, or whose name is in the exclusion list;
and `print_preorder` on such a node returns at once, printing nothing and
leaving the state as it was, so no callee is printed by descending through
it. -/
theorem filter_forward (graph : graph_t) (hfwd : graph.reversed = false) :
    (∃ r, print_graph graph = some r
      ∧ ∀ ln ∈ r.2,
          ¬ (graph.statics = false ∧ (deref graph.defines ln.node).ntype = NodeType.VARIABLE)
          ∧ ¬ (graph.privates = false
                ∧ (deref graph.defines ln.node).name.data.head? = some '_')
          ∧ (deref graph.defines ln.node).name ∉ graph.excludes)
    ∧ (∀ (fuel count node depth maxlen pad : Nat),
        ((graph.statics = false ∧ (deref graph.defines node).ntype = NodeType.VARIABLE)
          ∨ (graph.privates = false ∧ (deref graph.defines node).name.data.head? = some '_')
          ∨ (deref graph.defines node).name ∈ graph.excludes) →
        print_preorder (fuel + 1) (graph, count) node depth maxlen pad
          = some ((graph, count), [])) := by
  constructor
  · obtain ⟨r, hr, _, hl⟩ := print_graph_fuel_forward (graph.defines.length + 1) graph hfwd
      (Nat.lt_succ_self _)
    refine ⟨r, hr, ?_⟩
    intro ln hln
    obtain ⟨h1, _⟩ := hl ln hln
    have hns : ¬ suppressed graph (deref graph.defines ln.node) = true := by simp [h1]
    rw [suppressed_iff] at hns
    exact ⟨fun h => hns (Or.inr (Or.inl h)), fun h => hns (Or.inl h),
      fun h => hns (Or.inr (Or.inr h))⟩
  · intro fuel count node depth maxlen pad h
    have hs : suppressed graph (deref graph.defines node) = true := by
      rw [suppressed_iff]
      rcases h with h | h | h
      · exact Or.inr (Or.inl h)
      · exact Or.inl h
      · exact Or.inr (Or.inr h)
    rw [print_preorder_succ, if_pos hs]

/-- Witness for `filter_forward`: `main` calls a private function, an excluded
keyword, a variable and `foo`. -/
theorem filter_forward_witness :
    graph_filtered.reversed = false
    ∧ (print_graph graph_filtered).map
        (fun r => r.2.map (fun ln => (deref graph_filtered.defines ln.node).name))
        = some ["main", "foo"]
    ∧ (∃ r, print_graph graph_filtered = some r
      ∧ ∀ ln ∈ r.2,
          ¬ (graph_filtered.statics = false
              ∧ (deref graph_filtered.defines ln.node).ntype = NodeType.VARIABLE)
          ∧ ¬ (graph_filtered.privates = false
                ∧ (deref graph_filtered.defines ln.node).name.data.head? = some '_')
          ∧ (deref graph_filtered.defines ln.node).name ∉ graph_filtered.excludes)
    ∧ (∀ (fuel count node depth maxlen pad : Nat),
        ((graph_filtered.statics = false
            ∧ (deref graph_filtered.defines node).ntype = NodeType.VARIABLE)
          ∨ (graph_filtered.privates = false
              ∧ (deref graph_filtered.defines node).name.data.head? = some '_')
          ∨ (deref graph_filtered.defines node).name ∈ graph_filtered.excludes) →
        print_preorder (fuel + 1) (graph_filtered, count) node depth maxlen pad
          = some ((graph_filtered, count), [])) :=
  ⟨by decide, by decide, filter_forward graph_filtered (by decide)⟩

/-- Claim C10, evaluated on the code: in reversed mode with `privates` false,
for `f` whose only caller is the private function `_g`, the render prints two
lines, `f` and beneath it the caller line `_g`.  The tests in the caller loop
of `print_callers` read `node` (here `f`) and not `sub->content`, and the loop
has no test of the exclusion list. -/
theorem reversed_prints_private_caller :
    graph_private_caller.reversed = true
    ∧ graph_private_caller.privates = false
    ∧ graph_private_caller.defines.map (fun n => (n.name, n.callers)) = [("f", [1]), ("_g", [])]
    ∧ (print_graph graph_private_caller).map
        (fun r => r.2.map (fun ln => ((deref graph_private_caller.defines ln.node).name, ln.count)))
        = some [("f", 1), ("_g", 2)] := by
  decide


/-! ## Rendering: the running index -/

theorem range_one_append (a n m : Nat) :
    List.range' a n ++ List.range' (a + n) m = List.range' a (n + m) := by
  rw [Nat.add_comm n m]
  exact List.range'_append_1 a n m

theorem walk_count (body : Nat → graph_t × Nat → Option ((graph_t × Nat) × List line_t))
    (sub : List Nat) (s0 : graph_t × Nat)
    (hbody : ∀ c ∈ sub, ∀ s r, body c s = some r →
      r.1.2 = s.2 + r.2.length ∧ r.2.map (fun ln => ln.count) = List.range' s.2 r.2.length)
    (r : (graph_t × Nat) × List line_t) (h : walk body sub s0 = some r) :
    r.1.2 = s0.2 + r.2.length
      ∧ r.2.map (fun ln => ln.count) = List.range' s0.2 r.2.length := by
  induction sub generalizing s0 r with
  | nil =>
    simp only [walk, Option.some.injEq] at h
    subst h
    simp
  | cons c sub ih =>
    unfold walk at h
    split at h
    · exact Option.noConfusion h
    · next s1 out1 h1 =>
      split at h
      · exact Option.noConfusion h
      · next s2 out2 h2 =>
        simp only [Option.some.injEq] at h
        subst h
        have hc := hbody c (List.mem_cons_self _ _) s0 (s1, out1) h1
        have hrest := ih s1 (fun c2 hc2 => hbody c2 (List.mem_cons_of_mem _ hc2)) (s2, out2) h2
        simp only at hc hrest
        refine ⟨?_, ?_⟩
        · simp only [List.length_append]
          omega
        · simp only [List.map_append, List.length_append]
          rw [hc.2, hrest.2, hc.1, range_one_append]

theorem print_preorder_count (fuel : Nat) :
    ∀ (graph : graph_t) (count node depth maxlen pad : Nat)
      (r : (graph_t × Nat) × List line_t),
      print_preorder fuel (graph, count) node depth maxlen pad = some r →
      r.1.2 = count + r.2.length
        ∧ r.2.map (fun ln => ln.count) = List.range' count r.2.length := by
  induction fuel with
  | zero =>
    intro graph count node depth maxlen pad r h
    rw [print_preorder_zero] at h
    exact Option.noConfusion h
  | succ fuel ih =>
    intro graph count node depth maxlen pad r h
    rw [print_preorder_succ] at h
    by_cases hs : suppressed graph (deref graph.defines node) = true
    · rw [if_pos hs] at h
      simp only [Option.some.injEq] at h
      subst h
      simp
    · rw [if_neg hs] at h
      by_cases hpr : (deref graph.defines node).printed = true
      · rw [if_pos hpr] at h
        simp only [Option.some.injEq] at h
        subst h
        simp
      · rw [if_neg hpr] at h
        by_cases hd : (depth : Int) ≥ graph.depth
        · rw [if_pos hd] at h
          simp only [Option.some.injEq] at h
          subst h
          simp
        · rw [if_neg hd] at h
          split at h
          · exact Option.noConfusion h
          · next s1 out1 hw =>
            simp only [Option.some.injEq] at h
            subst h
            have hwc := walk_count _ _ _
              (fun c _ s r hb => by
                obtain ⟨g1, c1⟩ := s
                exact ih g1 c1 c _ _ _ r hb)
              (s1, out1) hw
            simp only at hwc
            refine ⟨?_, ?_⟩
            · simp only [List.length_cons]
              omega
            · simp only [List.map_cons, List.length_cons, hwc.2]
              rw [Nat.add_comm out1.length 1, ← range_one_append]
              simp

theorem print_callers_loop_count (graph : graph_t) (node depth width pad : Nat)
    (sub : List Nat) (count : Nat) :
    (print_callers_loop graph node depth width pad sub count).1
        = count + (print_callers_loop graph node depth width pad sub count).2.length
      ∧ (print_callers_loop graph node depth width pad sub count).2.map (fun ln => ln.count)
        = List.range' count
            (print_callers_loop graph node depth width pad sub count).2.length := by
  induction sub generalizing count with
  | nil => simp [print_callers_loop]
  | cons c sub ih =>
    unfold print_callers_loop
    split
    · simp
    · split
      · simp
      · have h := ih (count + 1)
        simp only [List.length_cons, List.map_cons]
        refine ⟨by omega, ?_⟩
        rw [h.2, List.range'_succ]

theorem print_callers_count (graph : graph_t) (count node depth maxlen pad : Nat) :
    (print_callers graph count node depth maxlen pad).1
        = count + (print_callers graph count node depth maxlen pad).2.length
      ∧ (print_callers graph count node depth maxlen pad).2.map (fun ln => ln.count)
        = List.range' count (print_callers graph count node depth maxlen pad).2.length := by
  unfold print_callers
  split
  · simp
  · split
    · simp
    · have h := print_callers_loop_count graph node depth
        (maxlen + max_namelen graph.defines (deref graph.defines node).callers + 1) pad
        (deref graph.defines node).callers (count + 1)
      simp only [List.length_cons, List.map_cons]
      refine ⟨by omega, ?_⟩
      rw [h.2, List.range'_succ]

theorem print_callers_each_count (graph : graph_t) (maxlen pad : Nat) (rev : List Nat)
    (count : Nat) :
    (print_callers_each graph maxlen pad rev count).1
        = count + (print_callers_each graph maxlen pad rev count).2.length
      ∧ (print_callers_each graph maxlen pad rev count).2.map (fun ln => ln.count)
        = List.range' count (print_callers_each graph maxlen pad rev count).2.length := by
  induction rev generalizing count with
  | nil => simp [print_callers_each]
  | cons cur rev ih =>
    unfold print_callers_each
    have h1 := print_callers_count graph count cur 0 maxlen pad
    have h2 := ih (print_callers graph count cur 0 maxlen pad).1
    simp only [List.length_append, List.map_append]
    refine ⟨by omega, ?_⟩
    rw [h1.2, h2.2, h1.1, range_one_append]

theorem print_if_unprinted_count (fuel maxlen pad cur : Nat) (s : graph_t × Nat)
    (r : (graph_t × Nat) × List line_t)
    (h : print_if_unprinted fuel maxlen pad cur s = some r) :
    r.1.2 = s.2 + r.2.length
      ∧ r.2.map (fun ln => ln.count) = List.range' s.2 r.2.length := by
  obtain ⟨g1, c1⟩ := s
  unfold print_if_unprinted at h
  split at h
  · exact print_preorder_count fuel g1 c1 cur 0 maxlen pad r h
  · simp only [Option.some.injEq] at h
    subst h
    simp

theorem print_graph_count (graph : graph_t) (r : graph_t × List line_t)
    (h : print_graph graph = some r) :
    r.2.map (fun ln => ln.count) = List.range' 1 r.2.length := by
  unfold print_graph print_graph_fuel at h
  by_cases hrev : graph.reversed = true
  · simp only [hrev, Bool.not_true, Bool.false_eq_true, if_false, Option.some.injEq] at h
    subst h
    exact (print_callers_each_count graph _ _ _ 1).2
  · have hrev2 : graph.reversed = false := by simpa using hrev
    simp only [hrev2, Bool.not_false, if_true] at h
    cases hroot : graph.rootnode with
    | some root =>
      rw [hroot] at h
      simp only [Option.map_eq_some'] at h
      obtain ⟨a, ha, hr⟩ := h
      subst hr
      exact (print_preorder_count _ graph 1 root 0 _ _ a ha).2
    | none =>
      rw [hroot] at h
      simp only [Option.map_eq_some'] at h
      obtain ⟨a, ha, hr⟩ := h
      subst hr
      exact (walk_count _ _ _
        (fun c _ s r hb => print_if_unprinted_count _ _ _ c s r hb) a ha).2

/-! ## Claims C11 to C20 -/

/-- Claim C12: the example of the spec.  For the graph built by defining `main`
with callees `foo, bar`, `foo` with callee `bar` and `bar` without callees,
root name `main`, unbounded depth and nothing filtered, forward rendering
prints exactly four lines, `main`, `foo`, `bar`, `bar`, with the indices 1 to
4, at the depths 0, 1, 2, 1; the second `bar`, the one under `main`, is the
last line, so nothing is printed beneath it. -/
theorem spec_example_render :
    graph_spec_example.rootnode = some 0
    ∧ graph_spec_example.defines.map (fun n => (n.name, n.list))
        = [("main", [1, 2]), ("foo", [2]), ("bar", [])]
    ∧ (print_graph graph_spec_example).map
        (fun r => r.2.map
          (fun ln => ((deref graph_spec_example.defines ln.node).name, ln.count, ln.depth)))
        = some [("main", 1, 0), ("foo", 2, 1), ("bar", 3, 2), ("bar", 4, 1)] := by
  decide


/-- Claim C16: the running index.  In forward and in reversed rendering alike
`print_graph` returns, and the k-th line it prints carries the index k: the
indices are 1, 2, ..., in order, across all top-level iterations.  A node
suppressed by the filter prints nothing and leaves the index as it was, in
`print_preorder` and in `print_callers`. -/
theorem running_index (graph : graph_t) :
    (∃ r, print_graph graph = some r
      ∧ r.2.map (fun ln => ln.count) = List.range' 1 r.2.length
      ∧ ∀ k (hk : k < r.2.length), (r.2.get ⟨k, hk⟩).count = k + 1)
    ∧ (∀ (fuel count node depth maxlen pad : Nat),
        suppressed graph (deref graph.defines node) = true →
        print_preorder (fuel + 1) (graph, count) node depth maxlen pad
            = some ((graph, count), [])
          ∧ print_callers graph count node depth maxlen pad = (count, [])) := by
  constructor
  · obtain ⟨r, hr⟩ := print_graph_total graph
    have hc := print_graph_count graph r hr
    refine ⟨r, hr, hc, ?_⟩
    intro k hk
    have h1 : (r.2.map (fun ln => ln.count))[k]? = (List.range' 1 r.2.length)[k]? := by
      rw [hc]
    rw [List.getElem?_map, List.getElem?_eq_getElem hk,
      List.getElem?_eq_getElem (by simpa using hk)] at h1
    simp only [Option.map_some', Option.some.injEq, List.getElem_range'] at h1
    simp only [List.get_eq_getElem]
    omega
  · intro fuel count node depth maxlen pad hs
    constructor
    · rw [print_preorder_succ, if_pos hs]
    · unfold print_callers
      rw [if_pos hs]

/-- Witness for `running_index`: the filtered example in forward mode prints
`main` with index 1 and `foo` with index 2; the private `_helper` between them
takes no index. -/
theorem running_index_witness :
    (print_graph graph_filtered).map
        (fun r => r.2.map (fun ln => ((deref graph_filtered.defines ln.node).name, ln.count)))
        = some [("main", 1), ("foo", 2)]
    ∧ (print_graph { graph_filtered with reversed := true }).map
        (fun r => r.2.map (fun ln => ((deref graph_filtered.defines ln.node).name, ln.count)))
        = some [("bar", 1), ("_helper", 2), ("foo", 3), ("main", 4), ("main", 5)]
    ∧ suppressed graph_filtered (deref graph_filtered.defines 1) = true
    ∧ (∃ r, print_graph graph_filtered = some r
      ∧ r.2.map (fun ln => ln.count) = List.range' 1 r.2.length
      ∧ ∀ k (hk : k < r.2.length), (r.2.get ⟨k, hk⟩).count = k + 1)
    ∧ (∀ (fuel count node depth maxlen pad : Nat),
        suppressed graph_filtered (deref graph_filtered.defines node) = true →
        print_preorder (fuel + 1) (graph_filtered, count) node depth maxlen pad
            = some ((graph_filtered, count), [])
          ∧ print_callers graph_filtered count node depth maxlen pad = (count, [])) :=
  ⟨by decide, by decide, by decide, running_index graph_filtered⟩


theorem spaces_length (n : Nat) : (spaces n).length = n := by
  simp [spaces, String.length]

theorem fmt_s_length (width : Nat) (str : String) :
    (fmt_s width str).length = max width str.length := by
  simp only [fmt_s, String.length_append, spaces_length]
  omega

theorem fmt_d_length (width value : Nat) :
    (fmt_d width value).length = max width (toString value).length := by
  simp only [fmt_d, String.length_append, spaces_length]
  omega

/-- For each of the five `printf` calls of `print_node`: the text is the index
field, a space, the name field, a colon and a space, and a detail that ends
the line. -/
theorem print_node_layout (node : g_node_t) (pad maxlen count : Nat) :
    print_node node pad maxlen count
      = fmt_d pad count ++ " " ++ fmt_s maxlen node.name ++ ": "
        ++ ((if node.line = -1 then "<>"
             else
               (match node.ntype, node.type with
                | NodeType.VARIABLE, none => ""
                | NodeType.VARIABLE, some type => type ++ ", "
                | NodeType.FUNCTION, none => "(), "
                | NodeType.FUNCTION, some type => type ++ "(), ")
               ++ "<" ++ file_text node ++ " " ++ toString node.line ++ ">") ++ "\n") := by
  unfold print_node
  by_cases hl : node.line = -1
  · simp only [hl, ne_eq, not_true_eq_false, if_false, if_true, String.append_assoc]
    rfl
  · simp only [hl, ne_eq, not_false_eq_true, if_true, if_false]
    cases hn : node.ntype <;> cases ht : node.type <;>
      simp only [reduceCtorEq, if_false, if_true, String.append_assoc] <;> rfl

/-- Claim C14 as stated fails: for the node `f`, index 1, `pad` 1 and column
width 3 the line is the index, a space, two spaces of padding and then the
name; the name does not start right after the index with the padding behind
it. -/
theorem print_node_pads_before_name :
    node_reference.name = "f"
    ∧ print_node node_reference 1 3 1 = "1   f: <>\n"
    ∧ print_node node_reference 1 3 1 ≠ "1 f  : <>\n" := by
  decide

/-- Claim C14, amended: for every node, index, `pad` and column width,
`print_node` writes the index right-aligned in a field of width `pad`, one
space, then the name right-aligned in a field of width `maxlen`, that is
preceded by `maxlen - strlen (name)` spaces, then a colon, a space and the
detail.  Each field is as wide as its width, or as its content when that is
longer. -/
theorem print_node_fields (node : g_node_t) (pad maxlen count : Nat) :
    (∃ detail, print_node node pad maxlen count
        = (spaces (pad - (toString count).length) ++ toString count) ++ " "
          ++ (spaces (maxlen - node.name.length) ++ node.name) ++ ": " ++ detail)
    ∧ (spaces (pad - (toString count).length) ++ toString count).length
        = max pad (toString count).length
    ∧ (spaces (maxlen - node.name.length) ++ node.name).length
        = max maxlen node.name.length := by
  refine ⟨⟨_, print_node_layout node pad maxlen count⟩, ?_, ?_⟩
  · exact fmt_d_length pad count
  · exact fmt_s_length maxlen node.name

/-- Claim C15: the detail of a line.  For every node, after the name field and
`": "`, `print_node` writes `<>` and nothing else when the node has no origin
(`line = -1`), whatever its kind and type; for a defined node it writes the
file and the line as `<file line>`, preceded for a FUNCTION by `(), ` or, with
a type, by the type and `(), `, and for a VARIABLE by nothing or, with a type,
by the type and `, `: no `()` is written for a VARIABLE. -/
theorem print_node_detail (node : g_node_t) (pad maxlen count : Nat) :
    (node.line = -1 →
      print_node node pad maxlen count
        = fmt_d pad count ++ " " ++ fmt_s maxlen node.name ++ ": " ++ "<>\n")
    ∧ (node.line ≠ -1 → node.ntype = NodeType.FUNCTION → node.type = none →
      print_node node pad maxlen count
        = fmt_d pad count ++ " " ++ fmt_s maxlen node.name ++ ": "
          ++ ("(), <" ++ file_text node ++ " " ++ toString node.line ++ ">\n"))
    ∧ (∀ type, node.line ≠ -1 → node.ntype = NodeType.FUNCTION → node.type = some type →
      print_node node pad maxlen count
        = fmt_d pad count ++ " " ++ fmt_s maxlen node.name ++ ": "
          ++ (type ++ "(), <" ++ file_text node ++ " " ++ toString node.line ++ ">\n"))
    ∧ (node.line ≠ -1 → node.ntype = NodeType.VARIABLE → node.type = none →
      print_node node pad maxlen count
        = fmt_d pad count ++ " " ++ fmt_s maxlen node.name ++ ": "
          ++ ("<" ++ file_text node ++ " " ++ toString node.line ++ ">\n"))
    ∧ (∀ type, node.line ≠ -1 → node.ntype = NodeType.VARIABLE → node.type = some type →
      print_node node pad maxlen count
        = fmt_d pad count ++ " " ++ fmt_s maxlen node.name ++ ": "
          ++ (type ++ ", <" ++ file_text node ++ " " ++ toString node.line ++ ">\n")) := by
  refine ⟨?_, ?_, ?_, ?_, ?_⟩
  · intro hl
    rw [print_node_layout, if_pos hl]
    rfl
  · intro hl hn ht
    rw [print_node_layout, if_neg hl, hn, ht]
    simp only [String.append_assoc]
    rfl
  · intro type hl hn ht
    rw [print_node_layout, if_neg hl, hn, ht]
    simp only [String.append_assoc]
    rfl
  · intro hl hn ht
    rw [print_node_layout, if_neg hl, hn, ht]
    simp only [String.append_assoc]
    rfl
  · intro type hl hn ht
    rw [print_node_layout, if_neg hl, hn, ht]
    simp only [String.append_assoc]
    rfl


theorem add_excludes_eq (excludes keywords : List String) :
    add_excludes excludes keywords = excludes ++ keywords := by
  unfold add_excludes
  induction keywords generalizing excludes with
  | nil => simp
  | cons k rest ih => simp [List.foldl_cons, add_node, ih]

/-- Claim C17: the exclusion set builder.  For every selection bitmask and
every input list (allocation failure aside), a name is in the list
`create_excludes` returns iff it was in the input list or is in the keyword
table of a selected flag (ANSI, POSIX, C99, GCC), a flag being selected when
`(excludes & FLAG) == FLAG`; when no flag is selected the input list is
returned unchanged, and so the empty list for the empty input. -/
theorem create_excludes_members (env : kwd_env) (list : List String) (excludes : Nat) :
    (∀ name, name ∈ create_excludes env list excludes
        ↔ name ∈ list
          ∨ (selected excludes env.NO_ANSI_KWDS = true ∧ name ∈ ansi_keywords)
          ∨ (selected excludes env.NO_POSIX_KWDS = true ∧ name ∈ env.posix_keywords)
          ∨ (selected excludes env.NO_C99_KWDS = true ∧ name ∈ env.c99_keywords)
          ∨ (selected excludes env.NO_GCC_KWDS = true ∧ name ∈ env.gcc_keywords))
    ∧ (selected excludes env.NO_ANSI_KWDS = false →
        selected excludes env.NO_POSIX_KWDS = false →
        selected excludes env.NO_C99_KWDS = false →
        selected excludes env.NO_GCC_KWDS = false →
        create_excludes env list excludes = list
          ∧ create_excludes env [] excludes = []) := by
  constructor
  · intro name
    unfold create_excludes
    simp only [add_excludes_eq]
    cases selected excludes env.NO_ANSI_KWDS <;> cases selected excludes env.NO_POSIX_KWDS <;>
      cases selected excludes env.NO_C99_KWDS <;> cases selected excludes env.NO_GCC_KWDS <;>
      simp [or_assoc]
  · intro h1 h2 h3 h4
    simp [create_excludes, h1, h2, h3, h4]

set_option maxRecDepth 8000 in
/-- Witness for `create_excludes_members`: with the example flags, the mask 5
selects the ANSI and the C99 table; the mask 0 selects nothing. -/
theorem create_excludes_members_witness :
    create_excludes example_env ["mine"] 5 = ["mine"] ++ ansi_keywords ++ ["snprintf"]
    ∧ selected 0 example_env.NO_ANSI_KWDS = false
    ∧ selected 0 example_env.NO_POSIX_KWDS = false
    ∧ selected 0 example_env.NO_C99_KWDS = false
    ∧ selected 0 example_env.NO_GCC_KWDS = false
    ∧ create_excludes example_env ["mine"] 0 = ["mine"]
    ∧ create_excludes example_env [] 0 = [] :=
  ⟨by decide, by decide, by decide, by decide, by decide,
   (create_excludes_members example_env ["mine"] 0).2 (by decide) (by decide) (by decide)
     (by decide)⟩


/-- Claim C18, evaluated on the code: in non-complete mode, from the graph
with the nodes `main` and `a`, unique names and no edges, attaching the batch
`a, a, a` to `main` leaves `main` twice in the caller list of `a`.  Two cells
for `a` survive the first pass, and for the second one the scan of the caller
list `[main]` compares no cell: it stops at the last cell without looking at
it.  The same is seen on one iteration of the back-link loop: with `main` the
only entry of the caller list of `a`, `add_caller` appends `main` again. -/
theorem triple_repeat_doubles_back_link :
    graph_main_a.complete = false
    ∧ (graph_main_a.defines.map (fun n => n.name)).Nodup
    ∧ (∀ n ∈ graph_main_a.defines, n.list = [] ∧ n.callers = [])
    ∧ (add_to_call_stack graph_main_a "main" [1, 1, 1]).map
        (fun g => (deref g.defines 1).callers) = some [0, 0]
    ∧ (add_to_call_stack graph_main_a "main" [1]).map
        (fun g => ((deref g.defines 1).callers,
          (deref (add_caller g.defines 0 1) 1).callers)) = some ([0], [0, 0]) := by
  decide

theorem attach_one_callers (graph : graph_t) (p c : Nat) :
    (deref (store (link_callers graph.defines p [c]) p
      (fun n => { n with list := n.list ++ [c] })) c).callers
      = (deref (add_caller graph.defines p c) c).callers := by
  rw [deref_store]
  split
  · next h => rw [← h.1]; rfl
  · rfl

theorem add_caller_callers (defs : List g_node_t) (p c : Nat) (hc : c < defs.length) :
    (deref (add_caller defs p c) c).callers
      = if (deref defs c).callers = [] then [p]
        else if (deref defs c).callers.dropLast.contains p then (deref defs c).callers
        else (deref defs c).callers ++ [p] := by
  unfold add_caller
  split
  · rw [deref_store]; simp [hc]
  · split
    · rfl
    · rw [deref_store]; simp [hc]

/-- One more attachment of `[c]` in complete mode, when the caller list of `c`
is `old` followed by `k <= 2` entries for the parent. -/
theorem add_caller_step (defs : List g_node_t) (p c k : Nat) (old : List Nat)
    (hc : c < defs.length) (hold : p ∉ old) (hk : k ≤ 2)
    (hcallers : (deref defs c).callers = old ++ List.replicate k p) :
    (deref (add_caller defs p c) c).callers = old ++ List.replicate (min (k + 1) 2) p := by
  rw [add_caller_callers defs p c hc, hcallers]
  have hk3 : k = 0 ∨ k = 1 ∨ k = 2 := by omega
  rcases hk3 with rfl | rfl | rfl
  · simp only [List.replicate_zero, List.append_nil]
    by_cases hnil : old = []
    · simp [hnil]
    · have hnot : p ∉ old.dropLast := fun hm => hold (List.dropLast_subset _ hm)
      simp [hnil, hnot]
  · have hne : old ++ List.replicate 1 p ≠ [] := by simp
    have hdl : (old ++ List.replicate 1 p).dropLast = old := by
      simp [List.replicate]
    rw [if_neg hne, hdl]
    have hnot : ¬ (old.contains p = true) := by simpa using hold
    rw [if_neg hnot]
    simp [List.replicate]
  · have hne : old ++ List.replicate 2 p ≠ [] := by simp
    have hdl : (old ++ List.replicate 2 p).dropLast = old ++ [p] := by
      have : old ++ List.replicate 2 p = (old ++ [p]) ++ [p] := by simp [List.replicate]
      rw [this, List.dropLast_concat]
    rw [if_neg hne, hdl]
    have hin : (old ++ [p]).contains p = true := by simp
    rw [if_pos hin]
    simp

theorem repeat_call_one_complete (N : Nat) (graph : graph_t) (function : String)
    (p c k : Nat) (old : List Nat) (hmode : graph.complete = true)
    (hp : get_definition_node graph.defines function = some p)
    (hc : c < graph.defines.length) (hold : p ∉ old) (hk : k ≤ 2)
    (hcallers : (deref graph.defines c).callers = old ++ List.replicate k p) :
    ∃ g1, repeat_call graph function [c] N = some g1
      ∧ (deref g1.defines p).list = (deref graph.defines p).list ++ List.replicate N c
      ∧ (deref g1.defines c).callers = old ++ List.replicate (min (k + N) 2) p := by
  induction N generalizing graph k with
  | zero =>
    refine ⟨graph, rfl, by simp, ?_⟩
    rw [hcallers, Nat.add_zero, Nat.min_eq_left hk]
  | succ N ih =>
    have hplt := get_definition_node_lt _ _ _ hp
    have hkept : kept_calls graph p [c] = [c] := by simp [kept_calls, hmode]
    unfold repeat_call
    rw [add_to_call_stack_eq graph function [c] p hp, hkept]
    simp only
    obtain ⟨g1, hg1, hl, hcl⟩ := ih
      { graph with
        defines := store (link_callers graph.defines p [c]) p
          (fun n => { n with list := n.list ++ [c] }) }
      (min (k + 1) 2)
      hmode
      (by
        rw [← hp]
        exact get_definition_node_names _ _ _ (attach_names graph p [c]))
      (by rw [attach_length]; exact hc)
      (by omega)
      (by
        show (deref (store (link_callers graph.defines p [c]) p
          (fun n => { n with list := n.list ++ [c] })) c).callers = _
        rw [attach_one_callers]
        exact add_caller_step graph.defines p c k old hc hold hk hcallers)
    refine ⟨g1, hg1, ?_, ?_⟩
    · rw [hl]
      simp only [attach_list graph p [c] hplt, if_true, List.append_assoc, List.replicate_succ,
        List.singleton_append]
    · rw [hcl]
      congr 2
      omega

/-- Claim C19 as stated fails: in complete mode, attaching the batch `[a]` to
`main` three times leaves three entries for `a` in the callee list of `main`
and two entries for `main`, not three, in the caller list of `a`. -/
theorem complete_mode_suppresses_back_link :
    graph_main_a_complete.complete = true
    ∧ (repeat_call graph_main_a_complete "main" [1] 3).map
        (fun g => ((deref g.defines 0).list, (deref g.defines 1).callers))
        = some ([1, 1, 1], [0, 0]) := by
  decide

/-- Claim C19, amended: in complete mode every reference is appended to the
callee list, but the back-link loop is the one of non-complete mode and
appends the parent only when its scan of the caller list does not find it.
For every N >= 1, attaching the batch `[c]` N times to a parent that is not
yet a caller of `c` leaves N more entries for `c` in the parent's callee list,
and leaves the parent in the caller list of `c`, with fewer than N entries
there once N >= 3. -/
theorem complete_mode_back_links (graph : graph_t) (function : String) (p c N : Nat)
    (hmode : graph.complete = true)
    (hp : get_definition_node graph.defines function = some p)
    (hc : c < graph.defines.length) (hnew : p ∉ (deref graph.defines c).callers)
    (hN : 1 ≤ N) :
    ∃ g1, repeat_call graph function [c] N = some g1
      ∧ (deref g1.defines p).list = (deref graph.defines p).list ++ List.replicate N c
      ∧ p ∈ (deref g1.defines c).callers
      ∧ (3 ≤ N → (deref g1.defines c).callers.count p < N) := by
  obtain ⟨g1, hg1, hl, hcl⟩ := repeat_call_one_complete N graph function p c 0
    (deref graph.defines c).callers hmode hp hc hnew (by omega) (by simp)
  refine ⟨g1, hg1, hl, ?_, ?_⟩
  · rw [hcl]
    have : min (0 + N) 2 = (min (0 + N) 2 - 1) + 1 := by omega
    rw [this, List.replicate_succ]
    simp
  · intro h3
    rw [hcl, List.count_append, List.count_replicate_self,
      List.count_eq_zero_of_not_mem hnew]
    omega

/-- Witness for `complete_mode_back_links`: `[a]` attached to `main` four
times in complete mode. -/
theorem complete_mode_back_links_witness :
    graph_main_a_complete.complete = true
    ∧ get_definition_node graph_main_a_complete.defines "main" = some 0
    ∧ 1 < graph_main_a_complete.defines.length
    ∧ 0 ∉ (deref graph_main_a_complete.defines 1).callers
    ∧ 1 ≤ 4
    ∧ ∃ g1, repeat_call graph_main_a_complete "main" [1] 4 = some g1
      ∧ (deref g1.defines 0).list
          = (deref graph_main_a_complete.defines 0).list ++ List.replicate 4 1
      ∧ 0 ∈ (deref g1.defines 1).callers
      ∧ (3 ≤ 4 → (deref g1.defines 1).callers.count 0 < 4) :=
  ⟨by decide, by decide, by decide, by decide, by decide,
   complete_mode_back_links graph_main_a_complete "main" 0 1 4 (by decide) (by decide)
     (by decide) (by decide) (by decide)⟩


/-- Claim C20 as stated fails: `foo` was created by a reference with the file
`hdr.h` and the type `int`; after it is defined as a FUNCTION of type `void`
at `t.c` 7 the node is returned with line 7 and kind FUNCTION, but its file is
still `hdr.h` and its type still `int`. -/
theorem upgrade_keeps_file_and_type :
    get_definition_node graph_typed_reference.defines "foo" = some 1
    ∧ (deref graph_typed_reference.defines 1).line = -1
    ∧ (add_g_node graph_typed_reference NodeType.FUNCTION "foo" (some "void")
        (some "t.c") 7).2 = 1
    ∧ (fun n : g_node_t => (n.line, n.ntype, n.file, n.type))
        (deref (add_g_node graph_typed_reference NodeType.FUNCTION "foo" (some "void")
          (some "t.c") 7).1.defines 1)
        = (7, NodeType.FUNCTION, some "hdr.h", some "int") := by
  decide

/-- Claim C20, amended: when the node a name resolves to is reference-only
(`line = -1`) and the name is defined through `add_g_node` with `line != -1`,
afterwards the node's line is the definition's line and its kind the
definition's kind; its type is the definition's type when the node had no
type before, and the type it had otherwise; its file is the file it was
created with. -/
theorem upgrade_fields (graph : graph_t) (ntype : NodeType) (name : String)
    (type file : Option String) (line : Int) (i : Nat) (hline : line ≠ -1)
    (hfind : get_definition_node graph.defines name = some i)
    (href : (deref graph.defines i).line = -1) :
    (add_g_node graph ntype name type file line).2 = i
    ∧ (deref (add_g_node graph ntype name type file line).1.defines i).line = line
    ∧ (deref (add_g_node graph ntype name type file line).1.defines i).ntype = ntype
    ∧ ((deref graph.defines i).type = none →
        (deref (add_g_node graph ntype name type file line).1.defines i).type = type)
    ∧ ((deref graph.defines i).type ≠ none →
        (deref (add_g_node graph ntype name type file line).1.defines i).type
          = (deref graph.defines i).type)
    ∧ (deref (add_g_node graph ntype name type file line).1.defines i).file
        = (deref graph.defines i).file := by
  have hi := get_definition_node_lt _ _ _ hfind
  rw [add_g_node_upgrade graph ntype name type file line i hline hfind href]
  dsimp only
  rw [deref_store]
  simp only [hi, and_self, if_true]
  refine ⟨trivial, trivial, trivial, ?_, ?_, trivial⟩
  · intro hnone
    rw [hnone]
    cases type <;> simp
  · intro hsome
    cases hold : (deref graph.defines i).type with
    | none => exact absurd hold hsome
    | some t => cases type <;> simp

/-- Witness for `upgrade_fields`: in the three-node example `foo` is
reference-only and without a type; it is defined as `void` at `t.c` 7. -/
theorem upgrade_fields_witness :
    (7 : Int) ≠ -1
    ∧ get_definition_node graph_main_calls_foo_bar.defines "foo" = some 1
    ∧ (deref graph_main_calls_foo_bar.defines 1).line = -1
    ∧ (deref graph_main_calls_foo_bar.defines 1).type = none
    ∧ (add_g_node graph_main_calls_foo_bar NodeType.FUNCTION "foo" (some "void")
        (some "t.c") 7).2 = 1
    ∧ (deref (add_g_node graph_main_calls_foo_bar NodeType.FUNCTION "foo" (some "void")
        (some "t.c") 7).1.defines 1).line = 7
    ∧ (deref (add_g_node graph_main_calls_foo_bar NodeType.FUNCTION "foo" (some "void")
        (some "t.c") 7).1.defines 1).type = some "void" :=
  ⟨by decide, by decide, by decide, by decide,
   (upgrade_fields graph_main_calls_foo_bar NodeType.FUNCTION "foo" (some "void")
      (some "t.c") 7 1 (by decide) (by decide) (by decide)).1,
   (upgrade_fields graph_main_calls_foo_bar NodeType.FUNCTION "foo" (some "void")
      (some "t.c") 7 1 (by decide) (by decide) (by decide)).2.1,
   (upgrade_fields graph_main_calls_foo_bar NodeType.FUNCTION "foo" (some "void")
      (some "t.c") 7 1 (by decide) (by decide) (by decide)).2.2.2.1 (by decide)⟩


theorem add_g_node_config (graph : graph_t) (ntype : NodeType) (name : String)
    (type file : Option String) (line : Int) :
    (add_g_node graph ntype name type file line).1.root = graph.root
    ∧ (add_g_node graph ntype name type file line).1.reversed = graph.reversed
    ∧ (name ≠ graph.root →
        (add_g_node graph ntype name type file line).1.rootnode = graph.rootnode) := by
  unfold add_g_node
  dsimp only
  split
  · exact ⟨rfl, rfl, fun _ => rfl⟩
  · refine ⟨rfl, rfl, ?_⟩
    intro h
    simp [h]

theorem add_to_call_stack_config (graph : graph_t) (function : String) (calls : List Nat)
    (g1 : graph_t) (h : add_to_call_stack graph function calls = some g1) :
    g1.root = graph.root ∧ g1.reversed = graph.reversed ∧ g1.rootnode = graph.rootnode := by
  obtain ⟨p, hp⟩ := add_to_call_stack_some graph function calls g1 h
  rw [add_to_call_stack_eq graph function calls p hp] at h
  simp only [Option.some.injEq] at h
  subst h
  exact ⟨rfl, rfl, rfl⟩

theorem run_build_root_unbound (ops : List build_op) (graph g1 : graph_t)
    (hstart : graph.rootnode = none)
    (hnone : ∀ op ∈ ops, creates_name graph.root op = false)
    (hrun : run_build graph ops = some g1) :
    g1.rootnode = none ∧ g1.reversed = graph.reversed := by
  induction ops generalizing graph with
  | nil =>
    simp only [run_build, Option.some.injEq] at hrun
    subst hrun
    exact ⟨hstart, rfl⟩
  | cons op rest ih =>
    cases op with
    | node c =>
      simp only [run_build] at hrun
      have hcfg := add_g_node_config graph c.ntype c.name c.type c.file c.line
      have hne : c.name ≠ graph.root := by
        have := hnone (build_op.node c) (List.mem_cons_self _ _)
        simpa [creates_name] using this
      have := ih (add_g_node graph c.ntype c.name c.type c.file c.line).1
        (by rw [hcfg.2.2 hne]; exact hstart)
        (fun c2 hc2 => by rw [hcfg.1]; exact hnone c2 (List.mem_cons_of_mem _ hc2))
        hrun
      exact ⟨this.1, this.2.trans hcfg.2.1⟩
    | calls function refs =>
      simp only [run_build] at hrun
      split at hrun
      · exact Option.noConfusion hrun
      · next g2 hg2 =>
        have hcfg := add_to_call_stack_config graph function refs g2 hg2
        have := ih g2 (by rw [hcfg.2.2]; exact hstart)
          (fun c2 hc2 => by rw [hcfg.1]; exact hnone c2 (List.mem_cons_of_mem _ hc2))
          hrun
        exact ⟨this.1, this.2.trans hcfg.2.1⟩

/-- Claim C13 as stated fails: with the root name `main`, `f` is defined and
calls `main`, which is created by that reference (`line = -1`) and never
defined.  The root is bound to the reference-only node all the same, and
forward rendering prints that node alone; `f` is not printed, so there is no
fallback to the list of all nodes. -/
theorem reference_binds_root :
    graph_root_referenced.defines.map (fun n => (n.name, n.line, n.list))
        = [("f", 1, [1]), ("main", -1, [])]
    ∧ graph_root_referenced.rootnode = some 1
    ∧ (print_graph graph_root_referenced).map
        (fun r => r.2.map (fun ln => (deref graph_root_referenced.defines ln.node).name))
        = some ["main"] := by
  decide

/-- Claim C13, amended: if no `add_g_node` call of the build names the
configured root name, neither as a definition nor as a reference, the root
stays unbound, and forward rendering falls back to the nodes of the graph in
insertion order: for each in turn, a traversal is started at it with depth 0
and the top-level column width unless its `printed` flag is already set. -/
theorem root_unbound_fallback (graph : graph_t) (ops : List build_op) (g1 : graph_t)
    (hstart : graph.rootnode = none) (hfwd : graph.reversed = false)
    (hnone : ∀ op ∈ ops, creates_name graph.root op = false)
    (hrun : run_build graph ops = some g1) :
    g1.rootnode = none
    ∧ print_graph g1
        = (walk
            (print_if_unprinted (g1.defines.length + 1) (print_graph_measure g1.defines).1
              (print_graph_pad (print_graph_measure g1.defines).2.1
                (print_graph_measure g1.defines).2.1 0))
            (List.range g1.defines.length) (g1, 1)).map (fun r => (r.1.1, r.2)) := by
  obtain ⟨h1, h2⟩ := run_build_root_unbound ops graph g1 hstart hnone hrun
  refine ⟨h1, ?_⟩
  unfold print_graph print_graph_fuel
  simp only [h2, hfwd, h1, Bool.not_false, if_true]

/-- Witness for `root_unbound_fallback`: a file without `main`; `f` calls `g`.
The render starts at `f`, prints `g` beneath it, and starts no traversal at
`g`, which is printed by then. -/
theorem root_unbound_fallback_witness :
    (new_graph "main" [] true true INT_MAX false false).rootnode = none
    ∧ (new_graph "main" [] true true INT_MAX false false).reversed = false
    ∧ (∀ op ∈ no_root_scan,
        creates_name (new_graph "main" [] true true INT_MAX false false).root op = false)
    ∧ ∃ g1, run_build (new_graph "main" [] true true INT_MAX false false) no_root_scan
          = some g1
      ∧ g1.rootnode = none
      ∧ print_graph g1
          = (walk
              (print_if_unprinted (g1.defines.length + 1) (print_graph_measure g1.defines).1
                (print_graph_pad (print_graph_measure g1.defines).2.1
                  (print_graph_measure g1.defines).2.1 0))
              (List.range g1.defines.length) (g1, 1)).map (fun r => (r.1.1, r.2))
      ∧ (print_graph g1).map (fun r => r.2.map (fun ln => (ln.node, ln.count, ln.depth)))
          = some [(0, 1, 0), (1, 2, 1)] :=
  ⟨by decide, by decide, by decide,
   (run_build (new_graph "main" [] true true INT_MAX false false) no_root_scan).getD
     (new_graph "main" [] true true INT_MAX false false),
   by decide,
   (root_unbound_fallback (new_graph "main" [] true true INT_MAX false false) no_root_scan _
      (by decide) (by decide) (by decide) (by decide)).1,
   (root_unbound_fallback (new_graph "main" [] true true INT_MAX false false) no_root_scan _
      (by decide) (by decide) (by decide) (by decide)).2,
   by decide⟩


/-! ## Rendering: reversed mode -/

theorem print_graph_measure_defcount (defs : List g_node_t) :
    (print_graph_measure defs).2.2 = defs.length := by
  unfold print_graph_measure
  have h : ∀ (l : List g_node_t) (acc : Nat × Nat × Nat),
      (l.foldl (fun (acc : Nat × Nat × Nat) cur =>
        ((if cur.callers = [] ∧ cur.namelen > acc.1 then cur.namelen else acc.1),
         acc.2.1 + cur.list.length + 1,
         acc.2.2 + 1)) acc).2.2 = acc.2.2 + l.length := by
    intro l
    induction l with
    | nil => intro acc; simp
    | cons a l ih =>
      intro acc
      rw [List.foldl_cons, ih]
      simp only [List.length_cons]
      omega
  rw [h]
  simp

theorem print_callers_loop_width (graph : graph_t) (node depth width pad : Nat)
    (sub : List Nat) (count : Nat) :
    ∀ ln ∈ (print_callers_loop graph node depth width pad sub count).2, ln.maxlen = width := by
  induction sub generalizing count with
  | nil => intro ln h; simp [print_callers_loop] at h
  | cons c sub ih =>
    intro ln h
    unfold print_callers_loop at h
    split at h
    · simp at h
    · split at h
      · simp at h
      · rcases List.mem_cons.mp h with h1 | h1
        · rw [h1]
        · exact ih (count + 1) ln h1

theorem print_callers_tops (graph : graph_t) (count node depth maxlen pad : Nat) :
    ((print_callers graph count node depth maxlen pad).2.filter
        (fun ln => ln.maxlen == maxlen)).map (fun ln => ln.node)
      = if suppressed graph (deref graph.defines node) then [] else [node] := by
  unfold print_callers
  split
  · rfl
  · split
    · simp
    · have hw := print_callers_loop_width graph node depth
        (maxlen + max_namelen graph.defines (deref graph.defines node).callers + 1) pad
        (deref graph.defines node).callers (count + 1)
      have hnil : (print_callers_loop graph node depth
          (maxlen + max_namelen graph.defines (deref graph.defines node).callers + 1) pad
          (deref graph.defines node).callers (count + 1)).2.filter
            (fun ln => ln.maxlen == maxlen) = [] := by
        rw [List.filter_eq_nil_iff]
        intro ln hln
        have := hw ln hln
        simp only [beq_iff_eq]
        omega
      simp only [List.filter_cons, beq_self_eq_true, if_true, hnil, List.map_cons, List.map_nil]

theorem print_callers_each_tops (graph : graph_t) (maxlen pad : Nat) (rev : List Nat)
    (count : Nat) :
    ((print_callers_each graph maxlen pad rev count).2.filter
        (fun ln => ln.maxlen == maxlen)).map (fun ln => ln.node)
      = rev.filter (fun p => !suppressed graph (deref graph.defines p)) := by
  induction rev generalizing count with
  | nil => rfl
  | cons cur rev ih =>
    unfold print_callers_each
    simp only [List.filter_append, List.map_append, print_callers_tops, ih, List.filter_cons]
    by_cases hs : suppressed graph (deref graph.defines cur) = true
    · simp [hs]
    · simp [hs]


theorem qsort_insert_perm (cmp : Nat → Nat → Ordering) (a : Nat) (l : List Nat) :
    (qsort_insert cmp a l).Perm (a :: l) := by
  induction l with
  | nil => exact List.Perm.refl _
  | cons b rest ih =>
    unfold qsort_insert
    split
    · exact (List.Perm.cons b ih).trans (List.Perm.swap a b rest)
    · exact List.Perm.refl _

theorem qsort_perm (cmp : Nat → Nat → Ordering) (l : List Nat) : (qsort cmp l).Perm l := by
  induction l with
  | nil => exact List.Perm.refl _
  | cons a rest ih =>
    unfold qsort
    exact (qsort_insert_perm cmp a _).trans (List.Perm.cons a ih)

theorem compare_gnodes_gt (defs : List g_node_t) (a b : Nat) :
    compare_gnodes defs a b = Ordering.gt ↔ (deref defs b).name < (deref defs a).name := by
  unfold compare_gnodes
  exact compare_gt_iff_gt

theorem qsort_insert_sorted (defs : List g_node_t) (a : Nat) (l : List Nat)
    (h : l.Pairwise (fun x y => (deref defs x).name ≤ (deref defs y).name)) :
    (qsort_insert (compare_gnodes defs) a l).Pairwise
      (fun x y => (deref defs x).name ≤ (deref defs y).name) := by
  induction l with
  | nil => simp [qsort_insert]
  | cons b rest ih =>
    rw [List.pairwise_cons] at h
    unfold qsort_insert
    split
    · next hgt =>
      rw [compare_gnodes_gt] at hgt
      rw [List.pairwise_cons]
      refine ⟨?_, ih h.2⟩
      intro x hx
      rcases List.mem_cons.mp ((qsort_insert_perm _ a rest).mem_iff.mp hx) with hx1 | hx1
      · rw [hx1]; exact le_of_lt hgt
      · exact h.1 x hx1
    · next hgt =>
      rw [compare_gnodes_gt, not_lt] at hgt
      rw [List.pairwise_cons]
      refine ⟨?_, List.pairwise_cons.mpr h⟩
      intro x hx
      rcases List.mem_cons.mp hx with hx1 | hx1
      · rw [hx1]; exact hgt
      · exact le_trans hgt (h.1 x hx1)

theorem qsort_sorted (defs : List g_node_t) (l : List Nat) :
    (qsort (compare_gnodes defs) l).Pairwise
      (fun x y => (deref defs x).name ≤ (deref defs y).name) := by
  induction l with
  | nil => simp [qsort]
  | cons a rest ih =>
    unfold qsort
    exact qsort_insert_sorted defs a _ ih

theorem name_injective (defs : List g_node_t)
    (hnames : (defs.map (fun n => n.name)).Nodup) (a b : Nat)
    (ha : a < defs.length) (hb : b < defs.length)
    (h : (deref defs a).name = (deref defs b).name) : a = b := by
  have ha2 : a < (defs.map (fun n => n.name)).length := by simpa using ha
  have hb2 : b < (defs.map (fun n => n.name)).length := by simpa using hb
  have := (@List.Nodup.getElem_inj_iff _ _ hnames a ha2 b hb2).mp
    (by simpa [deref, List.getElem?_eq_getElem ha, List.getElem?_eq_getElem hb] using h)
  exact this

/-- With unique names, a list of the nodes that is sorted by name is strictly
sorted. -/
theorem sorted_strict (defs : List g_node_t)
    (hnames : (defs.map (fun n => n.name)).Nodup) (l : List Nat)
    (hperm : l.Perm (List.range defs.length))
    (hsorted : l.Pairwise (fun x y => (deref defs x).name ≤ (deref defs y).name)) :
    l.Pairwise (fun x y => (deref defs x).name < (deref defs y).name) := by
  have hnodup : l.Nodup := hperm.nodup_iff.mpr (List.nodup_range _)
  refine List.Pairwise.imp_of_mem ?_ (hsorted.and hnodup)
  intro x y hx hy hxy
  have hx2 : x < defs.length := List.mem_range.mp (hperm.mem_iff.mp hx)
  have hy2 : y < defs.length := List.mem_range.mp (hperm.mem_iff.mp hy)
  exact lt_of_le_of_ne hxy.1 (fun he => hxy.2 (name_injective defs hnames x y hx2 hy2 he))

/-- With unique names the order `qsort` leaves in the array does not depend on
the sorting algorithm: every arrangement of the nodes that is sorted by
`compare_gnodes` is the one the model computes. -/
theorem qsort_unique (defs : List g_node_t)
    (hnames : (defs.map (fun n => n.name)).Nodup) (l : List Nat)
    (hperm : l.Perm (List.range defs.length))
    (hsorted : l.Pairwise (fun x y => compare_gnodes defs x y ≠ Ordering.gt)) :
    l = qsort (compare_gnodes defs) (List.range defs.length) := by
  have hle : l.Pairwise (fun x y => (deref defs x).name ≤ (deref defs y).name) := by
    refine hsorted.imp ?_
    intro x y h
    rw [Ne, compare_gnodes_gt, not_lt] at h
    exact h
  have h1 := sorted_strict defs hnames l hperm hle
  have h2 := sorted_strict defs hnames _ (qsort_perm (compare_gnodes defs) _)
    (qsort_sorted defs (List.range defs.length))
  exact @List.eq_of_perm_of_sorted _
    (fun x y => (deref defs x).name < (deref defs y).name)
    ⟨fun a b hab hba => absurd hab (lt_asymm hba)⟩ _ _
    (hperm.trans (qsort_perm (compare_gnodes defs) _).symm) h1 h2

/-- The nodes with a top-level line in a reversed render, in print order: the
nodes that pass the filter, sorted by name.  With unique names the order is
strict. -/
theorem reversed_tops (graph : graph_t) (hrev : graph.reversed = true) :
    ∃ r, print_graph graph = some r ∧ r.1 = graph
      ∧ (top_level_lines graph r.2).map (fun ln => ln.node)
          = (qsort (compare_gnodes graph.defines) (List.range graph.defines.length)).filter
              (fun p => !suppressed graph (deref graph.defines p)) := by
  refine ⟨(graph, (print_callers_each graph (print_graph_measure graph.defines).1
    (print_graph_pad (print_graph_measure graph.defines).2.1
      (print_graph_measure graph.defines).2.1 0)
    (qsort (compare_gnodes graph.defines) (List.range graph.defines.length)) 1).2), ?_, rfl, ?_⟩
  · unfold print_graph print_graph_fuel
    simp only [hrev, Bool.not_true, Bool.false_eq_true, if_false, print_graph_measure_defcount]
  · unfold top_level_lines
    exact print_callers_each_tops graph _ _ _ 1

theorem reversed_tops_strict (graph : graph_t)
    (hnames : (graph.defines.map (fun n => n.name)).Nodup) :
    ((qsort (compare_gnodes graph.defines) (List.range graph.defines.length)).filter
        (fun p => !suppressed graph (deref graph.defines p))).Pairwise
      (fun x y => (deref graph.defines x).name < (deref graph.defines y).name) := by
  have hperm := qsort_perm (compare_gnodes graph.defines) (List.range graph.defines.length)
  have hsorted := qsort_sorted graph.defines (List.range graph.defines.length)
  have hnodup : (qsort (compare_gnodes graph.defines)
      (List.range graph.defines.length)).Nodup :=
    hperm.nodup_iff.mpr (List.nodup_range _)
  have hboth := hsorted.and hnodup
  have hstrict : (qsort (compare_gnodes graph.defines)
      (List.range graph.defines.length)).Pairwise
      (fun x y => (deref graph.defines x).name < (deref graph.defines y).name) := by
    refine List.Pairwise.imp_of_mem ?_ hboth
    intro x y hx hy hxy
    have hx2 : x < graph.defines.length := List.mem_range.mp (hperm.mem_iff.mp hx)
    have hy2 : y < graph.defines.length := List.mem_range.mp (hperm.mem_iff.mp hy)
    exact lt_of_le_of_ne hxy.1
      (fun he => hxy.2 (name_injective graph.defines hnames x y hx2 hy2 he))
  exact hstrict.sublist (List.filter_sublist _)


theorem range_map_deref (defs : List g_node_t) :
    (List.range defs.length).map (deref defs) = defs := by
  apply List.ext_getElem?
  intro n
  rw [List.getElem?_map]
  by_cases hn : n < defs.length
  · rw [List.getElem?_eq_getElem (by simpa using hn), List.getElem?_eq_getElem hn]
    simp [deref, List.getElem?_eq_getElem hn]
  · rw [List.getElem?_eq_none (by simpa using hn), List.getElem?_eq_none (by simpa using hn)]
    rfl

theorem suppressed_key (g1 g2 : graph_t) (n1 n2 : g_node_t)
    (he : g1.excludes = g2.excludes) (hs : g1.statics = g2.statics)
    (hp : g1.privates = g2.privates) (hk : node_key n1 = node_key n2) :
    suppressed g1 n1 = suppressed g2 n2 := by
  have h1 : n1.name = n2.name := congrArg Prod.fst hk
  have h2 : n1.ntype = n2.ntype := congrArg Prod.snd hk
  unfold suppressed
  rw [he, hs, hp, h1, h2]

/-- The names on the top-level lines of a reversed render are, up to order,
the names of the nodes that pass the filter; the list is determined by the
names and kinds of the nodes. -/
theorem top_names_perm (graph : graph_t) :
    (((qsort (compare_gnodes graph.defines) (List.range graph.defines.length)).filter
        (fun p => !suppressed graph (deref graph.defines p))).map
        (fun p => (deref graph.defines p).name)).Perm
      (((graph.defines.map node_key).filter
        (fun k => !suppressed graph { blank_node with name := k.1, ntype := k.2 })).map
        Prod.fst) := by
  have hperm := qsort_perm (compare_gnodes graph.defines) (List.range graph.defines.length)
  have h1 := (hperm.filter (fun p => !suppressed graph (deref graph.defines p))).map
    (fun p => (deref graph.defines p).name)
  refine h1.trans ?_
  have heq : ((List.range graph.defines.length).filter
        (fun p => !suppressed graph (deref graph.defines p))).map
        (fun p => (deref graph.defines p).name)
      = ((graph.defines.map node_key).filter
        (fun k => !suppressed graph { blank_node with name := k.1, ntype := k.2 })).map
        Prod.fst := by
    conv => rhs; rw [← range_map_deref graph.defines]
    rw [List.map_map, List.filter_map, List.map_map]
    congr 1
  rw [heq]

theorem pairwise_lt_map_name (defs : List g_node_t) (l : List Nat)
    (h : l.Pairwise (fun x y => (deref defs x).name < (deref defs y).name)) :
    (l.map (fun p => (deref defs p).name)).Pairwise (fun a b => a < b) := by
  rw [List.pairwise_map]
  exact h

/-- Claim C11: reversed ordering.  For every graph with unique node names,
reversed rendering returns the graph as it was, and its top-level lines (the
lines printed with the top-level column width) list the nodes that pass the
filter, each exactly once, in strictly ascending `strcmp` order of name.  A
graph with the same filter settings whose nodes have the same names and kinds
in another insertion order gives the same sequence of top-level names. -/
theorem reversed_ordering (graph : graph_t) (hrev : graph.reversed = true)
    (hnames : (graph.defines.map (fun n => n.name)).Nodup) :
    ∃ r, print_graph graph = some r
      ∧ r.1 = graph
      ∧ ((top_level_lines graph r.2).map
          (fun ln => (deref graph.defines ln.node).name)).Pairwise (fun a b => a < b)
      ∧ ((top_level_lines graph r.2).map (fun ln => ln.node)).Perm
          ((List.range graph.defines.length).filter
            (fun p => !suppressed graph (deref graph.defines p)))
      ∧ ∀ g2 : graph_t, g2.reversed = true → g2.excludes = graph.excludes →
          g2.statics = graph.statics → g2.privates = graph.privates →
          (g2.defines.map node_key).Perm (graph.defines.map node_key) →
          ∃ r2, print_graph g2 = some r2
            ∧ (top_level_lines g2 r2.2).map (fun ln => (deref g2.defines ln.node).name)
              = (top_level_lines graph r.2).map
                  (fun ln => (deref graph.defines ln.node).name) := by
  obtain ⟨r, hr, hsame, htops⟩ := reversed_tops graph hrev
  have hmap : ∀ (g : graph_t) (lines : List line_t),
      (top_level_lines g lines).map (fun ln => (deref g.defines ln.node).name)
        = ((top_level_lines g lines).map (fun ln => ln.node)).map
            (fun p => (deref g.defines p).name) := by
    intro g lines
    rw [List.map_map]
    rfl
  have hsorted1 := pairwise_lt_map_name graph.defines _ (reversed_tops_strict graph hnames)
  refine ⟨r, hr, hsame, ?_, ?_, ?_⟩
  · rw [hmap, htops]
    exact hsorted1
  · rw [htops]
    exact (qsort_perm _ _).filter _
  · intro g2 hrev2 he hs hp hkeys
    obtain ⟨r2, hr2, _, htops2⟩ := reversed_tops g2 hrev2
    refine ⟨r2, hr2, ?_⟩
    rw [hmap, hmap, htops, htops2]
    have hnames2 : (g2.defines.map (fun n => n.name)).Nodup := by
      have h1 : (g2.defines.map (fun n => n.name)).Perm (graph.defines.map (fun n => n.name)) := by
        have := hkeys.map Prod.fst
        simpa [List.map_map, node_key, Function.comp_def] using this
      exact h1.nodup_iff.mpr hnames
    have hsorted2 := pairwise_lt_map_name g2.defines _ (reversed_tops_strict g2 hnames2)
    have hfilter : (fun k : String × NodeType =>
          !suppressed g2 { blank_node with name := k.1, ntype := k.2 })
        = (fun k : String × NodeType =>
          !suppressed graph { blank_node with name := k.1, ntype := k.2 }) := by
      funext k
      rw [suppressed_key g2 graph _ _ he hs hp rfl]
    have hmid : (((g2.defines.map node_key).filter
          (fun k => !suppressed g2 { blank_node with name := k.1, ntype := k.2 })).map
          Prod.fst).Perm
        (((graph.defines.map node_key).filter
          (fun k => !suppressed graph { blank_node with name := k.1, ntype := k.2 })).map
          Prod.fst) := by
      rw [hfilter]
      exact (hkeys.filter _).map Prod.fst
    have hperm := ((top_names_perm g2).trans hmid).trans (top_names_perm graph).symm
    exact List.eq_of_perm_of_sorted hperm hsorted2 hsorted1


/-- Witness for `reversed_ordering`: the filtered example and the same nodes
inserted in another order both list `bar`, `foo`, `main` at top level. -/
theorem reversed_ordering_witness :
    graph_filtered_reversed.reversed = true
    ∧ (graph_filtered_reversed.defines.map (fun n => n.name)).Nodup
    ∧ graph_filtered_reversed.defines.map (fun n => n.name)
        = ["main", "_helper", "printf", "counter", "foo", "bar"]
    ∧ graph_filtered_permuted.defines.map (fun n => n.name)
        = ["bar", "foo", "counter", "printf", "_helper", "main"]
    ∧ (print_graph graph_filtered_reversed).map
        (fun r => (top_level_lines graph_filtered_reversed r.2).map
          (fun ln => (deref graph_filtered_reversed.defines ln.node).name))
        = some ["bar", "foo", "main"]
    ∧ ∃ r, print_graph graph_filtered_reversed = some r
      ∧ r.1 = graph_filtered_reversed
      ∧ ∃ r2, print_graph graph_filtered_permuted = some r2
        ∧ (top_level_lines graph_filtered_permuted r2.2).map
            (fun ln => (deref graph_filtered_permuted.defines ln.node).name)
          = (top_level_lines graph_filtered_reversed r.2).map
              (fun ln => (deref graph_filtered_reversed.defines ln.node).name) :=
  ⟨by decide, by decide, by decide, by decide, by decide,
   (reversed_ordering graph_filtered_reversed (by decide) (by decide)).imp
     (fun _ h => ⟨h.1, h.2.1,
       h.2.2.2.2 graph_filtered_permuted (by decide) (by decide) (by decide) (by decide)
         (by decide)⟩)⟩


/-- Witness for `print_node_detail`: the five kinds of line, and the theorem
at the typed function `run`. -/
theorem print_node_detail_witness :
    print_node node_reference 1 3 1 = "1   f: <>\n"
    ∧ print_node node_function 2 5 7 = " 7   run: (), <t.c 12>\n"
    ∧ print_node node_typed_function 2 5 7 = " 7   run: int(), <t.c 12>\n"
    ∧ print_node node_variable 2 5 7 = " 7 total: <t.c 3>\n"
    ∧ print_node node_typed_variable 2 5 7 = " 7 total: long, <t.c 3>\n"
    ∧ node_typed_function.line ≠ -1
    ∧ node_typed_function.ntype = NodeType.FUNCTION
    ∧ node_typed_function.type = some "int"
    ∧ print_node node_typed_function 2 5 7
        = fmt_d 2 7 ++ " " ++ fmt_s 5 node_typed_function.name ++ ": "
          ++ ("int" ++ "(), <" ++ file_text node_typed_function ++ " "
              ++ toString node_typed_function.line ++ ">\n") :=
  ⟨by decide, by decide, by decide, by decide, by decide, by decide, by decide, by decide,
   (print_node_detail node_typed_function 2 5 7).2.2.1 "int" (by decide) (by decide)
     (by decide)⟩


/-! ## Claims C21 to C30 -/

/-- Claim C27: depth-limit shadowing.  In the graph `root -> a, b`, `a -> b`,
`b -> c` with depth limit 2 and nothing filtered, `c` lies two callee edges
below the root (`root -> b -> c`), and forward rendering prints `root`, `a`,
`b`, `b` and never `c`: `b` is first reached at depth 2 under `a`, where it is
marked printed before the depth check returns, and at depth 1 under `root` it
is printed again as an already printed node and not expanded. -/
theorem depth_limit_shadows_node :
    graph_shadow.depth = 2
    ∧ graph_shadow.rootnode = some 0
    ∧ graph_shadow.excludes = [] ∧ graph_shadow.privates = true ∧ graph_shadow.statics = true
    ∧ graph_shadow.defines.map (fun n => (n.name, n.list, n.printed))
        = [("root", [1, 2], false), ("a", [2], false), ("b", [3], false), ("c", [], false)]
    ∧ callee_path graph_shadow.defines 0 3 2
    ∧ (print_graph graph_shadow).map
        (fun r => r.2.map (fun ln => ((deref graph_shadow.defines ln.node).name, ln.depth)))
        = some [("root", 0), ("a", 1), ("b", 2), ("b", 1)]
    ∧ (print_graph graph_shadow).map (fun r => r.2.all (fun ln => ln.node != 3)) = some true :=
  ⟨by decide, by decide, by decide, by decide, by decide, by decide,
   callee_path.step 0 2 3 1 (by decide)
     (callee_path.step 2 3 3 0 (by decide) (callee_path.here 3)),
   by decide, by decide⟩

theorem get_definition_node_append (l : List g_node_t) (x : g_node_t) (name : String)
    (i : Nat) (h : get_definition_node l name = some i) :
    get_definition_node (l ++ [x]) name = some i := by
  induction l generalizing i with
  | nil => simp [get_definition_node] at h
  | cons cur rest ih =>
    simp only [List.cons_append]
    unfold get_definition_node at h ⊢
    by_cases e : cur.name = name
    · simpa [e] using h
    · simp only [e, if_false, Option.map_eq_some'] at h ⊢
      obtain ⟨a, ha, rfl⟩ := h
      exact ⟨a, ih a ha, rfl⟩

theorem deref_append (l : List g_node_t) (x : g_node_t) (i : Nat) (hi : i < l.length) :
    deref (l ++ [x]) i = deref l i := by
  unfold deref
  rw [List.getElem?_append_left hi]

/-- Claim C23: first definition wins.  If the node a name resolves to has an
origin (`line != -1`) and the name is defined again, with whatever file, line,
type and kind, then `get_definition_node` returns the same node for that name
afterwards and that node is unchanged: its file, line, type and kind are those
of the first definition. -/
theorem first_definition_wins (graph : graph_t) (ntype : NodeType) (name : String)
    (type file : Option String) (line : Int) (i : Nat)
    (hfind : get_definition_node graph.defines name = some i)
    (horigin : (deref graph.defines i).line ≠ -1) :
    get_definition_node (add_g_node graph ntype name type file line).1.defines name = some i
    ∧ deref (add_g_node graph ntype name type file line).1.defines i = deref graph.defines i := by
  have hi := get_definition_node_lt _ _ _ hfind
  rw [add_g_node_create graph ntype name type file line (Or.inr (Or.inr ⟨i, hfind, horigin⟩))]
  dsimp only
  exact ⟨get_definition_node_append _ _ _ _ hfind, deref_append _ _ _ hi⟩

/-- Witness for `first_definition_wins`: `main` of the spec example is defined
again as a variable in another file. -/
theorem first_definition_wins_witness :
    get_definition_node graph_spec_example.defines "main" = some 0
    ∧ (deref graph_spec_example.defines 0).line ≠ -1
    ∧ get_definition_node
        (add_g_node graph_spec_example NodeType.VARIABLE "main" (some "long") (some "u.c")
          77).1.defines "main" = some 0
    ∧ deref (add_g_node graph_spec_example NodeType.VARIABLE "main" (some "long") (some "u.c")
          77).1.defines 0 = deref graph_spec_example.defines 0 :=
  ⟨by decide, by decide,
   first_definition_wins graph_spec_example NodeType.VARIABLE "main" (some "long")
     (some "u.c") 77 0 (by decide) (by decide)⟩


theorem root_ok_iff (graph : graph_t) :
    root_ok graph = true
      ↔ ∀ r, graph.rootnode = some r →
          r < graph.defines.length ∧ (deref graph.defines r).name = graph.root := by
  unfold root_ok
  cases h : graph.rootnode with
  | none => simp
  | some r => simp

theorem get_definition_node_unique (l : List g_node_t) (name : String) (i : Nat)
    (hnodup : (l.map (fun n => n.name)).Nodup) (hi : i < l.length)
    (hname : (deref l i).name = name) : get_definition_node l name = some i := by
  induction l generalizing i with
  | nil => simp at hi
  | cons cur rest ih =>
    rw [List.map_cons, List.nodup_cons] at hnodup
    unfold get_definition_node
    cases i with
    | zero =>
      have : cur.name = name := by simpa [deref] using hname
      simp [this]
    | succ j =>
      have hj : j < rest.length := by simpa using hi
      have hname2 : (deref rest j).name = name := by simpa [deref] using hname
      have hne : ¬ cur.name = name := by
        intro e
        apply hnodup.1
        rw [e, ← hname2]
        exact List.mem_map.mpr ⟨deref rest j, deref_mem rest j hj, rfl⟩
      simp [hne, ih j hnodup.2 hj hname2]

theorem add_g_node_root_ok (graph : graph_t) (ntype : NodeType) (name : String)
    (type file : Option String) (line : Int) (h : root_ok graph = true) :
    root_ok (add_g_node graph ntype name type file line).1 = true := by
  rw [root_ok_iff] at h ⊢
  unfold add_g_node
  dsimp only
  split
  · next add _ =>
    intro r hr
    dsimp only at hr ⊢
    obtain ⟨h1, h2⟩ := h r hr
    refine ⟨by rw [store_length]; exact h1, ?_⟩
    rw [deref_store]
    split
    · next e => rw [← e.1]; exact h2
    · exact h2
  · intro r hr
    dsimp only at hr ⊢
    by_cases e : name = graph.root
    · rw [if_pos e] at hr
      simp only [Option.some.injEq] at hr
      subst hr
      refine ⟨by simp, ?_⟩
      simp [deref, create_g_node, e]
    · rw [if_neg e] at hr
      obtain ⟨h1, h2⟩ := h r hr
      refine ⟨by simp only [List.length_append, List.length_singleton]; omega, ?_⟩
      rw [deref_append _ _ _ h1]
      exact h2

/-- Claim C21 as stated fails: after `main` has been defined, the root bound to
that node and `foo` attached to it, a second definition of `main` creates a
third node and binds the root to it.  `get_definition_node`, and with it
`add_to_call_stack`, still resolves `main` to the first node, which holds the
callee; the render from the root prints `main` alone. -/
theorem second_definition_rebinds_root :
    graph_main_once.rootnode = some 0
    ∧ graph_main_twice.rootnode = some 2
    ∧ get_definition_node graph_main_twice.defines "main" = some 0
    ∧ graph_main_twice.defines.map (fun n => (n.name, n.line, n.list))
        = [("main", 1, [1]), ("foo", -1, []), ("main", 40, [])]
    ∧ (print_graph graph_main_twice).map
        (fun r => r.2.map (fun ln => (ln.node, (deref graph_main_twice.defines ln.node).name)))
        = some [(2, "main")] := by
  decide

/-- Claim C21, amended: the root is bound only to a node whose name equals the
configured root name (every `add_g_node` call keeps that so); and once it is
bound, in a graph with unique names, every later `add_g_node` call that names
a name no node has yet, or that defines a still reference-only node, leaves
the root bound to the same node, the one `get_definition_node` returns for the
root name and so the one `add_to_call_stack` attaches that name's callees
to. -/
theorem root_binding_stable (graph : graph_t) (c : node_call) (r : Nat)
    (hnodup : (graph.defines.map (fun n => n.name)).Nodup)
    (hbound : root_ok graph = true) (hroot : graph.rootnode = some r)
    (hok : fresh_or_upgrade graph c = true) :
    (∀ (ntype : NodeType) (name : String) (type file : Option String) (line : Int),
        root_ok (add_g_node graph ntype name type file line).1 = true)
    ∧ (add_g_node graph c.ntype c.name c.type c.file c.line).1.rootnode = some r
    ∧ get_definition_node (add_g_node graph c.ntype c.name c.type c.file c.line).1.defines
        (add_g_node graph c.ntype c.name c.type c.file c.line).1.root = some r := by
  refine ⟨fun ntype name type file line =>
    add_g_node_root_ok graph ntype name type file line hbound, ?_⟩
  obtain ⟨hr1, hr2⟩ := (root_ok_iff graph).mp hbound r hroot
  have hlook := get_definition_node_unique graph.defines graph.root r hnodup hr1 hr2
  unfold fresh_or_upgrade at hok
  split at hok
  · next hnone =>
    have hne : c.name ≠ graph.root := by
      intro e
      rw [e, hlook] at hnone
      exact Option.noConfusion hnone
    rw [add_g_node_create graph c.ntype c.name c.type c.file c.line (Or.inr (Or.inl hnone))]
    dsimp only
    rw [if_neg hne]
    exact ⟨hroot, get_definition_node_append _ _ _ _ hlook⟩
  · next p hp =>
    simp only [Bool.and_eq_true, bne_iff_ne, ne_eq, beq_iff_eq] at hok
    rw [add_g_node_upgrade graph c.ntype c.name c.type c.file c.line p hok.1 hp hok.2]
    dsimp only
    refine ⟨hroot, ?_⟩
    rw [← hlook]
    apply get_definition_node_names
    apply store_names
    intro n
    rfl

/-- Witness for `root_binding_stable`: after `graph_main_once`, `foo` is
defined. -/
theorem root_binding_stable_witness :
    (graph_main_once.defines.map (fun n => n.name)).Nodup
    ∧ root_ok graph_main_once = true
    ∧ graph_main_once.rootnode = some 0
    ∧ fresh_or_upgrade graph_main_once ⟨NodeType.FUNCTION, "foo", none, some "t.c", 9⟩ = true
    ∧ (add_g_node graph_main_once NodeType.FUNCTION "foo" none (some "t.c") 9).1.rootnode
        = some 0
    ∧ get_definition_node
        (add_g_node graph_main_once NodeType.FUNCTION "foo" none (some "t.c") 9).1.defines
        (add_g_node graph_main_once NodeType.FUNCTION "foo" none (some "t.c") 9).1.root
        = some 0 :=
  ⟨by decide, by decide, by decide, by decide,
   (root_binding_stable graph_main_once ⟨NodeType.FUNCTION, "foo", none, some "t.c", 9⟩ 0
      (by decide) (by decide) (by decide) (by decide)).2⟩


theorem suppressed_false_tests (graph : graph_t) (n : g_node_t)
    (h : suppressed graph n = false) :
    (!graph.privates && n.name.data.head? == some '_') = false
      ∧ (!graph.statics && n.ntype == NodeType.VARIABLE) = false := by
  unfold suppressed at h
  simp only [Bool.or_eq_false_iff] at h
  exact ⟨h.1.1, h.1.2⟩

theorem print_callers_loop_nodes (graph : graph_t) (node depth width pad : Nat)
    (sub : List Nat) (count : Nat)
    (h : suppressed graph (deref graph.defines node) = false) :
    (print_callers_loop graph node depth width pad sub count).2.map
        (fun ln => (ln.node, ln.maxlen))
      = sub.map (fun c => (c, width)) := by
  obtain ⟨h1, h2⟩ := suppressed_false_tests graph _ h
  induction sub generalizing count with
  | nil => rfl
  | cons c sub ih =>
    unfold print_callers_loop
    rw [h1, h2]
    simp only [Bool.false_eq_true, if_false, List.map_cons, ih]

/-- The lines of one `print_callers` call below the depth limit: nothing for a
suppressed node; otherwise the node with the width passed in, then every entry
of its caller list, in stored order, with the wider width. -/
theorem print_callers_lines (graph : graph_t) (count node depth maxlen pad : Nat)
    (hdepth : (depth : Int) < graph.depth) :
    (print_callers graph count node depth maxlen pad).2.map (fun ln => (ln.node, ln.maxlen))
      = if suppressed graph (deref graph.defines node) then []
        else (node, maxlen) :: (deref graph.defines node).callers.map
          (fun c => (c, maxlen + max_namelen graph.defines (deref graph.defines node).callers
            + 1)) := by
  unfold print_callers
  by_cases hs : suppressed graph (deref graph.defines node) = true
  · rw [if_pos hs, if_pos hs]
    rfl
  · rw [if_neg hs, if_neg hs, if_neg (by omega)]
    simp only [List.map_cons]
    rw [print_callers_loop_nodes graph node depth _ pad _ _ (by simpa using hs)]

theorem print_callers_each_lines (graph : graph_t) (maxlen pad : Nat) (rev : List Nat)
    (count : Nat) (hdepth : (0 : Int) < graph.depth) :
    (print_callers_each graph maxlen pad rev count).2.map (fun ln => (ln.node, ln.maxlen))
      = ((rev.filter (fun p => !suppressed graph (deref graph.defines p))).map
          (fun p => (p, maxlen) :: (deref graph.defines p).callers.map
            (fun c => (c, maxlen + max_namelen graph.defines (deref graph.defines p).callers
              + 1)))).flatten := by
  induction rev generalizing count with
  | nil => rfl
  | cons cur rev ih =>
    unfold print_callers_each
    simp only [List.map_append, ih, print_callers_lines graph _ cur 0 maxlen pad
      (by simpa using hdepth), List.filter_cons]
    by_cases hs : suppressed graph (deref graph.defines cur) = true
    · simp [hs]
    · simp [hs]

/-- Claim C22: reversed mode lists direct callers only.  For every graph with
`max_depth >= 1`, the lines of a reversed render are, for each node that
passes the filter, in the sorted order: the node's own line with the top-level
width, followed by one line per entry of its caller list, in stored order,
each with the wider width `maxlen + sublen + 1`, and nothing else; no line is
printed for a caller of a caller. -/
theorem reversed_direct_callers (graph : graph_t) (hrev : graph.reversed = true)
    (hdepth : 1 ≤ graph.depth) :
    ∃ r, print_graph graph = some r
      ∧ r.2.map (fun ln => (ln.node, ln.maxlen))
        = (((qsort (compare_gnodes graph.defines) (List.range graph.defines.length)).filter
              (fun p => !suppressed graph (deref graph.defines p))).map
            (fun p => (p, (print_graph_measure graph.defines).1)
              :: (deref graph.defines p).callers.map
                (fun c => (c, (print_graph_measure graph.defines).1
                  + max_namelen graph.defines (deref graph.defines p).callers + 1)))).flatten := by
  refine ⟨(graph, (print_callers_each graph (print_graph_measure graph.defines).1
    (print_graph_pad (print_graph_measure graph.defines).2.1
      (print_graph_measure graph.defines).2.1 0)
    (qsort (compare_gnodes graph.defines) (List.range graph.defines.length)) 1).2), ?_, ?_⟩
  · unfold print_graph print_graph_fuel
    simp only [hrev, Bool.not_true, Bool.false_eq_true, if_false, print_graph_measure_defcount]
  · exact print_callers_each_lines graph _ _ _ 1 (by omega)

/-- Witness for `reversed_direct_callers`: in the spec example `bar` is called
by `main` and `foo`, and `foo` by `main`; the caller `main` of `foo` is not
printed beneath the caller line `foo` of `bar`. -/
theorem reversed_direct_callers_witness :
    ({ graph_spec_example with reversed := true } : graph_t).reversed = true
    ∧ 1 ≤ ({ graph_spec_example with reversed := true } : graph_t).depth
    ∧ graph_spec_example.defines.map (fun n => (n.name, n.callers))
        = [("main", []), ("foo", [0]), ("bar", [0, 1])]
    ∧ (print_graph { graph_spec_example with reversed := true }).map
        (fun r => r.2.map (fun ln => ((deref graph_spec_example.defines ln.node).name,
          ln.maxlen)))
        = some [("bar", 4), ("main", 9), ("foo", 9), ("foo", 4), ("main", 9), ("main", 4)]
    ∧ ∃ r, print_graph { graph_spec_example with reversed := true } = some r :=
  ⟨by decide, by decide, by decide, by decide,
   (reversed_direct_callers { graph_spec_example with reversed := true } (by decide)
      (by decide)).imp (fun _ h => h.1)⟩


/-! ## Rendering: column widths -/

theorem max_namelen_spec (defs : List g_node_t) (sub : List Nat) :
    (∀ c ∈ sub, (deref defs c).namelen ≤ max_namelen defs sub)
    ∧ (sub ≠ [] → ∃ c ∈ sub, (deref defs c).namelen = max_namelen defs sub) := by
  unfold max_namelen
  have h : ∀ (l : List Nat) (m : Nat),
      m ≤ l.foldl (fun sublen c =>
          if (deref defs c).namelen > sublen then (deref defs c).namelen else sublen) m
      ∧ (∀ c ∈ l, (deref defs c).namelen ≤ l.foldl (fun sublen c =>
          if (deref defs c).namelen > sublen then (deref defs c).namelen else sublen) m)
      ∧ (l.foldl (fun sublen c =>
          if (deref defs c).namelen > sublen then (deref defs c).namelen else sublen) m = m
        ∨ ∃ c ∈ l, (deref defs c).namelen = l.foldl (fun sublen c =>
          if (deref defs c).namelen > sublen then (deref defs c).namelen else sublen) m) := by
    intro l
    induction l with
    | nil => intro m; simp
    | cons a l ih =>
      intro m
      rw [List.foldl_cons]
      by_cases hgt : (deref defs a).namelen > m
      · rw [if_pos hgt]
        obtain ⟨h1, h2, h3⟩ := ih (deref defs a).namelen
        refine ⟨by omega, ?_, ?_⟩
        · intro c hc
          rcases List.mem_cons.mp hc with e | e
          · rw [e]; exact h1
          · exact h2 c e
        · right
          rcases h3 with e | ⟨c, hc, e⟩
          · exact ⟨a, List.mem_cons_self _ _, e.symm⟩
          · exact ⟨c, List.mem_cons_of_mem _ hc, e⟩
      · rw [if_neg hgt]
        obtain ⟨h1, h2, h3⟩ := ih m
        refine ⟨h1, ?_, ?_⟩
        · intro c hc
          rcases List.mem_cons.mp hc with e | e
          · rw [e]; omega
          · exact h2 c e
        · rcases h3 with e | ⟨c, hc, e⟩
          · exact Or.inl e
          · exact Or.inr ⟨c, List.mem_cons_of_mem _ hc, e⟩
  obtain ⟨_, h2, h3⟩ := h sub 0
  refine ⟨h2, ?_⟩
  intro hne
  rcases h3 with e | e
  · cases sub with
    | nil => exact absurd rfl hne
    | cons a l =>
      refine ⟨a, List.mem_cons_self _ _, ?_⟩
      have := h2 a (List.mem_cons_self _ _)
      omega
  · exact e

/-- The lines of one `print_preorder` call: none is above the depth of the
call; a line at that depth is the line of the node, with the width passed in;
a line one level deeper is the line of a callee, with the width of the node
plus the largest `namelen` of all its callees plus one. -/
theorem print_preorder_width (fuel : Nat) :
    ∀ (graph : graph_t) (count node depth maxlen pad : Nat)
      (r : (graph_t × Nat) × List line_t),
      print_preorder fuel (graph, count) node depth maxlen pad = some r →
      ∀ ln ∈ r.2, depth ≤ ln.depth ∧ ln.pad = pad
        ∧ (ln.depth = depth → ln.node = node ∧ ln.maxlen = maxlen)
        ∧ (ln.depth = depth + 1 → ln.node ∈ (deref graph.defines node).list
            ∧ ln.maxlen
                = maxlen + max_namelen graph.defines (deref graph.defines node).list + 1) := by
  induction fuel with
  | zero =>
    intro graph count node depth maxlen pad r h
    rw [print_preorder_zero] at h
    exact Option.noConfusion h
  | succ fuel ih =>
    intro graph count node depth maxlen pad r h
    rw [print_preorder_succ] at h
    have hown : ∀ ln : line_t,
        ln = { node := node, pad := pad, maxlen := maxlen, count := count, depth := depth } →
        depth ≤ ln.depth ∧ ln.pad = pad
        ∧ (ln.depth = depth → ln.node = node ∧ ln.maxlen = maxlen)
        ∧ (ln.depth = depth + 1 → ln.node ∈ (deref graph.defines node).list
            ∧ ln.maxlen
                = maxlen + max_namelen graph.defines (deref graph.defines node).list + 1) := by
      intro ln e
      subst e
      refine ⟨Nat.le_refl _, rfl, fun _ => ⟨rfl, rfl⟩, ?_⟩
      intro hd
      simp only at hd
      omega
    by_cases hs : suppressed graph (deref graph.defines node) = true
    · rw [if_pos hs] at h
      simp only [Option.some.injEq] at h
      subst h
      intro ln hln
      simp at hln
    · rw [if_neg hs] at h
      by_cases hpr : (deref graph.defines node).printed = true
      · rw [if_pos hpr] at h
        simp only [Option.some.injEq] at h
        subst h
        intro ln hln
        exact hown ln (List.mem_singleton.mp hln)
      · rw [if_neg hpr] at h
        by_cases hd : (depth : Int) ≥ graph.depth
        · rw [if_pos hd] at h
          simp only [Option.some.injEq] at h
          subst h
          intro ln hln
          exact hown ln (List.mem_singleton.mp hln)
        · rw [if_neg hd] at h
          split at h
          · exact Option.noConfusion h
          · next s1 out1 hw =>
            simp only [Option.some.injEq] at h
            subst h
            have hsp := walk_spec _
              (fun (_ _ : graph_t × Nat) => True) (fun _ => trivial)
              (fun _ _ _ _ _ => trivial)
              (fun c ln => depth + 1 ≤ ln.depth ∧ ln.pad = pad
                ∧ (ln.depth = depth + 1 → ln.node = c
                  ∧ ln.maxlen = maxlen
                      + max_namelen graph.defines (deref graph.defines node).list + 1))
              (deref graph.defines node).list (mark_printed graph node, count + 1)
              (by
                intro c _ s r _ hb
                obtain ⟨g1, c1⟩ := s
                refine ⟨trivial, ?_⟩
                intro ln hln
                obtain ⟨h1, h2, h3, _⟩ := ih g1 c1 c (depth + 1) _ pad r hb ln hln
                exact ⟨h1, h2, h3⟩)
              (s1, out1) hw
            intro ln hln
            rcases List.mem_cons.mp hln with hl | hl
            · exact hown ln hl
            · obtain ⟨c, hc, h1, h2, h3⟩ := hsp.2 ln hl
              refine ⟨by omega, h2, ?_, ?_⟩
              · intro e
                omega
              · intro e
                obtain ⟨e1, e2⟩ := h3 e
                exact ⟨e1 ▸ hc, e2⟩


/-- Claim C24 as stated fails: `main` calls the private
`_internal_helper_function` (25 characters, suppressed) and `foo`; the only
callee that passes the filter is `foo`, of length 3, yet `foo` is printed with
the width 4 + 25 + 1 = 30 and not 4 + 1 + 3 = 8. -/
theorem suppressed_callee_widens_column :
    graph_long_private.defines.map (fun n => (n.name, n.namelen, n.list))
        = [("main", 4, [1, 2]), ("_internal_helper_function", 25, []), ("foo", 3, [])]
    ∧ suppressed graph_long_private (deref graph_long_private.defines 1) = true
    ∧ suppressed graph_long_private (deref graph_long_private.defines 2) = false
    ∧ (print_graph graph_long_private).map
        (fun r => r.2.map
          (fun ln => ((deref graph_long_private.defines ln.node).name, ln.maxlen)))
        = some [("main", 4), ("foo", 30)] := by
  decide

/-- Claim C24, amended: in forward rendering, the name field width passed to
the callees of a node equals the node's own width plus 1 plus the maximum name
length among all callees of that node, whether the filter suppresses them or
not: every line that `print_preorder` prints one level below the node is the
line of one of its callees and has that width. -/
theorem callee_width (graph : graph_t) (count node depth maxlen pad : Nat) :
    ∃ r, print_preorder (graph.defines.length + 1) (graph, count) node depth maxlen pad
          = some r
      ∧ (∀ ln ∈ r.2, ln.depth = depth + 1 →
          ln.node ∈ (deref graph.defines node).list
          ∧ ln.maxlen
              = maxlen + 1 + max_namelen graph.defines (deref graph.defines node).list)
      ∧ (∀ c ∈ (deref graph.defines node).list,
          (deref graph.defines c).namelen
            ≤ max_namelen graph.defines (deref graph.defines node).list)
      ∧ ((deref graph.defines node).list ≠ [] →
          ∃ c ∈ (deref graph.defines node).list,
            (deref graph.defines c).namelen
              = max_namelen graph.defines (deref graph.defines node).list) := by
  obtain ⟨r, hr, _⟩ := print_preorder_total (graph.defines.length + 1) graph count node depth
    maxlen pad (Nat.lt_succ_of_le (unprinted_le_length _))
  refine ⟨r, hr, ?_, (max_namelen_spec _ _).1, (max_namelen_spec _ _).2⟩
  intro ln hln hd
  obtain ⟨_, _, _, h4⟩ := print_preorder_width _ graph count node depth maxlen pad r hr ln hln
  obtain ⟨h5, h6⟩ := h4 hd
  exact ⟨h5, by omega⟩

/-! ## Rendering: the index column -/

theorem print_graph_measure_count (defs : List g_node_t) :
    (print_graph_measure defs).2.1 = defs.length + callee_cells defs := by
  unfold print_graph_measure callee_cells
  have h : ∀ (l : List g_node_t) (acc : Nat × Nat × Nat),
      (l.foldl (fun (acc : Nat × Nat × Nat) cur =>
        ((if cur.callers = [] ∧ cur.namelen > acc.1 then cur.namelen else acc.1),
         acc.2.1 + cur.list.length + 1,
         acc.2.2 + 1)) acc).2.1
        = acc.2.1 + (l.length + (l.map (fun n => n.list.length)).sum) := by
    intro l
    induction l with
    | nil => intro acc; simp
    | cons a l ih =>
      intro acc
      rw [List.foldl_cons, ih]
      simp only [List.length_cons, List.map_cons, List.sum_cons]
      omega
  rw [h]
  simp

theorem print_graph_pad_digits (fuel count pad : Nat) (h : count ≤ fuel) :
    print_graph_pad fuel count pad = pad + (Nat.digits 10 count).length := by
  induction fuel generalizing count pad with
  | zero =>
    have hc : count = 0 := by omega
    subst hc
    simp [print_graph_pad]
  | succ fuel ih =>
    by_cases hc : count = 0
    · subst hc
      simp [print_graph_pad]
    · have hpos : count > 0 := by omega
      have hdiv : count / 10 < count := Nat.div_lt_self hpos (by decide)
      simp only [print_graph_pad, hpos, if_true]
      rw [ih (count / 10) (pad + 1) (by omega), Nat.digits_def' (by decide) hpos]
      simp only [List.length_cons]
      omega

theorem print_callers_loop_pad (graph : graph_t) (node depth width pad : Nat)
    (sub : List Nat) (count : Nat) :
    ∀ ln ∈ (print_callers_loop graph node depth width pad sub count).2, ln.pad = pad := by
  induction sub generalizing count with
  | nil => intro ln h; simp [print_callers_loop] at h
  | cons c sub ih =>
    intro ln h
    unfold print_callers_loop at h
    split at h
    · simp at h
    · split at h
      · simp at h
      · rcases List.mem_cons.mp h with h1 | h1
        · rw [h1]
        · exact ih (count + 1) ln h1

theorem print_callers_pad (graph : graph_t) (count node depth maxlen pad : Nat) :
    ∀ ln ∈ (print_callers graph count node depth maxlen pad).2, ln.pad = pad := by
  intro ln h
  unfold print_callers at h
  split at h
  · simp at h
  · split at h
    · rw [List.mem_singleton.mp h]
    · rcases List.mem_cons.mp h with h1 | h1
      · rw [h1]
      · exact print_callers_loop_pad graph node depth _ pad _ _ ln h1

theorem print_callers_each_pad (graph : graph_t) (maxlen pad : Nat) (rev : List Nat)
    (count : Nat) :
    ∀ ln ∈ (print_callers_each graph maxlen pad rev count).2, ln.pad = pad := by
  induction rev generalizing count with
  | nil => intro ln h; simp [print_callers_each] at h
  | cons cur rev ih =>
    intro ln h
    unfold print_callers_each at h
    rcases List.mem_append.mp h with h1 | h1
    · exact print_callers_pad graph count cur 0 maxlen pad ln h1
    · exact ih _ ln h1

theorem print_if_unprinted_pad (fuel maxlen pad cur : Nat) (s : graph_t × Nat)
    (r : (graph_t × Nat) × List line_t)
    (h : print_if_unprinted fuel maxlen pad cur s = some r) :
    ∀ ln ∈ r.2, ln.pad = pad := by
  obtain ⟨g1, c1⟩ := s
  unfold print_if_unprinted at h
  split at h
  · intro ln hln
    exact (print_preorder_width fuel g1 c1 cur 0 maxlen pad r h ln hln).2.1
  · simp only [Option.some.injEq] at h
    subst h
    intro ln hln
    simp at hln

/-- Every line of one render carries the `pad` that `print_graph` computed
from the number of nodes plus callee cells. -/
theorem print_graph_pad_lines (graph : graph_t) (r : graph_t × List line_t)
    (h : print_graph graph = some r) :
    ∀ ln ∈ r.2, ln.pad
      = print_graph_pad (print_graph_measure graph.defines).2.1
          (print_graph_measure graph.defines).2.1 0 := by
  unfold print_graph print_graph_fuel at h
  by_cases hrev : graph.reversed = true
  · simp only [hrev, Bool.not_true, Bool.false_eq_true, if_false, Option.some.injEq] at h
    subst h
    exact print_callers_each_pad graph _ _ _ 1
  · have hrev2 : graph.reversed = false := by simpa using hrev
    simp only [hrev2, Bool.not_false, if_true] at h
    cases hroot : graph.rootnode with
    | some root =>
      rw [hroot] at h
      simp only [Option.map_eq_some'] at h
      obtain ⟨a, ha, hr⟩ := h
      subst hr
      intro ln hln
      exact (print_preorder_width _ graph 1 root 0 _ _ a ha ln hln).2.1
    | none =>
      rw [hroot] at h
      simp only [Option.map_eq_some'] at h
      obtain ⟨a, ha, hr⟩ := h
      subst hr
      have hsp := walk_spec _
        (fun (_ _ : graph_t × Nat) => True) (fun _ => trivial) (fun _ _ _ _ _ => trivial)
        (fun _ ln => ln.pad = print_graph_pad (print_graph_measure graph.defines).2.1
          (print_graph_measure graph.defines).2.1 0)
        (List.range graph.defines.length) (graph, 1)
        (fun c _ s r _ hb => ⟨trivial, print_if_unprinted_pad _ _ _ c s r hb⟩)
        a ha
      intro ln hln
      obtain ⟨_, _, hp⟩ := hsp.2 ln hln
      exact hp

/-- Claim C25 as stated fails: in the graph with the six nodes `main`, `f`,
`a`, `b`, `c`, `d` and the four callee cells of `f`, rendered forward from the
root `main`, one line is printed, so the number of printed lines has one
decimal digit, and its index field is two wide. -/
theorem pad_wider_than_line_count :
    graph_side_tree.rootnode = some 0
    ∧ graph_side_tree.defines.length = 6
    ∧ callee_cells graph_side_tree.defines = 4
    ∧ (print_graph graph_side_tree).map (fun r => r.2.map (fun ln => (ln.count, ln.pad)))
        = some [(1, 2)]
    ∧ (Nat.digits 10 1).length = 1 :=
  ⟨by decide, by decide, by decide, by decide, by norm_num⟩

/-- Claim C25, amended: for every graph and configuration, the index field
width `pad` of every line of one render equals the number of decimal digits of
the number of nodes plus the total number of callee cells of the graph (0 for
the empty graph), a number `print_graph` computes before it prints. -/
theorem pad_is_digits_of_nodes_and_cells (graph : graph_t) :
    ∃ r, print_graph graph = some r
      ∧ ∀ ln ∈ r.2, ln.pad
          = (Nat.digits 10 (graph.defines.length + callee_cells graph.defines)).length := by
  obtain ⟨r, hr⟩ := print_graph_total graph
  refine ⟨r, hr, ?_⟩
  intro ln hln
  rw [print_graph_pad_lines graph r hr ln hln, print_graph_pad_digits _ _ _ (Nat.le_refl _),
    print_graph_measure_count]
  simp


/-! ## The two passes over the batch: what is kept -/

theorem same_target_iff (defs : List g_node_t) (a b : Nat) :
    same_target defs a b = true ↔ (deref defs a).name = (deref defs b).name := by
  unfold same_target
  simp only [Bool.or_eq_true, beq_iff_eq]
  constructor
  · rintro (h | h)
    · rw [h]
    · exact h
  · intro h
    exact Or.inr h

theorem unlink_first_sublist (defs : List g_node_t) (tmp : Nat) (l : List Nat) :
    (unlink_first defs tmp l).Sublist l := by
  induction l with
  | nil => exact List.Sublist.refl _
  | cons p plist ih =>
    unfold unlink_first
    split
    · exact List.sublist_cons_self _ _
    · exact List.Sublist.cons₂ _ ih

theorem drop_redundant_sublist (defs : List g_node_t) (fuel : Nat) (calls : List Nat) :
    (drop_redundant defs fuel calls).Sublist calls := by
  induction fuel generalizing calls with
  | zero => exact List.Sublist.refl _
  | succ fuel ih =>
    cases calls with
    | nil => exact List.Sublist.refl _
    | cons tmp rest =>
      simp only [drop_redundant]
      exact List.Sublist.cons₂ _ ((ih _).trans (unlink_first_sublist defs tmp rest))

theorem kept_calls_sublist (graph : graph_t) (parent : Nat) (calls : List Nat) :
    (kept_calls graph parent calls).Sublist calls := by
  unfold kept_calls
  split
  · rw [drop_present_eq_filter]
    exact (List.filter_sublist _).trans (drop_redundant_sublist _ _ _)
  · exact List.Sublist.refl _

theorem unlink_first_names_mem (defs : List g_node_t) (tmp : Nat) (l : List Nat) (x : String) :
    (x = (deref defs tmp).name ∨ x ∈ (unlink_first defs tmp l).map (fun c => (deref defs c).name))
      ↔ (x = (deref defs tmp).name ∨ x ∈ l.map (fun c => (deref defs c).name)) := by
  induction l with
  | nil => simp [unlink_first]
  | cons p plist ih =>
    unfold unlink_first
    by_cases h : same_target defs tmp p = true
    · rw [if_pos h]
      rw [same_target_iff] at h
      simp only [List.map_cons, List.mem_cons]
      constructor
      · rintro (e | e)
        · exact Or.inl e
        · exact Or.inr (Or.inr e)
      · rintro (e | e | e)
        · exact Or.inl e
        · exact Or.inl (e.trans h.symm)
        · exact Or.inr e
    · rw [if_neg h]
      simp only [List.map_cons, List.mem_cons]
      constructor
      · rintro (e | e | e)
        · exact Or.inl e
        · exact Or.inr (Or.inl e)
        · rcases ih.mp (Or.inr e) with e2 | e2
          · exact Or.inl e2
          · exact Or.inr (Or.inr e2)
      · rintro (e | e | e)
        · exact Or.inl e
        · exact Or.inr (Or.inl e)
        · rcases ih.mpr (Or.inr e) with e2 | e2
          · exact Or.inl e2
          · exact Or.inr (Or.inr e2)

theorem drop_redundant_names_mem (defs : List g_node_t) (fuel : Nat) (calls : List Nat)
    (x : String) :
    x ∈ (drop_redundant defs fuel calls).map (fun c => (deref defs c).name)
      ↔ x ∈ calls.map (fun c => (deref defs c).name) := by
  induction fuel generalizing calls with
  | zero => rfl
  | succ fuel ih =>
    cases calls with
    | nil => rfl
    | cons tmp rest =>
      simp only [drop_redundant, List.map_cons, List.mem_cons]
      rw [ih (unlink_first defs tmp rest)]
      exact unlink_first_names_mem defs tmp rest x

theorem drop_present_names_mem (defs : List g_node_t) (plist calls : List Nat) (x : String) :
    (x ∈ plist.map (fun c => (deref defs c).name)
        ∨ x ∈ (drop_present defs plist calls).map (fun c => (deref defs c).name))
      ↔ (x ∈ plist.map (fun c => (deref defs c).name)
        ∨ x ∈ calls.map (fun c => (deref defs c).name)) := by
  rw [drop_present_eq_filter]
  simp only [List.mem_map, List.mem_filter, List.all_eq_true, Bool.not_eq_true',
    ← Bool.not_eq_true, same_target_iff]
  constructor
  · rintro (h | ⟨c, ⟨hc, _⟩, e⟩)
    · exact Or.inl h
    · exact Or.inr ⟨c, hc, e⟩
  · rintro (h | ⟨c, hc, e⟩)
    · exact Or.inl h
    · by_cases hin : ∃ q ∈ plist, (deref defs c).name = (deref defs q).name
      · obtain ⟨q, hq, e2⟩ := hin
        exact Or.inl ⟨q, hq, e2.symm.trans e⟩
      · right
        refine ⟨c, ⟨hc, ?_⟩, e⟩
        intro q hq e2
        exact hin ⟨q, hq, e2⟩

/-- Claim C29: no reference is lost or invented by the de-duplication.  For
every existing parent and every batch in non-complete mode,
`add_to_call_stack` returns, and the parent's callee list afterwards is its
previous list, unchanged and in the same order, followed by a subsequence of
the batch; the names in the new list are exactly the names in the previous
list together with the names in the batch. -/
theorem dedup_keeps_names (graph : graph_t) (function : String) (refs : List Nat)
    (p : Nat) (hmode : graph.complete = false)
    (hp : get_definition_node graph.defines function = some p) :
    ∃ g1 kept, add_to_call_stack graph function refs = some g1
      ∧ (deref g1.defines p).list = (deref graph.defines p).list ++ kept
      ∧ kept.Sublist refs
      ∧ ∀ name, name ∈ (deref g1.defines p).list.map (fun c => (deref g1.defines c).name)
          ↔ name ∈ (deref graph.defines p).list.map (fun c => (deref graph.defines c).name)
            ∨ name ∈ refs.map (fun c => (deref graph.defines c).name) := by
  have hplt := get_definition_node_lt _ _ _ hp
  refine ⟨_, kept_calls graph p refs, add_to_call_stack_eq graph function refs p hp, ?_,
    kept_calls_sublist graph p refs, ?_⟩
  · simp only [attach_list graph p _ hplt, if_true]
  · intro name
    have hn : ∀ c, (deref (store (link_callers graph.defines p (kept_calls graph p refs)) p
        (fun n => { n with list := n.list ++ kept_calls graph p refs })) c).name
        = (deref graph.defines c).name :=
      fun c => deref_names _ _ (attach_names graph p (kept_calls graph p refs)) c
    simp only [attach_list graph p _ hplt, if_true, hn, List.map_append, List.mem_append]
    have hk : kept_calls graph p refs
        = drop_present graph.defines (deref graph.defines p).list
            (drop_redundant graph.defines refs.length refs) := by
      simp [kept_calls, hmode]
    rw [hk, drop_present_names_mem, drop_redundant_names_mem]

/-- Witness for `dedup_keeps_names`: the batch `foo, bar, foo, foo` on `main`
of the three-node example. -/
theorem dedup_keeps_names_witness :
    graph_main_foo_bar.complete = false
    ∧ get_definition_node graph_main_foo_bar.defines "main" = some 0
    ∧ (add_to_call_stack graph_main_foo_bar "main" [1, 2, 1, 1]).map
        (fun g => (deref g.defines 0).list) = some [1, 2, 1]
    ∧ ∃ g1 kept, add_to_call_stack graph_main_foo_bar "main" [1, 2, 1, 1] = some g1
      ∧ (deref g1.defines 0).list = (deref graph_main_foo_bar.defines 0).list ++ kept
      ∧ kept.Sublist [1, 2, 1, 1]
      ∧ ∀ name, name ∈ (deref g1.defines 0).list.map (fun c => (deref g1.defines c).name)
          ↔ name ∈ (deref graph_main_foo_bar.defines 0).list.map
              (fun c => (deref graph_main_foo_bar.defines c).name)
            ∨ name ∈ [1, 2, 1, 1].map (fun c => (deref graph_main_foo_bar.defines c).name) :=
  ⟨by decide, by decide, by decide,
   dedup_keeps_names graph_main_foo_bar "main" [1, 2, 1, 1] 0 (by decide) (by decide)⟩


/-! ## The two passes over the batch: batches with at most two cells per name -/

theorem first_new_cons (defs : List g_node_t) (seen : List String) (c : Nat)
    (rest : List Nat) :
    first_new defs seen (c :: rest)
      = if (deref defs c).name ∈ seen then first_new defs seen rest
        else c :: first_new defs ((deref defs c).name :: seen) rest := rfl

theorem first_new_seen_ext (defs : List g_node_t) (l : List Nat) (s1 s2 : List String)
    (h : ∀ x, x ∈ s1 ↔ x ∈ s2) : first_new defs s1 l = first_new defs s2 l := by
  induction l generalizing s1 s2 with
  | nil => rfl
  | cons c rest ih =>
    rw [first_new_cons, first_new_cons]
    by_cases hc : (deref defs c).name ∈ s1
    · rw [if_pos hc, if_pos ((h _).mp hc)]
      exact ih s1 s2 h
    · rw [if_neg hc, if_neg (fun e => hc ((h _).mpr e))]
      congr 1
      apply ih
      intro x
      simp only [List.mem_cons, h x]

theorem first_new_filter_seen (defs : List g_node_t) (l : List Nat) (seen : List String)
    (s : String) :
    first_new defs (s :: seen) l
      = first_new defs seen (l.filter (fun c => (deref defs c).name != s)) := by
  induction l generalizing seen with
  | nil => rfl
  | cons c rest ih =>
    by_cases hs : (deref defs c).name = s
    · have hf : (c :: rest).filter (fun c => (deref defs c).name != s)
          = rest.filter (fun c => (deref defs c).name != s) := by
        simp [List.filter_cons, hs]
      rw [hf, ← ih seen, first_new_cons, if_pos (by simp [hs])]
    · have hf : (c :: rest).filter (fun c => (deref defs c).name != s)
          = c :: rest.filter (fun c => (deref defs c).name != s) := by
        simp [List.filter_cons, hs]
      rw [hf, first_new_cons, first_new_cons]
      by_cases hc : (deref defs c).name ∈ seen
      · rw [if_pos hc, if_pos (List.mem_cons_of_mem _ hc)]
        exact ih seen
      · have hc2 : (deref defs c).name ∉ s :: seen := by
          simp only [List.mem_cons, not_or]
          exact ⟨hs, hc⟩
        rw [if_neg hc, if_neg hc2, ← ih ((deref defs c).name :: seen)]
        congr 1
        apply first_new_seen_ext
        intro x
        simp only [List.mem_cons]
        tauto

theorem first_new_filter (defs : List g_node_t) (l : List Nat) (seen old : List String) :
    (first_new defs seen l).filter (fun c => decide ((deref defs c).name ∉ old))
      = first_new defs (seen ++ old) l := by
  induction l generalizing seen with
  | nil => rfl
  | cons c rest ih =>
    rw [first_new_cons, first_new_cons]
    by_cases hc : (deref defs c).name ∈ seen
    · rw [if_pos hc, if_pos (List.mem_append_left _ hc)]
      exact ih seen
    · rw [if_neg hc]
      by_cases ho : (deref defs c).name ∈ old
      · rw [if_pos (List.mem_append_right _ ho), List.filter_cons_of_neg (by simpa using ho),
          ih ((deref defs c).name :: seen)]
        apply first_new_seen_ext
        intro x
        simp only [List.mem_cons, List.mem_append, List.cons_append]
        constructor
        · rintro (e | e | e)
          · exact Or.inr (e ▸ ho)
          · exact Or.inl e
          · exact Or.inr e
        · rintro (e | e)
          · exact Or.inr (Or.inl e)
          · exact Or.inr (Or.inr e)
      · have hn : (deref defs c).name ∉ seen ++ old := by
          simp only [List.mem_append, not_or]
          exact ⟨hc, ho⟩
        rw [if_neg hn, List.filter_cons_of_pos (by simpa using ho),
          ih ((deref defs c).name :: seen)]
        rfl

theorem first_new_fresh (defs : List g_node_t) (l : List Nat) (seen : List String) :
    (∀ c ∈ first_new defs seen l, (deref defs c).name ∉ seen)
      ∧ ((first_new defs seen l).map (fun c => (deref defs c).name)).Nodup := by
  induction l generalizing seen with
  | nil => exact ⟨fun c hc => (by cases hc), List.nodup_nil⟩
  | cons c rest ih =>
    rw [first_new_cons]
    by_cases hc : (deref defs c).name ∈ seen
    · rw [if_pos hc]
      exact ih seen
    · rw [if_neg hc]
      obtain ⟨h1, h2⟩ := ih ((deref defs c).name :: seen)
      constructor
      · intro q hq
        rcases List.mem_cons.mp hq with e | e
        · rw [e]
          exact hc
        · exact fun hin => h1 q e (List.mem_cons_of_mem _ hin)
      · rw [List.map_cons, List.nodup_cons]
        refine ⟨?_, h2⟩
        intro hin
        obtain ⟨q, hq, e⟩ := List.mem_map.mp hin
        exact h1 q hq (by rw [e]; exact List.mem_cons_self _ _)

theorem unlink_first_eq_filter (defs : List g_node_t) (tmp : Nat) (l : List Nat)
    (h : (l.map (fun c => (deref defs c).name)).count (deref defs tmp).name ≤ 1) :
    unlink_first defs tmp l = l.filter (fun c => (deref defs c).name != (deref defs tmp).name) := by
  induction l with
  | nil => rfl
  | cons p plist ih =>
    unfold unlink_first
    by_cases hs : same_target defs tmp p = true
    · rw [if_pos hs]
      rw [same_target_iff] at hs
      have h0 : (plist.map (fun c => (deref defs c).name)).count (deref defs tmp).name = 0 := by
        rw [List.map_cons, hs, List.count_cons_self] at h
        rw [hs]
        omega
      rw [List.filter_cons_of_neg (by simp [hs])]
      symm
      rw [List.filter_eq_self]
      intro c hc
      have hne : (deref defs c).name ≠ (deref defs tmp).name := by
        intro e
        have hmem : (deref defs tmp).name ∈ plist.map (fun c => (deref defs c).name) :=
          List.mem_map.mpr ⟨c, hc, e⟩
        exact (List.count_pos_iff.mpr hmem).ne (h0.symm)
      simpa using hne
    · rw [if_neg hs]
      have hne : ¬ (deref defs tmp).name = (deref defs p).name :=
        fun e => hs ((same_target_iff defs tmp p).mpr e)
      have hne2 : ¬ (deref defs p).name = (deref defs tmp).name := fun e => hne e.symm
      rw [List.filter_cons_of_pos (by simpa using hne2)]
      congr 1
      apply ih
      rw [List.map_cons, List.count_cons_of_ne hne] at h
      exact h

theorem drop_redundant_eq_first_new (defs : List g_node_t) (fuel : Nat) (l : List Nat)
    (hfuel : l.length ≤ fuel)
    (htwice : ∀ c ∈ l, (l.map (fun c => (deref defs c).name)).count (deref defs c).name ≤ 2) :
    drop_redundant defs fuel l = first_new defs [] l := by
  induction fuel generalizing l with
  | zero =>
    have : l = [] := List.length_eq_zero.mp (Nat.le_zero.mp hfuel)
    subst this
    rfl
  | succ fuel ih =>
    cases l with
    | nil => rfl
    | cons t rest =>
      have h1 : (rest.map (fun c => (deref defs c).name)).count (deref defs t).name ≤ 1 := by
        have := htwice t (List.mem_cons_self _ _)
        rw [List.map_cons, List.count_cons_self] at this
        omega
      simp only [drop_redundant]
      rw [unlink_first_eq_filter defs t rest h1]
      have hsub : (rest.filter (fun c => (deref defs c).name != (deref defs t).name)).Sublist
          (t :: rest) := (List.filter_sublist _).trans (List.sublist_cons_self _ _)
      rw [ih _ (by
          have := hsub.length_le
          simp only [List.length_cons] at this hfuel
          have h2 := List.length_filter_le
            (fun c => (deref defs c).name != (deref defs t).name) rest
          omega) (by
          intro c hc
          refine le_trans ?_ (htwice c (hsub.subset hc))
          exact List.Sublist.count_le (hsub.map _) _)]
      rw [first_new_cons, if_neg (by simp), first_new_filter_seen]

theorem kept_calls_eq_first_new (graph : graph_t) (p : Nat) (refs : List Nat)
    (hmode : graph.complete = false)
    (htwice : ∀ c ∈ refs,
      (refs.map (fun c => (deref graph.defines c).name)).count (deref graph.defines c).name ≤ 2) :
    kept_calls graph p refs
      = first_new graph.defines
          ((deref graph.defines p).list.map (fun c => (deref graph.defines c).name)) refs := by
  have hk : kept_calls graph p refs
      = drop_present graph.defines (deref graph.defines p).list
          (drop_redundant graph.defines refs.length refs) := by
    simp [kept_calls, hmode]
  rw [hk, drop_present_eq_filter, drop_redundant_eq_first_new _ _ _ (le_refl _) htwice]
  have hf : (fun c => (deref graph.defines p).list.all
        (fun q => !same_target graph.defines c q))
      = (fun c => decide ((deref graph.defines c).name
          ∉ (deref graph.defines p).list.map (fun c => (deref graph.defines c).name))) := by
    funext c
    rw [Bool.eq_iff_iff]
    simp only [List.all_eq_true, Bool.not_eq_true', ← Bool.not_eq_true, same_target_iff,
      decide_eq_true_eq, List.mem_map, not_exists, not_and]
    constructor
    · intro h q hq e
      exact h q hq e.symm
    · intro h q hq e
      exact h q hq e.symm
  rw [hf, first_new_filter]
  rfl

/-- Claim C30: de-duplication is exact for batches with at most two cells per
name.  In non-complete mode, when the callee list of the existing parent has
no two cells with the same name and every name occurs at most twice in the
batch, `add_to_call_stack` returns, the cells it appends to the parent's
callee list are the first occurrences of the batch's names that are not
already in that list, in batch order, and the new callee list has no two cells
with the same name. -/
theorem dedup_exact_at_most_twice (graph : graph_t) (function : String) (refs : List Nat)
    (p : Nat) (hmode : graph.complete = false)
    (hp : get_definition_node graph.defines function = some p)
    (hold : ((deref graph.defines p).list.map (fun c => (deref graph.defines c).name)).Nodup)
    (htwice : ∀ c ∈ refs,
      (refs.map (fun c => (deref graph.defines c).name)).count (deref graph.defines c).name ≤ 2) :
    ∃ g1, add_to_call_stack graph function refs = some g1
      ∧ (deref g1.defines p).list
          = (deref graph.defines p).list
            ++ first_new graph.defines
                ((deref graph.defines p).list.map (fun c => (deref graph.defines c).name)) refs
      ∧ ((deref g1.defines p).list.map (fun c => (deref g1.defines c).name)).Nodup := by
  have hplt := get_definition_node_lt _ _ _ hp
  have hk := kept_calls_eq_first_new graph p refs hmode htwice
  refine ⟨_, add_to_call_stack_eq graph function refs p hp, ?_, ?_⟩
  · simp only [attach_list graph p _ hplt, if_true]
    rw [hk]
  · have hn : ∀ c, (deref (store (link_callers graph.defines p (kept_calls graph p refs)) p
        (fun n => { n with list := n.list ++ kept_calls graph p refs })) c).name
        = (deref graph.defines c).name :=
      fun c => deref_names _ _ (attach_names graph p (kept_calls graph p refs)) c
    simp only [attach_list graph p _ hplt, if_true, hn, List.map_append]
    rw [hk]
    obtain ⟨h1, h2⟩ := first_new_fresh graph.defines refs
      ((deref graph.defines p).list.map (fun c => (deref graph.defines c).name))
    rw [List.nodup_append]
    refine ⟨hold, h2, ?_⟩
    intro x hx1 hx2
    obtain ⟨q, hq, e⟩ := List.mem_map.mp hx2
    exact h1 q hq (by rw [e]; exact hx1)

/-- Witness for `dedup_exact_at_most_twice`: `main` of the filter example
already calls `_helper`, `printf`, `counter` and `foo`; the batch `bar, foo,
bar, main, main` appends `bar` and `main`. -/
theorem dedup_exact_at_most_twice_witness :
    graph_filtered.complete = false
    ∧ get_definition_node graph_filtered.defines "main" = some 0
    ∧ (deref graph_filtered.defines 0).list = [1, 2, 3, 4]
    ∧ first_new graph_filtered.defines
        ((deref graph_filtered.defines 0).list.map
          (fun c => (deref graph_filtered.defines c).name)) [5, 4, 5, 0, 0] = [5, 0]
    ∧ ∃ g1, add_to_call_stack graph_filtered "main" [5, 4, 5, 0, 0] = some g1
      ∧ (deref g1.defines 0).list
          = (deref graph_filtered.defines 0).list
            ++ first_new graph_filtered.defines
                ((deref graph_filtered.defines 0).list.map
                  (fun c => (deref graph_filtered.defines c).name)) [5, 4, 5, 0, 0]
      ∧ ((deref g1.defines 0).list.map (fun c => (deref g1.defines c).name)).Nodup :=
  ⟨by decide, by decide, by decide, by decide,
   dedup_exact_at_most_twice graph_filtered "main" [5, 4, 5, 0, 0] 0 (by decide) (by decide)
     (by decide) (by decide)⟩


/-! ## Rendering: how many lines a forward render prints -/

theorem unprinted_cells_le (defs : List g_node_t) : unprinted_cells defs ≤ callee_cells defs := by
  induction defs with
  | nil => exact Nat.le_refl _
  | cons a l ih =>
    simp only [unprinted_cells, callee_cells, List.map_cons, List.sum_cons] at ih ⊢
    split <;> omega

theorem unprinted_cells_mark (defs : List g_node_t) (p : Nat) :
    unprinted_cells (store defs p (fun n => { n with printed := true }))
        + (if (deref defs p).printed then 0 else (deref defs p).list.length)
      = unprinted_cells defs := by
  induction defs generalizing p with
  | nil => simp [store, deref, blank_node, unprinted_cells]
  | cons a l ih =>
    cases p with
    | zero =>
      rw [store_cons_zero]
      have hd : deref (a :: l) 0 = a := by simp [deref]
      rw [hd]
      simp only [unprinted_cells, List.map_cons, List.sum_cons, if_true]
      omega
    | succ p =>
      rw [store_cons_succ]
      have hd : deref (a :: l) (p + 1) = deref l p := by simp [deref]
      rw [hd]
      have := ih p
      simp only [unprinted_cells, List.map_cons, List.sum_cons] at this ⊢
      omega

theorem walk_lines {σ : Type} (body : Nat → σ → Option (σ × List line_t)) (μ : σ → Nat)
    (sub : List Nat) (s0 : σ)
    (hbody : ∀ c ∈ sub, ∀ s r, body c s = some r → r.2.length + μ r.1 ≤ 1 + μ s)
    (r : σ × List line_t) (h : walk body sub s0 = some r) :
    r.2.length + μ r.1 ≤ sub.length + μ s0 := by
  induction sub generalizing s0 r with
  | nil =>
    simp only [walk, Option.some.injEq] at h
    subst h
    simp
  | cons c sub ih =>
    unfold walk at h
    split at h
    · exact Option.noConfusion h
    · next s1 out1 h1 =>
      split at h
      · exact Option.noConfusion h
      · next s2 out2 h2 =>
        simp only [Option.some.injEq] at h
        subst h
        have hc := hbody c (List.mem_cons_self _ _) s0 (s1, out1) h1
        have hrest := ih s1 (fun c2 hc2 => hbody c2 (List.mem_cons_of_mem _ hc2)) (s2, out2) h2
        simp only [List.length_append, List.length_cons] at hc hrest ⊢
        omega

/-- One `print_preorder` call prints at most one line plus one line per callee
cell of the nodes it marks as printed. -/
theorem print_preorder_lines (fuel : Nat) :
    ∀ (graph : graph_t) (count node depth maxlen pad : Nat)
      (r : (graph_t × Nat) × List line_t),
      print_preorder fuel (graph, count) node depth maxlen pad = some r →
      r.2.length + unprinted_cells r.1.1.defines ≤ 1 + unprinted_cells graph.defines := by
  induction fuel with
  | zero =>
    intro graph count node depth maxlen pad r h
    rw [print_preorder_zero] at h
    exact Option.noConfusion h
  | succ fuel ih =>
    intro graph count node depth maxlen pad r h
    rw [print_preorder_succ] at h
    have hmark := unprinted_cells_mark graph.defines node
    by_cases hs : suppressed graph (deref graph.defines node) = true
    · rw [if_pos hs] at h
      simp only [Option.some.injEq] at h
      subst h
      simp
    · rw [if_neg hs] at h
      by_cases hpr : (deref graph.defines node).printed = true
      · rw [if_pos hpr] at h
        simp only [Option.some.injEq] at h
        subst h
        simp
      · rw [if_neg hpr] at h
        rw [if_neg hpr] at hmark
        by_cases hd : (depth : Int) ≥ graph.depth
        · rw [if_pos hd] at h
          simp only [Option.some.injEq] at h
          subst h
          simp only [List.length_cons, List.length_nil, mark_printed]
          omega
        · rw [if_neg hd] at h
          split at h
          · exact Option.noConfusion h
          · next s out hw =>
            simp only [Option.some.injEq] at h
            subst h
            have hl := walk_lines _ (fun s : graph_t × Nat => unprinted_cells s.1.defines)
              (deref graph.defines node).list (mark_printed graph node, count + 1)
              (fun c _ s r hb => by
                obtain ⟨g1, c1⟩ := s
                exact ih g1 c1 c _ _ _ r hb)
              (s, out) hw
            simp only [mark_printed, List.length_cons] at hl ⊢
            omega

theorem print_if_unprinted_lines (fuel maxlen pad cur : Nat) (s : graph_t × Nat)
    (r : (graph_t × Nat) × List line_t)
    (h : print_if_unprinted fuel maxlen pad cur s = some r) :
    r.2.length + unprinted_cells r.1.1.defines ≤ 1 + unprinted_cells s.1.defines := by
  obtain ⟨g1, c1⟩ := s
  unfold print_if_unprinted at h
  split at h
  · exact print_preorder_lines fuel g1 c1 cur 0 maxlen pad r h
  · simp only [Option.some.injEq] at h
    subst h
    simp

/-- A forward render prints at most as many lines as there are nodes and
callee cells, when the bound root, if any, is a node of the graph. -/
theorem print_graph_lines (graph : graph_t) (r : graph_t × List line_t)
    (hfwd : graph.reversed = false)
    (hroot : ∀ p, graph.rootnode = some p → p < graph.defines.length)
    (h : print_graph graph = some r) :
    r.2.length ≤ graph.defines.length + callee_cells graph.defines := by
  have hle := unprinted_cells_le graph.defines
  unfold print_graph print_graph_fuel at h
  simp only [hfwd, Bool.not_false, if_true] at h
  cases hr : graph.rootnode with
  | some root =>
    rw [hr] at h
    simp only [Option.map_eq_some'] at h
    obtain ⟨a, ha, e⟩ := h
    subst e
    have h1 := print_preorder_lines _ graph 1 root 0 _ _ a ha
    have h2 := hroot root hr
    simp only
    omega
  | none =>
    rw [hr] at h
    simp only [Option.map_eq_some'] at h
    obtain ⟨a, ha, e⟩ := h
    subst e
    have h1 := walk_lines _ (fun s : graph_t × Nat => unprinted_cells s.1.defines)
      (List.range graph.defines.length) (graph, 1)
      (fun c _ s r hb => print_if_unprinted_lines _ _ _ c s r hb) a ha
    simp only [List.length_range] at h1 ⊢
    omega

/-- Claim C26: the index column never overflows in forward mode.  For every
graph rendered forward, with the root bound to a node of the graph or with no
root bound, whatever the depth limit, the filter and the `printed` flags at
the start, `print_graph` returns, the number of lines it prints is at most the
number of nodes plus the total number of callee cells, and the index of every
line has at most `pad` decimal digits, `pad` being the digit count of that sum
as `print_graph` computes it. -/
theorem index_column_fits (graph : graph_t) (hfwd : graph.reversed = false)
    (hroot : ∀ p, graph.rootnode = some p → p < graph.defines.length) :
    ∃ r, print_graph graph = some r
      ∧ r.2.length ≤ graph.defines.length + callee_cells graph.defines
      ∧ ∀ ln ∈ r.2,
          ln.pad = print_graph_pad (print_graph_measure graph.defines).2.1
                    (print_graph_measure graph.defines).2.1 0
          ∧ ln.pad = (Nat.digits 10 (graph.defines.length + callee_cells graph.defines)).length
          ∧ (Nat.digits 10 ln.count).length ≤ ln.pad := by
  obtain ⟨r, hr⟩ := print_graph_total graph
  have hlines := print_graph_lines graph r hfwd hroot hr
  refine ⟨r, hr, hlines, ?_⟩
  intro ln hln
  have hpad := print_graph_pad_lines graph r hr ln hln
  have hdig : ln.pad
      = (Nat.digits 10 (graph.defines.length + callee_cells graph.defines)).length := by
    rw [hpad, print_graph_pad_digits _ _ _ (Nat.le_refl _), print_graph_measure_count]
    simp
  refine ⟨hpad, hdig, ?_⟩
  rw [hdig]
  apply Nat.le_digits_len_le
  have hc : ln.count ∈ r.2.map (fun ln => ln.count) := List.mem_map_of_mem _ hln
  rw [print_graph_count graph r hr, List.mem_range'_1] at hc
  omega

/-- Witness for `index_column_fits`: the filter example, rendered forward from
its root `main`. -/
theorem index_column_fits_witness :
    graph_filtered.reversed = false
    ∧ graph_filtered.rootnode = some 0
    ∧ graph_filtered.defines.length + callee_cells graph_filtered.defines = 11
    ∧ ∃ r, print_graph graph_filtered = some r
      ∧ r.2.length ≤ graph_filtered.defines.length + callee_cells graph_filtered.defines
      ∧ ∀ ln ∈ r.2,
          ln.pad = print_graph_pad (print_graph_measure graph_filtered.defines).2.1
                    (print_graph_measure graph_filtered.defines).2.1 0
          ∧ ln.pad = (Nat.digits 10
              (graph_filtered.defines.length + callee_cells graph_filtered.defines)).length
          ∧ (Nat.digits 10 ln.count).length ≤ ln.pad :=
  ⟨by decide, by decide, by decide,
   index_column_fits graph_filtered (by decide) (by decide)⟩


/-! ## Rendering: which nodes the fallback loop reaches -/

theorem walk_flags {σ : Type} (body : Nat → σ → Option (σ × List line_t))
    (F : σ → Nat → Prop) (sub : List Nat) (s0 : σ)
    (hbody : ∀ c ∈ sub, ∀ s r, body c s = some r →
      ∀ q, F r.1 q → F s q ∨ ∃ ln ∈ r.2, ln.node = q)
    (r : σ × List line_t) (h : walk body sub s0 = some r) :
    ∀ q, F r.1 q → F s0 q ∨ ∃ ln ∈ r.2, ln.node = q := by
  induction sub generalizing s0 r with
  | nil =>
    simp only [walk, Option.some.injEq] at h
    subst h
    intro q hq
    exact Or.inl hq
  | cons c sub ih =>
    unfold walk at h
    split at h
    · exact Option.noConfusion h
    · next s1 out1 h1 =>
      split at h
      · exact Option.noConfusion h
      · next s2 out2 h2 =>
        simp only [Option.some.injEq] at h
        subst h
        intro q hq
        have hc := hbody c (List.mem_cons_self _ _) s0 (s1, out1) h1 q
        have hrest := ih s1 (fun c2 hc2 => hbody c2 (List.mem_cons_of_mem _ hc2)) (s2, out2) h2 q hq
        rcases hrest with h3 | ⟨ln, hln, e⟩
        · rcases hc h3 with h4 | ⟨ln, hln, e⟩
          · exact Or.inl h4
          · exact Or.inr ⟨ln, List.mem_append_left _ hln, e⟩
        · exact Or.inr ⟨ln, List.mem_append_right _ hln, e⟩

/-- A call of `print_preorder` on a node that passes the filter prints a line
for that node. -/
theorem print_preorder_prints_node (fuel : Nat) (graph : graph_t)
    (count node depth maxlen pad : Nat) (r : (graph_t × Nat) × List line_t)
    (h : print_preorder fuel (graph, count) node depth maxlen pad = some r)
    (hs : suppressed graph (deref graph.defines node) = false) :
    ∃ ln ∈ r.2, ln.node = node := by
  cases fuel with
  | zero =>
    rw [print_preorder_zero] at h
    exact Option.noConfusion h
  | succ fuel =>
    rw [print_preorder_succ, if_neg (by simp [hs])] at h
    split at h
    · simp only [Option.some.injEq] at h
      subst h
      exact ⟨_, List.mem_cons_self _ _, rfl⟩
    · split at h
      · simp only [Option.some.injEq] at h
        subst h
        exact ⟨_, List.mem_cons_self _ _, rfl⟩
      · split at h
        · exact Option.noConfusion h
        · simp only [Option.some.injEq] at h
          subst h
          exact ⟨_, List.mem_cons_self _ _, rfl⟩

/-- A `printed` flag that is set after a `print_preorder` call was set before
it, or the call printed a line for that node. -/
theorem print_preorder_flags (fuel : Nat) :
    ∀ (graph : graph_t) (count node depth maxlen pad : Nat)
      (r : (graph_t × Nat) × List line_t),
      print_preorder fuel (graph, count) node depth maxlen pad = some r →
      ∀ q, (deref r.1.1.defines q).printed = true →
        (deref graph.defines q).printed = true ∨ ∃ ln ∈ r.2, ln.node = q := by
  induction fuel with
  | zero =>
    intro graph count node depth maxlen pad r h
    rw [print_preorder_zero] at h
    exact Option.noConfusion h
  | succ fuel ih =>
    intro graph count node depth maxlen pad r h
    rw [print_preorder_succ] at h
    have hmark : ∀ q, (deref (mark_printed graph node).defines q).printed = true →
        (deref graph.defines q).printed = true ∨ q = node := by
      intro q hq
      simp only [mark_printed] at hq
      rw [deref_store] at hq
      by_cases hqn : q = node ∧ node < graph.defines.length
      · exact Or.inr hqn.1
      · rw [if_neg hqn] at hq
        exact Or.inl hq
    by_cases hs : suppressed graph (deref graph.defines node) = true
    · rw [if_pos hs] at h
      simp only [Option.some.injEq] at h
      subst h
      intro q hq
      exact Or.inl hq
    · rw [if_neg hs] at h
      by_cases hpr : (deref graph.defines node).printed = true
      · rw [if_pos hpr] at h
        simp only [Option.some.injEq] at h
        subst h
        intro q hq
        exact Or.inl hq
      · rw [if_neg hpr] at h
        by_cases hd : (depth : Int) ≥ graph.depth
        · rw [if_pos hd] at h
          simp only [Option.some.injEq] at h
          subst h
          intro q hq
          rcases hmark q hq with h1 | h1
          · exact Or.inl h1
          · exact Or.inr ⟨_, List.mem_cons_self _ _, h1.symm⟩
        · rw [if_neg hd] at h
          split at h
          · exact Option.noConfusion h
          · next s out hw =>
            simp only [Option.some.injEq] at h
            subst h
            intro q hq
            have hl := walk_flags _
              (fun (s : graph_t × Nat) q => (deref s.1.defines q).printed = true)
              (deref graph.defines node).list (mark_printed graph node, count + 1)
              (fun c _ s r hb => by
                obtain ⟨g1, c1⟩ := s
                exact ih g1 c1 c _ _ _ r hb)
              (s, out) hw q hq
            rcases hl with h1 | ⟨ln, hln, e⟩
            · rcases hmark q h1 with h2 | h2
              · exact Or.inl h2
              · exact Or.inr ⟨_, List.mem_cons_self _ _, h2.symm⟩
            · exact Or.inr ⟨ln, List.mem_cons_of_mem _ hln, e⟩

theorem print_if_unprinted_flags (fuel maxlen pad cur : Nat) (s : graph_t × Nat)
    (r : (graph_t × Nat) × List line_t)
    (h : print_if_unprinted fuel maxlen pad cur s = some r) :
    ∀ q, (deref r.1.1.defines q).printed = true →
      (deref s.1.defines q).printed = true ∨ ∃ ln ∈ r.2, ln.node = q := by
  obtain ⟨g1, c1⟩ := s
  unfold print_if_unprinted at h
  split at h
  · exact print_preorder_flags fuel g1 c1 cur 0 maxlen pad r h
  · simp only [Option.some.injEq] at h
    subst h
    intro q hq
    exact Or.inl hq

/-- The fallback loop of `print_graph`: every node of the chain that passes
the filter was marked as printed before the loop, or the loop prints a line
for it. -/
theorem fallback_loop_covers (fuel maxlen pad : Nat) (graph : graph_t) (sub : List Nat) :
    ∀ (s0 : graph_t × Nat) (r : (graph_t × Nat) × List line_t),
      same_but_printed graph s0.1 →
      walk (print_if_unprinted fuel maxlen pad) sub s0 = some r →
      ∀ q ∈ sub, suppressed graph (deref graph.defines q) = false →
        (deref s0.1.defines q).printed = true ∨ ∃ ln ∈ r.2, ln.node = q := by
  induction sub with
  | nil =>
    intro s0 r _ _ q hq
    cases hq
  | cons c sub ih =>
    intro s0 r hsame h q hq hsup
    unfold walk at h
    split at h
    · exact Option.noConfusion h
    · next s1 out1 h1 =>
      split at h
      · exact Option.noConfusion h
      · next s2 out2 h2 =>
        simp only [Option.some.injEq] at h
        subst h
        have hsame1 : same_but_printed graph s1.1 :=
          same_but_printed_trans _ _ _ hsame (print_if_unprinted_spec _ _ _ c s0 (s1, out1) h1).1
        rcases List.mem_cons.mp hq with e | hin
        · subst e
          by_cases hpr : (deref s0.1.defines q).printed = true
          · exact Or.inl hpr
          · right
            obtain ⟨g0, c0⟩ := s0
            unfold print_if_unprinted at h1
            rw [if_pos (by simpa using hpr)] at h1
            have hs0 : suppressed g0 (deref g0.defines q) = false := by
              rw [same_but_printed_suppressed graph g0 hsame q]
              exact hsup
            obtain ⟨ln, hln, e⟩ := print_preorder_prints_node fuel g0 c0 q 0 maxlen pad
              (s1, out1) h1 hs0
            exact ⟨ln, List.mem_append_left _ hln, e⟩
        · rcases ih s1 (s2, out2) hsame1 h2 q hin hsup with h3 | ⟨ln, hln, e⟩
          · rcases print_if_unprinted_flags _ _ _ c s0 (s1, out1) h1 q h3 with h4 | ⟨ln, hln, e⟩
            · exact Or.inl h4
            · exact Or.inr ⟨ln, List.mem_append_left _ hln, e⟩
          · exact Or.inr ⟨ln, List.mem_append_right _ hln, e⟩

/-- Claim C28: fallback coverage.  When no root is bound and no node is marked
as printed, forward rendering returns, and for every node of the graph that
passes the filter it prints at least one line, whatever the depth limit and
the callee lists are. -/
theorem fallback_coverage (graph : graph_t) (hfwd : graph.reversed = false)
    (hroot : graph.rootnode = none)
    (hflags : ∀ n ∈ graph.defines, n.printed = false) :
    ∃ r, print_graph graph = some r
      ∧ ∀ q, q < graph.defines.length → suppressed graph (deref graph.defines q) = false →
          ∃ ln ∈ r.2, ln.node = q := by
  obtain ⟨r, hr⟩ := print_graph_total graph
  refine ⟨r, hr, ?_⟩
  intro q hq hsup
  unfold print_graph print_graph_fuel at hr
  simp only [hfwd, Bool.not_false, if_true, hroot, Option.map_eq_some'] at hr
  obtain ⟨a, ha, e⟩ := hr
  subst e
  rcases fallback_loop_covers _ _ _ graph (List.range graph.defines.length) (graph, 1) a
      (same_but_printed_refl graph) ha q (List.mem_range.mpr hq) hsup with h1 | h1
  · have := hflags _ (deref_mem graph.defines q hq)
    simp only at h1
    rw [this] at h1
    exact Bool.noConfusion h1
  · exact h1

/-- Witness for `fallback_coverage`: a file without `main` in which `f` calls
the private `_g` and `_g` calls `h`, with depth limit 1.  The lines are `f`
and `h`; `h`, only reachable through the hidden `_g`, is printed by the
fallback loop. -/
theorem fallback_coverage_witness :
    graph_fallback_private.reversed = false
    ∧ graph_fallback_private.rootnode = none
    ∧ (∀ n ∈ graph_fallback_private.defines, n.printed = false)
    ∧ graph_fallback_private.defines.map (fun n => (n.name, n.list))
        = [("f", [1]), ("_g", [2]), ("h", [])]
    ∧ (print_graph graph_fallback_private).map (fun r => r.2.map (fun ln => ln.node))
        = some [0, 2]
    ∧ ∃ r, print_graph graph_fallback_private = some r
      ∧ ∀ q, q < graph_fallback_private.defines.length →
          suppressed graph_fallback_private (deref graph_fallback_private.defines q) = false →
          ∃ ln ∈ r.2, ln.node = q :=
  ⟨by decide, by decide, by decide, by decide, by decide,
   fallback_coverage graph_fallback_private (by decide) (by decide) (by decide)⟩

end Cflow
